import Mathlib

/-!
A verification development for the libcorkipset BDD engine.

The C sources are shallowly embedded as executable Lean definitions:

* Node ids are tagged naturals (`src/include/ipset/bdd/nodes.h`, spec §3):
  bit 0 set means terminal with the value in the remaining bits; bit 0
  clear means nonterminal, with the remaining bits an arena index.
* The node cache (`struct ipset_node_cache`, `basics.c`) is a record
  holding the arena of nonterminal records, the free list, and the three
  memoization caches.  The C arena is a vector of power-of-two chunks;
  chunk splitting is an addressing detail, so the arena is modelled as a
  single list indexed by `largest_index` order.  The C unique table
  (`node_cache` hash table) always contains exactly the live nonterminal
  records keyed by their contents, so it is represented implicitly: a
  lookup searches the live arena records.  The C free list is threaded
  through the `refcount` fields of dead records; it is modelled as the
  list of indices in chain order (the head is `cache->free_list`).
* Recursive C functions whose termination depends on the DAG shape of
  the node graph take an explicit fuel argument and return `Option`;
  fuel exhaustion, which cannot happen on well-formed caches, returns
  `none`.
-/

/-- A BDD node id: a tagged natural (low bit set = terminal). -/
abbrev NodeId := Nat

/-- `ipset_terminal_node_id`: shift the value left one and set the low bit. -/
def terminalId (v : Nat) : NodeId := 2 * v + 1

/-- `ipset_node_get_type node_id == IPSET_TERMINAL_NODE`: test the low bit. -/
def isTerminal (id : NodeId) : Bool := id % 2 == 1

/-- `ipset_terminal_value`: the value bits of a terminal id. -/
def terminalValue (id : NodeId) : Nat := id / 2

/-- `ipset_nonterminal_value`: the arena index bits of a nonterminal id. -/
def nodeIndex (id : NodeId) : Nat := id / 2

/-- `ipset_nonterminal_node_id`: tag an arena index as a nonterminal id. -/
def nonterminalId (i : Nat) : NodeId := 2 * i

/-- `struct ipset_node`: a nonterminal record (variable, low child, high
child, reference count).  The C field `variable` is named `var` here
because `variable` is a Lean keyword. -/
structure BddNode where
  var : Nat
  low : NodeId
  high : NodeId
  refcount : Nat
deriving Repr, DecidableEq

/-- `struct ipset_node_cache`: the arena of nonterminal records, the free
list, and the three operator caches (`and_cache`, `or_cache`,
`ite_cache`), each an association list keyed by node-id tuples. -/
structure NodeCache where
  arena : List BddNode
  freeList : List Nat
  andCache : List ((NodeId × NodeId) × NodeId)
  orCache : List ((NodeId × NodeId) × NodeId)
  iteCache : List ((NodeId × NodeId × NodeId) × NodeId)
deriving Repr, DecidableEq

/-- `ipset_node_cache_new`: an empty cache. -/
def ipset_node_cache_new : NodeCache := ⟨[], [], [], [], []⟩

/-- `ipset_node_cache_terminal`: terminals need no storage (spec §4.1). -/
def ipset_node_cache_terminal (_c : NodeCache) (v : Nat) : NodeId := terminalId v

/-- Read the arena record at an index (C: chunk addressing by shift and mask). -/
def getNode (c : NodeCache) (i : Nat) : BddNode := c.arena.getD i ⟨0, 0, 0, 0⟩

/-- Overwrite the arena record at an index. -/
def setNode (c : NodeCache) (i : Nat) (n : BddNode) : NodeCache :=
  { c with arena := c.arena.set i n }

/-- An index holds a live record iff it has been allocated and is not on
the free list. -/
def isLive (c : NodeCache) (i : Nat) : Bool :=
  decide (i < c.arena.length) && !(c.freeList.contains i)

/-- A node id is usable in a cache: a terminal, or a live nonterminal. -/
def validId (c : NodeCache) (id : NodeId) : Bool :=
  isTerminal id || isLive c (nodeIndex id)

/-- Sum of the refcounts of all live records; a decreasing measure for
`ipset_node_decref`. -/
def totalRefcount (c : NodeCache) : Nat :=
  ∑ i ∈ Finset.range c.arena.length, if isLive c i then (getNode c i).refcount else 0

/-- `ipset_node_incref`: no-op on terminals, bump the refcount of a
nonterminal.  (The C function also returns the id, unchanged.) -/
def ipset_node_incref (c : NodeCache) (id : NodeId) : NodeCache :=
  if isTerminal id then c
  else
    let i := nodeIndex id
    setNode c i { getNode c i with refcount := (getNode c i).refcount + 1 }

/-- `ipset_node_decref`: no-op on terminals.  On a nonterminal, decrement
the refcount; at zero, recursively release both children, remove the
record from the unique table (implicit here) and push the index onto the
free list.  The fuel bounds the cascade depth; `none` = fuel exhausted.
(A freed record's refcount field holds the free-list link in C; the link
is carried by `freeList` here, so the field is left at zero.) -/
def ipset_node_decref : Nat → NodeCache → NodeId → Option NodeCache
  | 0, _, _ => none
  | fuel + 1, c, id =>
    if isTerminal id then some c
    else
      let i := nodeIndex id
      let n := getNode c i
      if n.refcount == 1 then do
        let c₁ := setNode c i { n with refcount := 0 }
        let c₂ ← ipset_node_decref fuel c₁ n.low
        let c₃ ← ipset_node_decref fuel c₂ n.high
        some { c₃ with freeList := i :: c₃.freeList }
      else some (setNode c i { n with refcount := n.refcount - 1 })

/-- `ipset_node_decref` with enough fuel for any cascade (each recursive
level is preceded by a refcount decrement, so `totalRefcount c + 1`
always suffices). -/
def ipset_node_decrefT (c : NodeCache) (id : NodeId) : NodeCache :=
  (ipset_node_decref (totalRefcount c + 1) c id).getD c

/-- The unique table lookup: the C `node_cache` hash table holds exactly
the live records keyed by (variable, low, high), so a lookup is a search
of the live arena records for a matching triple. -/
def lookupUnique (c : NodeCache) (v : Nat) (low high : NodeId) : Option Nat :=
  (List.range c.arena.length).find? fun i =>
    isLive c i && (getNode c i).var == v && (getNode c i).low == low &&
      (getNode c i).high == high

/-- `ipset_node_cache_nonterminal`: redundant nodes (low == high) are
collapsed to the common child, releasing one reference; otherwise the
unique table is consulted; on a hit the existing id is returned with the
caller's two child references absorbed; on a miss an index is allocated
(free list first, else bump `largest_index`) and a fresh record with
refcount 1 is installed. -/
def ipset_node_cache_nonterminal (c : NodeCache) (v : Nat) (low high : NodeId) :
    NodeCache × NodeId :=
  if low == high then
    (ipset_node_decrefT c high, low)
  else
    match lookupUnique c v low high with
    | some j =>
      let c₁ := ipset_node_incref c (nonterminalId j)
      let c₂ := ipset_node_decrefT c₁ low
      let c₃ := ipset_node_decrefT c₂ high
      (c₃, nonterminalId j)
    | none =>
      match c.freeList with
      | i :: rest =>
        ({ c with arena := c.arena.set i ⟨v, low, high, 1⟩, freeList := rest },
         nonterminalId i)
      | [] =>
        ({ c with arena := c.arena ++ [⟨v, low, high, 1⟩] },
         nonterminalId c.arena.length)

/-- `ipset_node_evaluate`: follow the assignment from the root until a
terminal is reached and return its value.  The C loop terminates because
live graphs are ordered DAGs; the fuel is the modelling artifact bounding
the walk. -/
def ipset_node_evaluate : Nat → NodeCache → NodeId → (Nat → Bool) → Option Nat
  | 0, _, _, _ => none
  | fuel + 1, c, id, a =>
    if isTerminal id then some (terminalValue id)
    else
      let n := getNode c (nodeIndex id)
      ipset_node_evaluate fuel c (if a n.var then n.high else n.low) a

/-- The value of a node under an assignment, at some sufficient fuel.
`ipset_node_evaluate` is fuel-monotone, so this is deterministic. -/
def Evals (c : NodeCache) (id : NodeId) (a : Nat → Bool) (v : Nat) : Prop :=
  ∃ fuel, ipset_node_evaluate fuel c id a = some v

/-! ### Binary operator engine (`binary-operators.c`) -/

namespace BinaryOps

/-- `ipset_binary_key_commutative`: order the operands so the smaller id
comes first. -/
def commKey (lhs rhs : NodeId) : NodeId × NodeId :=
  if lhs < rhs then (lhs, rhs) else (rhs, lhs)

/-- Lookup in a binary operator cache. -/
def lookupBin (entries : List ((NodeId × NodeId) × NodeId)) (k : NodeId × NodeId) :
    Option NodeId :=
  (entries.find? fun e => e.1 == k).map (·.2)

/-- Select the operator cache (`and_cache` or `or_cache`). -/
def getOpCache (c : NodeCache) (useOr : Bool) : List ((NodeId × NodeId) × NodeId) :=
  if useOr then c.orCache else c.andCache

/-- Record a result in the selected operator cache.  (In C the entry is
created by `cork_hash_table_get_or_create` before the operator runs and
its value is filled in afterwards; reading the unset value is undefined
behaviour and cannot happen on ordered graphs, so the entry is inserted
after the computation here.) -/
def putOpCache (c : NodeCache) (useOr : Bool) (e : (NodeId × NodeId) × NodeId) :
    NodeCache :=
  if useOr then { c with orCache := e :: c.orCache }
  else { c with andCache := e :: c.andCache }

mutual

/-- `cached_op`: check the memoization cache on the commutative key; on a
hit return the stored id without adjusting any refcounts; on a miss run
the operator and record the result. -/
def cached_op (fuel : Nat) (c : NodeCache) (useOr : Bool) (op : Nat → Nat → Nat)
    (lhs rhs : NodeId) : Option (NodeCache × NodeId) :=
  match fuel with
  | 0 => none
  | fuel' + 1 =>
    let key := commKey lhs rhs
    match lookupBin (getOpCache c useOr) key with
    | some r => some (c, r)
    | none => do
      let (c₁, result) ← apply_op fuel' c useOr op lhs rhs
      some (putOpCache c₁ useOr (key, result), result)
termination_by (fuel, 0)

/-- `apply_op`: both terminal — apply the operator to the values (the
result is not checked for being in the terminal range); one terminal —
recurse down the nonterminal; both nonterminal — recurse down the
node(s) with the smaller variable. -/
def apply_op (fuel : Nat) (c : NodeCache) (useOr : Bool) (op : Nat → Nat → Nat)
    (lhs rhs : NodeId) : Option (NodeCache × NodeId) :=
  if isTerminal lhs then
    if isTerminal rhs then
      some (c, terminalId (op (terminalValue lhs) (terminalValue rhs)))
    else
      recurse_left fuel c useOr op rhs lhs
  else
    if isTerminal rhs then
      recurse_left fuel c useOr op lhs rhs
    else
      let lhs_node := getNode c (nodeIndex lhs)
      let rhs_node := getNode c (nodeIndex rhs)
      if lhs_node.var == rhs_node.var then
        recurse_both fuel c useOr op lhs rhs
      else if lhs_node.var < rhs_node.var then
        recurse_left fuel c useOr op lhs rhs
      else
        recurse_left fuel c useOr op rhs lhs
termination_by (fuel, 2)

/-- `recurse_left`: recurse down the subtrees of `node`, combining each
with `other`.  (Live records are immutable while referenced, so the
record is read once at entry.) -/
def recurse_left (fuel : Nat) (c : NodeCache) (useOr : Bool) (op : Nat → Nat → Nat)
    (node other : NodeId) : Option (NodeCache × NodeId) := do
  let n := getNode c (nodeIndex node)
  let (c₁, result_low) ← cached_op fuel c useOr op n.low other
  let (c₂, result_high) ← cached_op fuel c₁ useOr op n.high other
  some (ipset_node_cache_nonterminal c₂ n.var result_low result_high)
termination_by (fuel, 1)

/-- `recurse_both`: recurse down both subtrees simultaneously. -/
def recurse_both (fuel : Nat) (c : NodeCache) (useOr : Bool) (op : Nat → Nat → Nat)
    (lhs rhs : NodeId) : Option (NodeCache × NodeId) := do
  let ln := getNode c (nodeIndex lhs)
  let rn := getNode c (nodeIndex rhs)
  let (c₁, result_low) ← cached_op fuel c useOr op ln.low rn.low
  let (c₂, result_high) ← cached_op fuel c₁ useOr op ln.high rn.high
  some (ipset_node_cache_nonterminal c₂ ln.var result_low result_high)
termination_by (fuel, 1)

end

end BinaryOps

/-- `and_op`: bitwise AND of the two terminal values. -/
def and_op (lhs_value rhs_value : Nat) : Nat := lhs_value &&& rhs_value

/-- `or_op`: bitwise OR of the two terminal values. -/
def or_op (lhs_value rhs_value : Nat) : Nat := lhs_value ||| rhs_value

/-- `ipset_node_cache_and` (fuel is the modelling artifact). -/
def ipset_node_cache_and (fuel : Nat) (c : NodeCache) (lhs rhs : NodeId) :
    Option (NodeCache × NodeId) :=
  BinaryOps.cached_op fuel c false and_op lhs rhs

/-- `ipset_node_cache_or` (fuel is the modelling artifact). -/
def ipset_node_cache_or (fuel : Nat) (c : NodeCache) (lhs rhs : NodeId) :
    Option (NodeCache × NodeId) :=
  BinaryOps.cached_op fuel c true or_op lhs rhs

/-! ### Trinary operator engine (`trinary-operators.c`) -/

namespace TrinaryOps

/-- Lookup in the ITE cache (key `(f, g, h)`, no canonicalization). -/
def lookupIte (entries : List ((NodeId × NodeId × NodeId) × NodeId))
    (k : NodeId × NodeId × NodeId) : Option NodeId :=
  (entries.find? fun e => e.1 == k).map (·.2)

mutual

/-- `cached_ite`: the trivial reductions, in order, then the ITE cache,
then `apply_ite` with the result recorded. -/
def cached_ite (fuel : Nat) (c : NodeCache) (f g h : NodeId) :
    Option (NodeCache × NodeId) :=
  match fuel with
  | 0 => none
  | fuel' + 1 =>
    if isTerminal f then
      some (c, if terminalValue f == 0 then h else g)
    else if g == h then
      some (c, g)
    else if isTerminal g && isTerminal h && terminalValue g == 1 &&
        terminalValue h == 0 then
      some (c, f)
    else
      match lookupIte c.iteCache (f, g, h) with
      | some r => some (c, r)
      | none => do
        let (c₁, r) ← apply_ite fuel' c f g h
        some ({ c₁ with iteCache := ((f, g, h), r) :: c₁.iteCache }, r)
termination_by (fuel, 0)

/-- `apply_ite`: `f` is a nonterminal (the C code asserts it; violating
the assertion is modelled as `none`).  Split each operand on the minimum
nonterminal variable and recurse. -/
def apply_ite (fuel : Nat) (c : NodeCache) (f g h : NodeId) :
    Option (NodeCache × NodeId) :=
  if isTerminal f then none
  else
    let f_node := getNode c (nodeIndex f)
    let m₁ := f_node.var
    let m₂ :=
      if !isTerminal g && (getNode c (nodeIndex g)).var < m₁ then
        (getNode c (nodeIndex g)).var
      else m₁
    let m :=
      if !isTerminal h && (getNode c (nodeIndex h)).var < m₂ then
        (getNode c (nodeIndex h)).var
      else m₂
    let split := fun (x : NodeId) =>
      if !isTerminal x && (getNode c (nodeIndex x)).var == m then
        ((getNode c (nodeIndex x)).low, (getNode c (nodeIndex x)).high)
      else (x, x)
    do
      let (c₁, low_result) ← cached_ite fuel c (split f).1 (split g).1 (split h).1
      let (c₂, high_result) ← cached_ite fuel c₁ (split f).2 (split g).2 (split h).2
      some (ipset_node_cache_nonterminal c₂ m low_result high_result)
termination_by (fuel, 1)

end

end TrinaryOps

/-- `ipset_node_cache_ite` (fuel is the modelling artifact). -/
def ipset_node_cache_ite (fuel : Nat) (c : NodeCache) (f g h : NodeId) :
    Option (NodeCache × NodeId) :=
  TrinaryOps.cached_ite fuel c f g h

/-! ### Fused insertion (`ipset_apply_or` and friends, `basics.c`) -/

/-- `struct ipset_fake_node`: a BDD node given by an assignment.  The C
`assignment` function pointer and `user_data` are combined into one Lean
function. -/
structure FakeNode where
  current_var : Nat
  var_count : Nat
  assignment : Nat → Bool
  value : Nat

namespace FusedOr

mutual

/-- `ipset_apply_or`: the binary APPLY for `new_element || old_set`
(short-circuit `||`, the element's value takes precedence), with the LHS
given by an assignment instead of a BDD node, and no memoization. -/
def ipset_apply_or (fuel : Nat) (c : NodeCache) (lhs : FakeNode) (rhs : NodeId) :
    Option (NodeCache × NodeId) :=
  match fuel with
  | 0 => none
  | fuel' + 1 =>
    if lhs.current_var == lhs.var_count then
      -- LHS is a terminal: 0 || Y = Y, X || Y = X
      if lhs.value == 0 then
        some (ipset_node_incref c rhs, rhs)
      else
        some (c, terminalId lhs.value)
    else
      if isTerminal rhs then
        recurse_left fuel' c lhs rhs
      else
        let rhs_node := getNode c (nodeIndex rhs)
        if lhs.current_var == rhs_node.var then
          recurse_both fuel' c lhs rhs
        else if lhs.current_var < rhs_node.var then
          recurse_left fuel' c lhs rhs
        else
          recurse_right fuel' c lhs rhs
termination_by (fuel, 0)

/-- `recurse_left` (fused): recurse into the LHS only; the branch chosen
by the assignment is the true recursion, the other branch is the
(incref'd) RHS. -/
def recurse_left (fuel : Nat) (c : NodeCache) (lhs : FakeNode) (rhs : NodeId) :
    Option (NodeCache × NodeId) :=
  if lhs.assignment lhs.current_var then do
    let (c₁, result_high) ←
      ipset_apply_or fuel c { lhs with current_var := lhs.current_var + 1 } rhs
    let c₂ := ipset_node_incref c₁ rhs
    some (ipset_node_cache_nonterminal c₂ lhs.current_var rhs result_high)
  else do
    let (c₁, result_low) ←
      ipset_apply_or fuel c { lhs with current_var := lhs.current_var + 1 } rhs
    let c₂ := ipset_node_incref c₁ rhs
    some (ipset_node_cache_nonterminal c₂ lhs.current_var result_low rhs)
termination_by (fuel, 1)

/-- `recurse_right` (fused): recurse into the RHS only.  (As in the C
code, the result is labelled with `lhs.current_var`; this branch is
unreachable from `ipset_node_insert` on ordered graphs.) -/
def recurse_right (fuel : Nat) (c : NodeCache) (lhs : FakeNode) (rhs : NodeId) :
    Option (NodeCache × NodeId) := do
  let rhs_node := getNode c (nodeIndex rhs)
  let (c₁, result_low) ← ipset_apply_or fuel c lhs rhs_node.low
  let (c₂, result_high) ← ipset_apply_or fuel c₁ lhs rhs_node.high
  some (ipset_node_cache_nonterminal c₂ lhs.current_var result_low result_high)
termination_by (fuel, 1)

/-- `recurse_both` (fused): recurse into both sides.  The branch not
chosen by the assignment pairs the RHS child with a terminal-0 fake node
(`other`). -/
def recurse_both (fuel : Nat) (c : NodeCache) (lhs : FakeNode) (rhs : NodeId) :
    Option (NodeCache × NodeId) :=
  let rhs_node := getNode c (nodeIndex rhs)
  let other : FakeNode := ⟨lhs.var_count, lhs.var_count, lhs.assignment, 0⟩
  if lhs.assignment lhs.current_var then do
    let (c₁, result_high) ←
      ipset_apply_or fuel c { lhs with current_var := lhs.current_var + 1 } rhs_node.high
    let (c₂, result_low) ← ipset_apply_or fuel c₁ other rhs_node.low
    some (ipset_node_cache_nonterminal c₂ lhs.current_var result_low result_high)
  else do
    let (c₁, result_low) ←
      ipset_apply_or fuel c { lhs with current_var := lhs.current_var + 1 } rhs_node.low
    let (c₂, result_high) ← ipset_apply_or fuel c₁ other rhs_node.high
    some (ipset_node_cache_nonterminal c₂ lhs.current_var result_low result_high)
termination_by (fuel, 1)

end

end FusedOr

/-- `ipset_node_insert`: fused insertion of the element described by the
assignment over variables `0 .. var_count - 1` with the given value.
The fuel `var_count + 2` suffices on ordered graphs since each recursion
level advances `current_var`. -/
def ipset_node_insert (c : NodeCache) (node : NodeId) (assignment : Nat → Bool)
    (var_count : Nat) (value : Nat) : Option (NodeCache × NodeId) :=
  FusedOr.ipset_apply_or (var_count + 2) c ⟨0, var_count, assignment, value⟩ node

/-! ### Serializer input (`read.c`) -/

/-- Error kinds surfaced by the loader: `file` models the glib
`G_FILE_ERROR` raised by `create_errno_error` on a short read, `parse`
models `IPSET_ERROR_PARSE_ERROR`. -/
inductive LoadErr where
  | file
  | parse
deriving Repr, DecidableEq

/-- `read_uint8/16/32/64`: big-endian read of `k` bytes from the stream;
`none` models a short read. -/
def readBE : Nat → List Nat → Option (Nat × List Nat)
  | 0, s => some (0, s)
  | _ + 1, [] => none
  | k + 1, b :: rest => (readBE k rest).map fun vr => (b * 256 ^ k + vr.1, vr.2)

/-- Big-endian encoding of `v` in `k` bytes (for describing streams). -/
def beBytes : Nat → Nat → List Nat
  | 0, _ => []
  | k + 1, v => (v / 256 ^ k) % 256 :: beBytes k v

/-- `verify_cap`: reject when the bytes read disagree with the cap
`len - (6 + 2 + 8)` derived from the total-length header field (both
directions are `IPSET_ERROR_PARSE_ERROR`).  In C the cap is computed in
`gsize` (unsigned 64-bit): when `len < 16` the subtraction wraps to at
least `2^64 - 16`, which exceeds every possible byte count of a v1
stream body (at most `4 + 9·(2^32 - 1)`), so the first comparison
(`bytes_read < cap`, "extra data") fires; the model makes that wrapped
case an explicit guard instead of using wrapping arithmetic. -/
def verify_cap (bytes_read len : Nat) : Except LoadErr Unit :=
  if len < 6 + 2 + 8 then Except.error LoadErr.parse
  else if bytes_read < len - (6 + 2 + 8) then Except.error LoadErr.parse
  else if bytes_read > len - (6 + 2 + 8) then Except.error LoadErr.parse
  else Except.ok ()

/-- The stream-id translation table (`cache_ids` in C): serialized id →
node id. -/
def lookupTable (table : List (Int × NodeId)) (k : Int) : Option NodeId :=
  (table.find? fun e => e.1 == k).map (·.2)

/-- Resolve a serialized low/high field: a 32-bit word read from the
stream, reinterpreted as signed (`gint32`).  Non-negative = terminal
value; negative = back-reference looked up in the translation table.
`g_hash_table_lookup` returns `NULL` (the null node id, 0) when the key
is absent, which the C code uses without checking. -/
def resolveStreamId (c : NodeCache) (table : List (Int × NodeId)) (w : Nat) : NodeId :=
  let signed : Int := if w < 2 ^ 31 then (w : Int) else (w : Int) - 2 ^ 32
  if 0 ≤ signed then ipset_node_cache_terminal c signed.toNat
  else (lookupTable table signed).getD 0

/-- The nonterminal-reading loop of `load_v1`: read `count` serialized
nodes (1-byte variable, 4-byte low, 4-byte high), construct each in the
node cache, and record it in the translation table under the serialized
id (−1, −2, …).  Returns the cache together with the last constructed
node and the remaining stream, or the error and the cache as left by the
failure. -/
def load_v1_nodes : NodeCache → List (Int × NodeId) → NodeId → Nat → Int →
    List Nat → NodeCache × Except LoadErr (NodeId × List Nat)
  | c, _, last, 0, _, s => (c, Except.ok (last, s))
  | c, table, _, count + 1, sid, s =>
    match readBE 1 s with
    | none => (c, Except.error LoadErr.file)
    | some (vr, s₁) =>
      match readBE 4 s₁ with
      | none => (c, Except.error LoadErr.file)
      | some (lw, s₂) =>
        match readBE 4 s₂ with
        | none => (c, Except.error LoadErr.file)
        | some (hw, s₃) =>
          let low_id := resolveStreamId c table lw
          let high_id := resolveStreamId c table hw
          let (c', result) := ipset_node_cache_nonterminal c vr low_id high_id
          load_v1_nodes c' ((sid, result) :: table) result count (sid - 1) s₃

/-- The body of `load_v1` after the total length and the nonterminal
count have been read (factored out of the C function for the proofs).
The cap on the remaining bytes is the length minus magic, version and
length field (see `verify_cap` for the `gsize` arithmetic).  With count
0 a
single 4-byte terminal value follows; otherwise the nonterminal
records.  Finally the cap is checked.  The cache is returned in every
case; the C error path only destroys the translation table. -/
def load_v1_with (c : NodeCache) (len n_count : Nat) (s₂ : List Nat) :
    NodeCache × Except LoadErr NodeId :=
  if n_count == 0 then
    match readBE 4 s₂ with
    | none => (c, Except.error LoadErr.file)
    | some (value, _) =>
      match verify_cap (4 + 4) len with
      | Except.error e => (c, Except.error e)
      | Except.ok _ => (c, Except.ok (ipset_node_cache_terminal c value))
  else
    match load_v1_nodes c [] 0 n_count (-1) s₂ with
    | (c', Except.error e) => (c', Except.error e)
    | (c', Except.ok (result, _)) =>
      match verify_cap (4 + 9 * n_count) len with
      | Except.error e => (c', Except.error e)
      | Except.ok _ => (c', Except.ok result)

/-- `load_v1`: read the 8-byte total length and the 4-byte nonterminal
count, then continue with `load_v1_with`. -/
def load_v1 (c : NodeCache) (s : List Nat) : NodeCache × Except LoadErr NodeId :=
  match readBE 8 s with
  | none => (c, Except.error LoadErr.file)
  | some (len, s₁) =>
    match readBE 4 s₁ with
    | none => (c, Except.error LoadErr.file)
    | some (n_count, s₂) => load_v1_with c len n_count s₂

/-- The magic bytes `"IP set"`. -/
def magicBytes : List Nat := [73, 80, 32, 115, 101, 116]

/-- `ipset_node_cache_load`: check the magic number, read the 2-byte
version, and dispatch to the version-1 reader. -/
def ipset_node_cache_load (c : NodeCache) (s : List Nat) :
    NodeCache × Except LoadErr NodeId :=
  if s.length < 6 then (c, Except.error LoadErr.parse)
  else if s.take 6 ≠ magicBytes then (c, Except.error LoadErr.parse)
  else
    match readBE 2 (s.drop 6) with
    | none => (c, Except.error LoadErr.file)
    | some (version, s₁) =>
      if version == 1 then load_v1 c s₁
      else (c, Except.error LoadErr.parse)

/-- The number of live nonterminal records in a cache. -/
def liveCount (c : NodeCache) : Nat :=
  ((List.range c.arena.length).filter fun i => isLive c i).length

/-! ### Text-file loading (`set/read-file.c`)

`ipset_read_text_file` drives external collaborators: `fgets`, the IP
parser `cork_ip_init`, the CIDR validator `cork_ip_is_valid_network`,
and the set operations declared in `include/ipset/ipset.h` whose
definitions are not under `src/`.  An input line is therefore classified
before the loop: lines that the C code skips (comments, blank lines,
parse failures, invalid CIDR blocks — all reported to stderr and
`continue`d) become `TextLine.skip`; successfully parsed lines become
`TextLine.entry` carrying the leading-`!` flag and the set of addresses
the `ADDR` or `ADDR/PREFIX` entry covers. -/

/-- Modelled from the spec: a set over the (abstract) address space,
identified with its membership indicator (spec §3, "Set ... membership
indicator"). -/
abbrev IpSet := Nat → Bool

/-- Modelled from the spec: `ipset_ip_add` / `ipset_ip_add_network`
(declared in `include/ipset/ipset.h`; definitions not under `src/`).
Spec §4.5: replace the set by its union with the entry's addresses. -/
def ipset_ip_add (s : IpSet) (e : Nat → Bool) : IpSet := fun y => e y || s y

/-- Modelled from the spec: `ipset_ip_remove` / `ipset_ip_remove_network`
(declared in `include/ipset/ipset.h`; definitions not under `src/`).
Spec §4.5: `set.root := and(set.root, not(element))`. -/
def ipset_ip_remove (s : IpSet) (e : Nat → Bool) : IpSet := fun y => !e y && s y

/-- A classified input line (see the section comment). -/
inductive TextLine where
  | skip
  | entry (negated : Bool) (e : Nat → Bool)

/-- The `while (fgets(...))` loop of `ipset_read_text_file`: additions
are applied to the set immediately; negated entries are appended (in
file order, `cork_array_append_get`) to the removals array. -/
def readTextLoop : List TextLine → IpSet → List (Nat → Bool) →
    IpSet × List (Nat → Bool)
  | [], s, removals => (s, removals)
  | TextLine.skip :: rest, s, removals => readTextLoop rest s removals
  | TextLine.entry true e :: rest, s, removals =>
      readTextLoop rest s (removals ++ [e])
  | TextLine.entry false e :: rest, s, removals =>
      readTextLoop rest (ipset_ip_add s e) removals

/-- `ipset_read_text_file`: start from the empty set (`ipset_init`), run
the line loop, then combine the deferred removals with the set in file
order. -/
def ipset_read_text_file (lines : List TextLine) : IpSet :=
  let (s, removals) := readTextLoop lines (fun _ => false) []
  removals.foldl ipset_ip_remove s

/-- The entries added by a line list, in file order. -/
def addsOf : List TextLine → List (Nat → Bool)
  | [] => []
  | TextLine.entry false e :: rest => e :: addsOf rest
  | _ :: rest => addsOf rest

/-- The entries removed by a line list, in file order. -/
def removalsOf : List TextLine → List (Nat → Bool)
  | [] => []
  | TextLine.entry true e :: rest => e :: removalsOf rest
  | _ :: rest => removalsOf rest

/-- (U1): at most one live nonterminal record per (variable, low, high)
triple. -/
def U1 (c : NodeCache) : Prop :=
  ∀ i < c.arena.length, ∀ j < c.arena.length,
    isLive c i = true → isLive c j = true →
    (getNode c i).var = (getNode c j).var →
    (getNode c i).low = (getNode c j).low →
    (getNode c i).high = (getNode c j).high → i = j

/-- (U2): no live nonterminal has equal children. -/
def U2 (c : NodeCache) : Prop :=
  ∀ i < c.arena.length, isLive c i = true →
    (getNode c i).low ≠ (getNode c i).high

/-- Free-list well-formedness: entries index the arena, are distinct,
and point at records whose refcount field is zero (the C code stores the
free-list link there; the model leaves the field zeroed). -/
def FLwf (c : NodeCache) : Prop :=
  (∀ i ∈ c.freeList, i < c.arena.length ∧ (getNode c i).refcount = 0) ∧
    c.freeList.Nodup

/-- The full invariant carried through every cache operation. -/
def Inv3 (c : NodeCache) : Prop := U1 c ∧ U2 c ∧ FLwf c

/-- A child reference is well formed for a record labelled `v`: a
terminal, or a live nonterminal whose variable is strictly larger
(ordered graphs). -/
def childOk (c : NodeCache) (v : Nat) (child : NodeId) : Bool :=
  isTerminal child ||
    (isLive c (nodeIndex child) &&
      decide (v < (getNode c (nodeIndex child)).var))

/-- A node id whose reference is actually held: a terminal, or a live
nonterminal with a positive refcount. -/
def strongValid (c : NodeCache) (id : NodeId) : Bool :=
  isTerminal id ||
    (isLive c (nodeIndex id) &&
      decide (1 ≤ (getNode c (nodeIndex id)).refcount))

/-- The variable of a node, with terminals at the bound (they sort after
every variable). -/
def varOf (c : NodeCache) (vb : Nat) (id : NodeId) : Nat :=
  if isTerminal id then vb else (getNode c (nodeIndex id)).var

/-- The number of child edges of live records that point at arena index
`i`. -/
def parentOcc (c : NodeCache) (i : Nat) : Nat :=
  ∑ j ∈ Finset.range c.arena.length,
    if isLive c j = true then
      (if (getNode c j).low = nonterminalId i then 1 else 0) +
      (if (getNode c j).high = nonterminalId i then 1 else 0)
    else 0

/-- The assignment `a` matches the partial assignment of a fake node on
the remaining variables `cv .. vc - 1`. -/
def matchesFrom (cv vc : Nat) (assign a : Nat → Bool) : Prop :=
  ∀ k, cv ≤ k → k < vc → a k = assign k

/-- Total evaluation: `vb + 2` fuel always suffices on ordered graphs
with variables below `vb`. -/
def evalT (c : NodeCache) (vb : Nat) (id : NodeId) (a : Nat → Bool) : Nat :=
  (ipset_node_evaluate (vb + 2) c id a).getD 0

/-- The full well-formedness invariant for a cache under mutation, with
`O` the multiset of node ids whose references are currently held by the
mutator and `vb` the variable bound: the free list and unique table are
well formed, the graph is ordered with valid children, every live record
carries at least one reference, every held id is valid, and every
refcount dominates the number of internal child edges plus held
references to the record. -/
structure WFO (c : NodeCache) (O : List NodeId) (vb : Nat) : Prop where
  flwf : FLwf c
  u1 : U1 c
  u2 : U2 c
  nz : ∀ i, isLive c i = true → 1 ≤ (getNode c i).refcount
  graph : ∀ i, isLive c i = true →
    (getNode c i).var < vb ∧
    childOk c (getNode c i).var (getNode c i).low = true ∧
    childOk c (getNode c i).var (getNode c i).high = true
  owned : ∀ id ∈ O, validId c id = true
  acc : ∀ i, isLive c i = true →
    parentOcc c i + O.count (nonterminalId i) ≤ (getNode c i).refcount

/-- Modelled from the spec: the element BDD of a partial assignment over
variables `0 .. vc - 1` with value `v`, "constructed directly as a chain
of nonterminals followed by terminal v / terminal 0": built bottom-up,
each level branching to the terminal 0 on the side not chosen by the
assignment. -/
def specElemChain (c : NodeCache) (a : Nat → Bool) (vc v : Nat) :
    NodeCache × NodeId :=
  (List.range vc).reverse.foldl
    (fun (p : NodeCache × NodeId) i =>
      if a i then ipset_node_cache_nonterminal p.1 i (terminalId 0) p.2
      else ipset_node_cache_nonterminal p.1 i p.2 (terminalId 0))
    (c, terminalId v)

/-- The caches reachable from a fresh cache by any sequence of the three
cache operations; `incref` carries its C precondition (the caller holds a
reference, so the id is a terminal or a live nonterminal). -/
inductive CacheReachable : NodeCache → Prop where
  | new : CacheReachable ipset_node_cache_new
  | nonterminal (c : NodeCache) (v : Nat) (low high : NodeId) :
      CacheReachable c →
      CacheReachable (ipset_node_cache_nonterminal c v low high).1
  | incref (c : NodeCache) (id : NodeId) :
      CacheReachable c → validId c id = true →
      CacheReachable (ipset_node_incref c id)
  | decref (fuel : Nat) (c : NodeCache) (id : NodeId) (c' : NodeCache) :
      CacheReachable c → ipset_node_decref fuel c id = some c' →
      CacheReachable c'

/-- A cache transformation that keeps every live record live with its
shape (only refcounts, the free list and fresh indices may change). -/
def PresMap (c c' : NodeCache) : Prop :=
  ∀ k, isLive c k = true → isLive c' k = true ∧
    (getNode c' k).var = (getNode c k).var ∧
    (getNode c' k).low = (getNode c k).low ∧
    (getNode c' k).high = (getNode c k).high

/-- The contract of the fused-or engine on an outcome: success, the
invariant extended with the result's reference, preservation of live
records, a held result labelled no lower than the inputs, and the
short-circuit-or semantics (the element's value takes precedence on
matching assignments). -/
def OrOutcome (c : NodeCache) (lhs : FakeNode) (rhs : NodeId)
    (O : List NodeId) (out : Option (NodeCache × NodeId)) : Prop :=
  ∃ c' r, out = some (c', r) ∧
    WFO c' (r :: O) lhs.var_count ∧
    PresMap c c' ∧
    strongValid c' r = true ∧
    min lhs.current_var (varOf c lhs.var_count rhs) ≤
      varOf c' lhs.var_count r ∧
    (∀ a, matchesFrom lhs.current_var lhs.var_count lhs.assignment a →
      lhs.value ≠ 0 → evalT c' lhs.var_count r a = lhs.value) ∧
    (∀ a, ¬matchesFrom lhs.current_var lhs.var_count lhs.assignment a ∨
      lhs.value = 0 →
      evalT c' lhs.var_count r a = evalT c lhs.var_count rhs a)

/-! ### Basic facts about node ids -/

@[simp] theorem isTerminal_terminalId (v : Nat) : isTerminal (terminalId v) = true := by
  simp [isTerminal, terminalId, Nat.add_mod, Nat.mul_mod_right]

@[simp] theorem terminalValue_terminalId (v : Nat) : terminalValue (terminalId v) = v := by
  show (2 * v + 1) / 2 = v
  omega

@[simp] theorem isTerminal_nonterminalId (i : Nat) :
    isTerminal (nonterminalId i) = false := by
  simp [isTerminal, nonterminalId, Nat.mul_mod_right]

@[simp] theorem nodeIndex_nonterminalId (i : Nat) : nodeIndex (nonterminalId i) = i := by
  show (2 * i) / 2 = i
  omega

theorem terminalId_injective {v w : Nat} (h : terminalId v = terminalId w) : v = w := by
  have h' : 2 * v + 1 = 2 * w + 1 := h
  omega

theorem nonterminalId_injective {i j : Nat} (h : nonterminalId i = nonterminalId j) :
    i = j := by
  have h' : 2 * i = 2 * j := h
  omega

theorem eq_terminalId_of_isTerminal {id : Nat} (h : isTerminal id = true) :
    id = terminalId (terminalValue id) := by
  have h' : id % 2 = 1 := by simpa [isTerminal] using h
  show id = 2 * (id / 2) + 1
  omega

theorem eq_nonterminalId_of_not_isTerminal {id : Nat} (h : isTerminal id = false) :
    id = nonterminalId (nodeIndex id) := by
  have h' : id % 2 ≠ 1 := by simpa [isTerminal] using h
  show id = 2 * (id / 2)
  omega

/-! ### Claim C4: ITE trivial reductions -/

/-- Claim C4: for all node ids `f`, `g`, `h`, `ipset_node_cache_ite`
returns `g` if `f` is a terminal with nonzero value and `h` if `f` is
the terminal 0; otherwise returns `g` when `g = h`; otherwise returns
`f` when `g` is terminal 1 and `h` is terminal 0 — all without touching
the ITE cache — and only in the remaining cases does it consult the ITE
cache and, on a miss, recurse via `apply_ite` (which splits on the
minimum variable) and extend the cache with the result. -/
theorem C4_ite_trivial_reductions (fuel : Nat) (c : NodeCache) (f g h : NodeId)
    (hfuel : 1 ≤ fuel) :
    (isTerminal f = true →
      ipset_node_cache_ite fuel c f g h =
        some (c, if terminalValue f = 0 then h else g)) ∧
    (isTerminal f = false → g = h →
      ipset_node_cache_ite fuel c f g h = some (c, g)) ∧
    (isTerminal f = false → g ≠ h → g = terminalId 1 → h = terminalId 0 →
      ipset_node_cache_ite fuel c f g h = some (c, f)) ∧
    (isTerminal f = false → g ≠ h →
      (isTerminal g && isTerminal h && (terminalValue g == 1) &&
        (terminalValue h == 0)) = false →
      ipset_node_cache_ite fuel c f g h =
        match TrinaryOps.lookupIte c.iteCache (f, g, h) with
        | some r => some (c, r)
        | none =>
          (TrinaryOps.apply_ite (fuel - 1) c f g h).map fun p =>
            ({ p.1 with iteCache := ((f, g, h), p.2) :: p.1.iteCache }, p.2)) := by
  obtain ⟨k, rfl⟩ : ∃ k, fuel = k + 1 := ⟨fuel - 1, by omega⟩
  unfold ipset_node_cache_ite TrinaryOps.cached_ite
  refine ⟨fun hf => ?_, fun hf hgh => ?_, fun hf hgh hg1 hh0 => ?_,
    fun hf hgh hguard => ?_⟩
  · simp only [hf, if_true]
    by_cases hv : terminalValue f = 0 <;> simp [hv]
  · subst hgh
    simp [hf]
  · subst hg1; subst hh0
    simp only [hf]
    have hne : (terminalId 1 == terminalId 0) = false := by decide
    simp [hne]
  · have hne : (g == h) = false := by simp [hgh]
    simp only [hf, Bool.false_eq_true, if_false, hne, hguard]
    cases hl : TrinaryOps.lookupIte c.iteCache (f, g, h) with
    | none =>
      simp only [Nat.add_sub_cancel]
      cases TrinaryOps.apply_ite k c f g h with
      | none => rfl
      | some p => rfl
    | some r => rfl

/-- Witness for C4 at a concrete input. -/
theorem C4_ite_trivial_reductions_witness :
    1 ≤ 1 ∧
    ((isTerminal 3 = true →
      ipset_node_cache_ite 1 ipset_node_cache_new 3 8 6 =
        some (ipset_node_cache_new, if terminalValue 3 = 0 then 6 else 8)) ∧
    (isTerminal 3 = false → 8 = 6 →
      ipset_node_cache_ite 1 ipset_node_cache_new 3 8 6 =
        some (ipset_node_cache_new, 8)) ∧
    (isTerminal 3 = false → 8 ≠ 6 → 8 = terminalId 1 → 6 = terminalId 0 →
      ipset_node_cache_ite 1 ipset_node_cache_new 3 8 6 =
        some (ipset_node_cache_new, 3)) ∧
    (isTerminal 3 = false → 8 ≠ 6 →
      (isTerminal 8 && isTerminal 6 && (terminalValue 8 == 1) &&
        (terminalValue 6 == 0)) = false →
      ipset_node_cache_ite 1 ipset_node_cache_new 3 8 6 =
        match TrinaryOps.lookupIte ipset_node_cache_new.iteCache (3, 8, 6) with
        | some r => some (ipset_node_cache_new, r)
        | none =>
          (TrinaryOps.apply_ite (1 - 1) ipset_node_cache_new 3 8 6).map fun p =>
            ({ p.1 with iteCache := ((3, 8, 6), p.2) :: p.1.iteCache }, p.2))) :=
  ⟨by decide, C4_ite_trivial_reductions 1 ipset_node_cache_new 3 8 6 (by decide)⟩

/-! ### Claim C9: binary operators on terminals are bitwise -/

/-- Claim C9 (implicit): for terminal ids with arbitrary non-negative
values (as arise in maps), `ipset_node_cache_and` returns the terminal
whose value is the bitwise AND of the two values, and
`ipset_node_cache_or` the terminal of the bitwise OR, without checking
the result for being in the terminal range; the only state change is the
new memo entry (the hypotheses say the memo caches have no entry for the
key yet). -/
theorem C9_terminal_binary_ops (fuel : Nat) (c : NodeCache) (va vb : Nat)
    (hfuel : 1 ≤ fuel)
    (hand : BinaryOps.lookupBin c.andCache
      (BinaryOps.commKey (terminalId va) (terminalId vb)) = none)
    (hor : BinaryOps.lookupBin c.orCache
      (BinaryOps.commKey (terminalId va) (terminalId vb)) = none) :
    ipset_node_cache_and fuel c (terminalId va) (terminalId vb) =
      some (BinaryOps.putOpCache c false
        (BinaryOps.commKey (terminalId va) (terminalId vb), terminalId (va &&& vb)),
        terminalId (va &&& vb)) ∧
    ipset_node_cache_or fuel c (terminalId va) (terminalId vb) =
      some (BinaryOps.putOpCache c true
        (BinaryOps.commKey (terminalId va) (terminalId vb), terminalId (va ||| vb)),
        terminalId (va ||| vb)) := by
  obtain ⟨k, rfl⟩ : ∃ k, fuel = k + 1 := ⟨fuel - 1, by omega⟩
  have ha : BinaryOps.apply_op k c false and_op (terminalId va) (terminalId vb) =
      some (c, terminalId (va &&& vb)) := by
    unfold BinaryOps.apply_op
    simp [and_op]
  have ho : BinaryOps.apply_op k c true or_op (terminalId va) (terminalId vb) =
      some (c, terminalId (va ||| vb)) := by
    unfold BinaryOps.apply_op
    simp [or_op]
  have hga : BinaryOps.getOpCache c false = c.andCache := rfl
  have hgo : BinaryOps.getOpCache c true = c.orCache := rfl
  constructor
  · unfold ipset_node_cache_and BinaryOps.cached_op
    simp only [hga, hand, ha, Option.some_bind]
    rfl
  · unfold ipset_node_cache_or BinaryOps.cached_op
    simp only [hgo, hor, ho, Option.some_bind]
    rfl

/-- Witness for C9 at a concrete input (values outside {0, 1}). -/
theorem C9_terminal_binary_ops_witness :
    1 ≤ 1 ∧
    BinaryOps.lookupBin ipset_node_cache_new.andCache
      (BinaryOps.commKey (terminalId 6) (terminalId 5)) = none ∧
    BinaryOps.lookupBin ipset_node_cache_new.orCache
      (BinaryOps.commKey (terminalId 6) (terminalId 5)) = none ∧
    (ipset_node_cache_and 1 ipset_node_cache_new (terminalId 6) (terminalId 5) =
      some (BinaryOps.putOpCache ipset_node_cache_new false
        (BinaryOps.commKey (terminalId 6) (terminalId 5), terminalId (6 &&& 5)),
        terminalId (6 &&& 5)) ∧
    ipset_node_cache_or 1 ipset_node_cache_new (terminalId 6) (terminalId 5) =
      some (BinaryOps.putOpCache ipset_node_cache_new true
        (BinaryOps.commKey (terminalId 6) (terminalId 5), terminalId (6 ||| 5)),
        terminalId (6 ||| 5))) :=
  ⟨by decide, by rfl, by rfl,
    C9_terminal_binary_ops 1 ipset_node_cache_new 6 5 (by decide) rfl rfl⟩

/-! ### Claim C10: removals are applied after all additions -/

theorem readTextLoop_fst (lines : List TextLine) (s : IpSet)
    (removals : List (Nat → Bool)) (y : Nat) :
    (readTextLoop lines s removals).1 y =
      ((addsOf lines).any (fun e => e y) || s y) := by
  induction lines generalizing s removals with
  | nil => simp [readTextLoop, addsOf]
  | cons line rest ih =>
    cases line with
    | skip => simp [readTextLoop, addsOf, ih]
    | entry neg e =>
      cases neg with
      | true => simp [readTextLoop, addsOf, ih]
      | false =>
        simp [readTextLoop, addsOf, ih, ipset_ip_add]
        cases e y <;> simp [Bool.or_assoc]

theorem readTextLoop_snd (lines : List TextLine) (s : IpSet)
    (removals : List (Nat → Bool)) :
    (readTextLoop lines s removals).2 = removals ++ removalsOf lines := by
  induction lines generalizing s removals with
  | nil => simp [readTextLoop, removalsOf]
  | cons line rest ih =>
    cases line with
    | skip => simp [readTextLoop, removalsOf, ih]
    | entry neg e =>
      cases neg with
      | true => simp [readTextLoop, removalsOf, ih]
      | false => simp [readTextLoop, removalsOf, ih]

theorem foldl_remove (removals : List (Nat → Bool)) (s : IpSet) (y : Nat) :
    (removals.foldl ipset_ip_remove s) y =
      (s y && !(removals.any fun e => e y)) := by
  induction removals generalizing s with
  | nil => simp
  | cons e rest ih =>
    simp only [List.foldl_cons, List.any_cons, ih, ipset_ip_remove]
    cases e y <;> cases s y <;> simp

/-- Claim C10 (implicit): `ipset_read_text_file` first adds every
non-`!` entry and only afterwards applies the `!` removals collected in
file order, so the resulting set is (union of added entries) minus
(union of removed entries), regardless of where the `!` lines appear. -/
theorem C10_removals_after_additions (lines : List TextLine) (y : Nat) :
    ipset_read_text_file lines y =
      ((addsOf lines).any (fun e => e y) &&
        !((removalsOf lines).any fun e => e y)) := by
  unfold ipset_read_text_file
  have hs := readTextLoop_fst lines (fun _ => false) [] y
  have hr := readTextLoop_snd lines (fun _ => false) []
  rcases hE : readTextLoop lines (fun _ => false) [] with ⟨s, removals⟩
  rw [hE] at hs hr
  simp only at hs hr
  simp only [hE]
  rw [foldl_remove, hs, hr]
  simp

/-! ### Stream reading lemmas -/

theorem readBE_success : ∀ (k : Nat) (s : List Nat), k ≤ s.length →
    ∃ v, readBE k s = some (v, s.drop k) := by
  intro k
  induction k with
  | zero => intro s _; exact ⟨0, rfl⟩
  | succ k ih =>
    intro s hs
    cases s with
    | nil => simp at hs
    | cons b rest =>
      have hk : k ≤ rest.length := by simpa using hs
      obtain ⟨v, hv⟩ := ih rest hk
      exact ⟨b * 256 ^ k + v, by simp [readBE, hv]⟩

theorem readBE_beBytes_mod : ∀ (k v : Nat) (rest : List Nat),
    readBE k (beBytes k v ++ rest) = some (v % 256 ^ k, rest) := by
  intro k
  induction k with
  | zero => intro v rest; simp [beBytes, readBE, Nat.mod_one]
  | succ k ih =>
    intro v rest
    have hsplit : v % 256 ^ (k + 1) = v / 256 ^ k % 256 * 256 ^ k + v % 256 ^ k := by
      have h1 : (256 : Nat) ^ (k + 1) = 256 ^ k * 256 := by ring
      rw [h1, Nat.mod_mul]
      ring
    simp [beBytes, readBE, ih, hsplit]

theorem readBE_beBytes (k v : Nat) (rest : List Nat) (hv : v < 256 ^ k) :
    readBE k (beBytes k v ++ rest) = some (v, rest) := by
  rw [readBE_beBytes_mod, Nat.mod_eq_of_lt hv]

@[simp] theorem beBytes_length (k v : Nat) : (beBytes k v).length = k := by
  induction k generalizing v with
  | zero => rfl
  | succ k ih => simp [beBytes, ih]

theorem load_header (c : NodeCache) (rest : List Nat) :
    ipset_node_cache_load c (magicBytes ++ beBytes 2 1 ++ rest) = load_v1 c rest := by
  unfold ipset_node_cache_load
  have hlen : ¬((magicBytes ++ beBytes 2 1 ++ rest).length < 6) := by
    simp [magicBytes]
  have htake : (magicBytes ++ beBytes 2 1 ++ rest).take 6 = magicBytes := by
    rw [List.append_assoc]
    have : (6 : Nat) = magicBytes.length := rfl
    rw [this, List.take_left]
  have hdrop : (magicBytes ++ beBytes 2 1 ++ rest).drop 6 = beBytes 2 1 ++ rest := by
    rw [List.append_assoc]
    have : (6 : Nat) = magicBytes.length := rfl
    rw [this, List.drop_left]
  rw [if_neg hlen, htake, if_neg (by simp), hdrop,
    readBE_beBytes 2 1 rest (by decide)]
  simp

theorem verify_cap_spec (b L : Nat) (hb : b < 2 ^ 63) :
    verify_cap b L =
      (if L = b + 16 then Except.ok () else Except.error LoadErr.parse) := by
  unfold verify_cap
  by_cases h : L = b + 16
  · subst h
    rw [if_neg (by omega), if_neg (by omega), if_neg (by omega), if_pos rfl]
  · rw [if_neg h]
    by_cases hs : L < 6 + 2 + 8
    · rw [if_pos hs]
    · rw [if_neg hs]
      rcases Nat.lt_or_ge b (L - (6 + 2 + 8)) with hlt | hge
      · rw [if_pos hlt]
      · rw [if_neg (by omega), if_pos (by omega)]

deriving instance DecidableEq for Except

theorem load_v1_nodes_success : ∀ (count : Nat) (c : NodeCache)
    (table : List (Int × NodeId)) (last : NodeId) (sid : Int) (s : List Nat),
    9 * count ≤ s.length →
    ∃ c' r, load_v1_nodes c table last count sid s =
      (c', Except.ok (r, s.drop (9 * count))) := by
  intro count
  induction count with
  | zero => intro c table last sid s _; exact ⟨c, last, rfl⟩
  | succ count ih =>
    intro c table last sid s hs
    have h1 : 1 ≤ s.length := by omega
    obtain ⟨v1, hv1⟩ := readBE_success 1 s h1
    have h4 : 4 ≤ (s.drop 1).length := by simp; omega
    obtain ⟨v2, hv2⟩ := readBE_success 4 (s.drop 1) h4
    have h4' : 4 ≤ ((s.drop 1).drop 4).length := by simp; omega
    obtain ⟨v3, hv3⟩ := readBE_success 4 ((s.drop 1).drop 4) h4'
    have hdd : ((s.drop 1).drop 4).drop 4 = s.drop 9 := by
      simp [List.drop_drop]
    rw [hdd] at hv3
    have hlen9 : 9 * count ≤ (s.drop 9).length := by simp; omega
    obtain ⟨c', r, hrec⟩ := ih
      ((ipset_node_cache_nonterminal c v1
        (resolveStreamId c table v2) (resolveStreamId c table v3)).1)
      ((sid, (ipset_node_cache_nonterminal c v1
        (resolveStreamId c table v2) (resolveStreamId c table v3)).2) :: table)
      ((ipset_node_cache_nonterminal c v1
        (resolveStreamId c table v2) (resolveStreamId c table v3)).2)
      (sid - 1) (s.drop 9) hlen9
    refine ⟨c', r, ?_⟩
    rw [show (9 * (count + 1)) = 9 * count + 9 by ring]
    unfold load_v1_nodes
    rw [hv1]
    simp only
    rw [hv2]
    simp only
    rw [hv3]
    simp only
    rw [List.drop_drop] at hrec
    rw [show 9 * count + 9 = 9 + 9 * count by ring]
    exact hrec


theorem load_v1_red (c : NodeCache) (L N : Nat) (body : List Nat)
    (hL : L < 2 ^ 64) (hN : N < 2 ^ 32) :
    load_v1 c (beBytes 8 L ++ (beBytes 4 N ++ body)) = load_v1_with c L N body := by
  unfold load_v1
  rw [readBE_beBytes 8 L _ (by simpa using hL)]
  show (match readBE 4 (beBytes 4 N ++ body) with
    | none => (c, Except.error LoadErr.file)
    | some (n_count, s₂) => load_v1_with c L n_count s₂) = load_v1_with c L N body
  rw [readBE_beBytes 4 N body (by simpa using hN)]

theorem load_v1_with_zero (c : NodeCache) (L v : Nat) (rest body : List Nat)
    (hv : readBE 4 body = some (v, rest)) :
    load_v1_with c L 0 body =
      if L = 24 then (c, Except.ok (terminalId v))
      else (c, Except.error LoadErr.parse) := by
  unfold load_v1_with
  rw [if_pos (show ((0 : Nat) == 0) = true from rfl), hv]
  show (match verify_cap (4 + 4) L with
    | Except.error e => (c, Except.error e)
    | Except.ok _ => (c, Except.ok (ipset_node_cache_terminal c v))) = _
  rw [verify_cap_spec (4 + 4) L (by decide)]
  by_cases h24 : L = 24
  · rw [if_pos (show L = 4 + 4 + 16 by omega), if_pos h24]
    rfl
  · rw [if_neg (show ¬L = 4 + 4 + 16 by omega), if_neg h24]

theorem load_v1_with_pos (c c' : NodeCache) (L N r : Nat) (body rest : List Nat)
    (hN0 : N ≠ 0) (hN : N < 2 ^ 32)
    (hloop : load_v1_nodes c [] 0 N (-1) body = (c', Except.ok (r, rest))) :
    load_v1_with c L N body =
      if L = 20 + 9 * N then (c', Except.ok r)
      else (c', Except.error LoadErr.parse) := by
  unfold load_v1_with
  rw [if_neg (show ¬((N == 0) = true) by simp [hN0]), hloop]
  show (match verify_cap (4 + 9 * N) L with
    | Except.error e => (c', Except.error e)
    | Except.ok _ => (c', Except.ok r)) = _
  have hb : 4 + 9 * N < 2 ^ 63 := by
    have h32 : N < 4294967296 := by simpa using hN
    omega
  rw [verify_cap_spec (4 + 9 * N) L hb]
  by_cases hLN : L = 20 + 9 * N
  · rw [if_pos (show L = 4 + 9 * N + 16 by omega), if_pos hLN]
  · rw [if_neg (show ¬L = 4 + 9 * N + 16 by omega), if_neg hLN]

/-! ### Claim C6: length-field validation on load -/

/-- Claim C6: a version-1 stream is accepted only if its total-length
header field equals exactly the number of bytes of header plus payload
consumed (`20 + 9·N` for `N` nonterminals, `24` when `N = 0`); if the
declared length is larger or smaller than the bytes consumed,
`ipset_node_cache_load` fails with a parse error.  The hypothesis
supplies enough payload bytes for the reads to succeed. -/
theorem C6_length_field_validation (c : NodeCache) (L N : Nat) (body : List Nat)
    (hL : L < 2 ^ 64) (hN : N < 2 ^ 32)
    (hbody : (if N = 0 then 4 else 9 * N) ≤ body.length) :
    ((∃ c' r, ipset_node_cache_load c
        (magicBytes ++ beBytes 2 1 ++ (beBytes 8 L ++ (beBytes 4 N ++ body))) =
        (c', Except.ok r)) ↔
      L = (if N = 0 then 24 else 20 + 9 * N)) ∧
    (L ≠ (if N = 0 then 24 else 20 + 9 * N) →
      (ipset_node_cache_load c
        (magicBytes ++ beBytes 2 1 ++ (beBytes 8 L ++ (beBytes 4 N ++ body)))).2 =
        Except.error LoadErr.parse) := by
  have hred : ipset_node_cache_load c
      (magicBytes ++ beBytes 2 1 ++ (beBytes 8 L ++ (beBytes 4 N ++ body))) =
      load_v1_with c L N body := by
    rw [load_header, load_v1_red c L N body hL hN]
  rw [hred]
  by_cases hN0 : N = 0
  · subst hN0
    obtain ⟨v, hv⟩ := readBE_success 4 body (by simpa using hbody)
    rw [load_v1_with_zero c L v _ body hv]
    by_cases h24 : L = 24
    · rw [if_pos h24]
      constructor
      · exact ⟨fun _ => by simp [h24], fun _ => ⟨c, terminalId v, rfl⟩⟩
      · intro hne
        exact absurd h24 (by simpa using hne)
    · rw [if_neg h24]
      constructor
      · constructor
        · rintro ⟨c', r, hcr⟩
          exact absurd (congrArg Prod.snd hcr) (by simp)
        · intro h
          exact absurd (by simpa using h) h24
      · intro _
        rfl
  · have hbody' : 9 * N ≤ body.length := by simpa [hN0] using hbody
    obtain ⟨c', r, hloop⟩ := load_v1_nodes_success N c [] 0 (-1) body hbody'
    rw [load_v1_with_pos c c' L N r body _ hN0 hN hloop]
    by_cases hLN : L = 20 + 9 * N
    · rw [if_pos hLN]
      constructor
      · exact ⟨fun _ => by simp [hLN, hN0], fun _ => ⟨c', r, rfl⟩⟩
      · intro hne
        exact absurd hLN (by simpa [hN0] using hne)
    · rw [if_neg hLN]
      constructor
      · constructor
        · rintro ⟨c'', r', hcr⟩
          exact absurd (congrArg Prod.snd hcr) (by simp)
        · intro h
          exact absurd (by simpa [hN0] using h) hLN
      · intro _
        rfl

/-- Witness for C6 at a concrete input. -/
theorem C6_length_field_validation_witness :
    (24 : Nat) < 2 ^ 64 ∧ (0 : Nat) < 2 ^ 32 ∧
    ((if (0 : Nat) = 0 then 4 else 9 * 0) ≤ (beBytes 4 7).length) ∧
    (((∃ c' r, ipset_node_cache_load ipset_node_cache_new
        (magicBytes ++ beBytes 2 1 ++ (beBytes 8 24 ++ (beBytes 4 0 ++ beBytes 4 7))) =
        (c', Except.ok r)) ↔
      (24 : Nat) = (if (0 : Nat) = 0 then 24 else 20 + 9 * 0)) ∧
    ((24 : Nat) ≠ (if (0 : Nat) = 0 then 24 else 20 + 9 * 0) →
      (ipset_node_cache_load ipset_node_cache_new
        (magicBytes ++ beBytes 2 1 ++ (beBytes 8 24 ++ (beBytes 4 0 ++ beBytes 4 7)))).2 =
        Except.error LoadErr.parse)) :=
  ⟨by decide, by decide, by decide,
    C6_length_field_validation ipset_node_cache_new 24 0 (beBytes 4 7)
      (by decide) (by decide) (by decide)⟩

/-! ### Claim C7: bad back-references -/

/-- Counterexample to claim C7: a version-1 stream whose single node has
`low = -2` — a negative stream id that was never emitted earlier — is
loaded without any error: the failed translation-table lookup yields the
null node id 0 (`g_hash_table_lookup` returns `NULL`), a node is
constructed with it as the low child, and the load returns ok. -/
theorem C7_counterexample_bad_backref_accepted :
    ipset_node_cache_load ipset_node_cache_new
      (magicBytes ++ beBytes 2 1 ++ (beBytes 8 29 ++ (beBytes 4 1 ++
        ([0] ++ beBytes 4 (2 ^ 32 - 2) ++ beBytes 4 1)))) =
      ({ arena := [⟨0, 0, 3, 1⟩], freeList := [], andCache := [], orCache := [],
         iteCache := [] }, Except.ok 0) := by
  decide

/-- Claim C7 amended: bad back-references are not detected.  A
version-1 stream with a correct total length loads successfully
regardless of whether the negative low/high fields reference previously
emitted nonterminals, and a negative stream id that is absent from the
translation table resolves to the null node id 0, which is used as the
child of the constructed node. -/
theorem C7_amended_bad_backrefs_not_rejected (c : NodeCache) (N : Nat)
    (body : List Nat) (hN0 : 0 < N) (hN : N < 2 ^ 32)
    (hbody : 9 * N ≤ body.length) :
    (∃ c' r, ipset_node_cache_load c
        (magicBytes ++ beBytes 2 1 ++
          (beBytes 8 (20 + 9 * N) ++ (beBytes 4 N ++ body))) =
      (c', Except.ok r)) ∧
    (∀ (table : List (Int × NodeId)) (w : Nat), 2 ^ 31 ≤ w → w < 2 ^ 32 →
      lookupTable table ((w : Int) - 2 ^ 32) = none →
      resolveStreamId c table w = 0) := by
  constructor
  · have hL : 20 + 9 * N < 2 ^ 64 := by
      have h32 : N < 4294967296 := by simpa using hN
      omega
    have hred : ipset_node_cache_load c
        (magicBytes ++ beBytes 2 1 ++ (beBytes 8 (20 + 9 * N) ++ (beBytes 4 N ++ body))) =
        load_v1_with c (20 + 9 * N) N body := by
      rw [load_header, load_v1_red c (20 + 9 * N) N body hL hN]
    obtain ⟨c', r, hloop⟩ := load_v1_nodes_success N c [] 0 (-1) body hbody
    rw [hred, load_v1_with_pos c c' (20 + 9 * N) N r body _ (by omega) hN hloop,
      if_pos rfl]
    exact ⟨c', r, rfl⟩
  · intro table w hw31 hw32 hlookup
    simp only [resolveStreamId]
    rw [if_neg (show ¬w < 2 ^ 31 by omega)]
    have hneg : ¬((0 : Int) ≤ (w : Int) - 2 ^ 32) := by
      have : (w : Int) < 2 ^ 32 := by exact_mod_cast hw32
      omega
    rw [if_neg hneg, hlookup]
    rfl

/-- Witness for the amended C7 at a concrete input. -/
theorem C7_amended_bad_backrefs_not_rejected_witness :
    (0 : Nat) < 1 ∧ (1 : Nat) < 2 ^ 32 ∧
    9 * 1 ≤ ([0] ++ beBytes 4 (2 ^ 32 - 2) ++ beBytes 4 1).length ∧
    ((∃ c' r, ipset_node_cache_load ipset_node_cache_new
        (magicBytes ++ beBytes 2 1 ++
          (beBytes 8 (20 + 9 * 1) ++ (beBytes 4 1 ++
            ([0] ++ beBytes 4 (2 ^ 32 - 2) ++ beBytes 4 1)))) =
      (c', Except.ok r)) ∧
    (∀ (table : List (Int × NodeId)) (w : Nat), 2 ^ 31 ≤ w → w < 2 ^ 32 →
      lookupTable table ((w : Int) - 2 ^ 32) = none →
      resolveStreamId ipset_node_cache_new table w = 0)) :=
  ⟨by decide, by decide, by decide,
    C7_amended_bad_backrefs_not_rejected ipset_node_cache_new 1
      ([0] ++ beBytes 4 (2 ^ 32 - 2) ++ beBytes 4 1)
      (by decide) (by decide) (by decide)⟩

/-! ### Claim C8: load-error atomicity -/

/-- Counterexample to claim C8: loading a version-1 stream whose declared
length (100) disagrees with the bytes consumed fails with a parse error
*after* one nonterminal has been constructed, and that node is left live
in the cache — nothing is decref'd on the error path, so the cache holds
an extra live node afterwards. -/
theorem C8_counterexample_error_leaves_live_node :
    (ipset_node_cache_load ipset_node_cache_new
      (magicBytes ++ beBytes 2 1 ++ (beBytes 8 100 ++ (beBytes 4 1 ++
        ([0] ++ beBytes 4 1 ++ beBytes 4 0))))).2 = Except.error LoadErr.parse ∧
    liveCount (ipset_node_cache_load ipset_node_cache_new
      (magicBytes ++ beBytes 2 1 ++ (beBytes 8 100 ++ (beBytes 4 1 ++
        ([0] ++ beBytes 4 1 ++ beBytes 4 0))))).1 = 1 := by
  constructor
  · decide
  · decide

/-- Claim C8 amended: when loading a version-1 stream fails at the final
length check after nonterminal nodes have been constructed, the loader
frees only the stream-id translation table; it performs no decrefs, and
the returned cache is exactly the cache produced by the node-reading
loop, with every node constructed during the partial load still in
place. -/
theorem C8_amended_error_path_keeps_nodes (c : NodeCache) (L N : Nat)
    (body : List Nat) (hL : L < 2 ^ 64) (hN0 : N ≠ 0) (hN : N < 2 ^ 32)
    (hbody : 9 * N ≤ body.length) (hmis : L ≠ 20 + 9 * N) :
    (ipset_node_cache_load c
      (magicBytes ++ beBytes 2 1 ++ (beBytes 8 L ++ (beBytes 4 N ++ body)))).1 =
      (load_v1_nodes c [] 0 N (-1) body).1 ∧
    (ipset_node_cache_load c
      (magicBytes ++ beBytes 2 1 ++ (beBytes 8 L ++ (beBytes 4 N ++ body)))).2 =
      Except.error LoadErr.parse := by
  have hred : ipset_node_cache_load c
      (magicBytes ++ beBytes 2 1 ++ (beBytes 8 L ++ (beBytes 4 N ++ body))) =
      load_v1_with c L N body := by
    rw [load_header, load_v1_red c L N body hL hN]
  obtain ⟨c', r, hloop⟩ := load_v1_nodes_success N c [] 0 (-1) body hbody
  rw [hred, load_v1_with_pos c c' L N r body _ hN0 hN hloop, if_neg hmis, hloop]
  exact ⟨rfl, rfl⟩

/-- Witness for the amended C8 at a concrete input. -/
theorem C8_amended_error_path_keeps_nodes_witness :
    (100 : Nat) < 2 ^ 64 ∧ (1 : Nat) ≠ 0 ∧ (1 : Nat) < 2 ^ 32 ∧
    9 * 1 ≤ ([0] ++ beBytes 4 1 ++ beBytes 4 0).length ∧
    (100 : Nat) ≠ 20 + 9 * 1 ∧
    ((ipset_node_cache_load ipset_node_cache_new
      (magicBytes ++ beBytes 2 1 ++ (beBytes 8 100 ++ (beBytes 4 1 ++
        ([0] ++ beBytes 4 1 ++ beBytes 4 0))))).1 =
      (load_v1_nodes ipset_node_cache_new [] 0 1 (-1)
        ([0] ++ beBytes 4 1 ++ beBytes 4 0)).1 ∧
    (ipset_node_cache_load ipset_node_cache_new
      (magicBytes ++ beBytes 2 1 ++ (beBytes 8 100 ++ (beBytes 4 1 ++
        ([0] ++ beBytes 4 1 ++ beBytes 4 0))))).2 =
      Except.error LoadErr.parse) :=
  ⟨by decide, by decide, by decide, by decide, by decide,
    C8_amended_error_path_keeps_nodes ipset_node_cache_new 100 1
      ([0] ++ beBytes 4 1 ++ beBytes 4 0)
      (by decide) (by decide) (by decide) (by decide) (by decide)⟩

/-! ### Claim C3: unique-table invariants -/

theorem isLive_iff (c : NodeCache) (i : Nat) :
    isLive c i = true ↔ i < c.arena.length ∧ i ∉ c.freeList := by
  simp [isLive, List.contains]

@[simp] theorem setNode_arena_length (c : NodeCache) (i : Nat) (n : BddNode) :
    (setNode c i n).arena.length = c.arena.length := by
  simp [setNode]

@[simp] theorem setNode_freeList (c : NodeCache) (i : Nat) (n : BddNode) :
    (setNode c i n).freeList = c.freeList := rfl

@[simp] theorem isLive_setNode (c : NodeCache) (i : Nat) (n : BddNode) (j : Nat) :
    isLive (setNode c i n) j = isLive c j := by
  simp [isLive]

theorem getNode_setNode_ne (c : NodeCache) (i : Nat) (n : BddNode) (j : Nat)
    (h : j ≠ i) : getNode (setNode c i n) j = getNode c j := by
  simp only [getNode, setNode]
  rw [List.getD, List.getD, List.get?_set_ne _ _ (show i ≠ j by omega)]

theorem getNode_setNode_self (c : NodeCache) (i : Nat) (n : BddNode)
    (h : i < c.arena.length) : getNode (setNode c i n) i = n := by
  simp only [getNode, setNode]
  rw [List.getD, List.get?_set_eq_of_lt _ h]
  rfl

theorem setNode_no_op (c : NodeCache) (i : Nat) (n : BddNode)
    (h : ¬i < c.arena.length) : setNode c i n = c := by
  have hset : c.arena.set i n = c.arena := List.set_eq_of_length_le (by omega)
  simp [setNode, hset]

/-- Everything `ipset_node_decref` can do to a cache: it never changes
the arena length, never changes the var/low/high fields of any record,
never increases a refcount, only removes elements from the live set, and
only pushes onto the free list indices that carried a positive refcount. -/
theorem decref_props : ∀ (fuel : Nat) (c : NodeCache) (id : NodeId)
    (c' : NodeCache), ipset_node_decref fuel c id = some c' →
    c'.arena.length = c.arena.length ∧
    (∀ j, (getNode c' j).var = (getNode c j).var ∧
      (getNode c' j).low = (getNode c j).low ∧
      (getNode c' j).high = (getNode c j).high) ∧
    (∀ j, (getNode c' j).refcount ≤ (getNode c j).refcount) ∧
    (∀ j, j ∈ c.freeList → j ∈ c'.freeList) ∧
    (∀ j, j ∈ c'.freeList → j ∈ c.freeList ∨ 1 ≤ (getNode c j).refcount) ∧
    (∀ j, isLive c' j = true → isLive c j = true) := by
  intro fuel
  induction fuel with
  | zero => intro c id c' h; simp [ipset_node_decref] at h
  | succ fuel ih =>
    intro c id c' h
    rw [ipset_node_decref] at h
    by_cases ht : isTerminal id
    · rw [if_pos ht] at h
      cases h
      exact ⟨rfl, fun j => ⟨rfl, rfl, rfl⟩, fun j => le_refl _, fun j hj => hj,
        fun j hj => Or.inl hj, fun j hj => hj⟩
    · rw [if_neg ht] at h
      simp only at h
      by_cases hrc : (getNode c (nodeIndex id)).refcount == 1
      · rw [if_pos hrc] at h
        have hrc1 : (getNode c (nodeIndex id)).refcount = 1 := by
          simpa using hrc
        -- the cascade: zero the record, release both children, push
        set i := nodeIndex id with hi
        set n := getNode c i with hn
        set c₁ := setNode c i { n with refcount := 0 } with hc₁
        cases h2 : ipset_node_decref fuel c₁ n.low with
        | none => rw [h2] at h; simp at h
        | some c₂ =>
          rw [h2] at h
          simp only [Option.bind_eq_bind, Option.some_bind] at h
          cases h3 : ipset_node_decref fuel c₂ n.high with
          | none => rw [h3] at h; simp at h
          | some c₃ =>
            rw [h3] at h
            simp only [Option.some_bind] at h
            cases h
            obtain ⟨l2, s2, r2, f2, g2, v2⟩ := ih c₁ n.low c₂ h2
            obtain ⟨l3, s3, r3, f3, g3, v3⟩ := ih c₂ n.high c₃ h3
            have hi_lt : i < c.arena.length := by
              by_contra hge
              have hnone : c.arena[i]? = none :=
                List.getElem?_eq_none (le_of_not_lt hge)
              have hdef : getNode c i = ⟨0, 0, 0, 0⟩ := by
                simp [getNode, List.getD, hnone]
              rw [← hn] at hdef
              rw [hdef] at hrc1
              simp at hrc1
            have shape₁ : ∀ j, (getNode c₁ j).var = (getNode c j).var ∧
                (getNode c₁ j).low = (getNode c j).low ∧
                (getNode c₁ j).high = (getNode c j).high := by
              intro j
              by_cases hj : j = i
              · subst hj
                rw [hc₁, getNode_setNode_self c i _ hi_lt, ← hn]
                exact ⟨rfl, rfl, rfl⟩
              · rw [hc₁, getNode_setNode_ne c i _ j hj]
                exact ⟨rfl, rfl, rfl⟩
            have rc₁ : ∀ j, (getNode c₁ j).refcount ≤ (getNode c j).refcount := by
              intro j
              by_cases hj : j = i
              · subst hj
                rw [hc₁, getNode_setNode_self c i _ hi_lt]
                simp
              · rw [hc₁, getNode_setNode_ne c i _ j hj]
            have hlen3 : c₃.arena.length = c.arena.length := by
              simpa [hc₁] using l3.trans l2
            refine ⟨?_, ?_, ?_, ?_, ?_, ?_⟩
            · exact hlen3
            · intro j
              obtain ⟨a2, b2, d2⟩ := s2 j
              obtain ⟨a3, b3, d3⟩ := s3 j
              obtain ⟨a1, b1, d1⟩ := shape₁ j
              exact ⟨by simp only [getNode] at *; rw [a3, a2, a1],
                by simp only [getNode] at *; rw [b3, b2, b1],
                by simp only [getNode] at *; rw [d3, d2, d1]⟩
            · intro j
              exact le_trans (r3 j) (le_trans (r2 j) (rc₁ j))
            · intro j hj
              exact List.mem_cons_of_mem _ (f3 j (f2 j (by simpa [hc₁] using hj)))
            · intro j hj
              rcases List.mem_cons.mp hj with hj | hj
              · subst hj
                right
                exact hrc1.ge
              · rcases g3 j hj with hj' | hj'
                · rcases g2 j hj' with hj'' | hj''
                  · left
                    simpa [hc₁] using hj''
                  · -- refcount positive in c₁; transfer to c
                    by_cases hji : j = i
                    · subst hji; right; exact hrc1.ge
                    · right
                      rw [hc₁, getNode_setNode_ne c i _ j hji] at hj''
                      exact hj''
                · -- refcount positive in c₂; transfer through c₁ to c
                  have : 1 ≤ (getNode c₁ j).refcount := le_trans hj' (r2 j)
                  by_cases hji : j = i
                  · subst hji; right; exact hrc1.ge
                  · right
                    rw [hc₁, getNode_setNode_ne c i _ j hji] at this
                    exact this
            · intro j hj
              rw [isLive_iff] at hj ⊢
              obtain ⟨hjl, hjf⟩ := hj
              constructor
              · rw [← hlen3]; exact hjl
              · intro hmem
                exact hjf (List.mem_cons_of_mem _ (f3 j (f2 j (by simpa [hc₁] using hmem))))
      · rw [if_neg hrc] at h
        cases h
        set i := nodeIndex id
        refine ⟨by simp, ?_, ?_, fun j hj => hj, fun j hj => Or.inl hj, ?_⟩
        · intro j
          by_cases hj : j = i
          · rw [hj]
            by_cases hlt : i < c.arena.length
            · rw [getNode_setNode_self c i _ hlt]
              exact ⟨rfl, rfl, rfl⟩
            · rw [setNode_no_op c i _ hlt]
              exact ⟨rfl, rfl, rfl⟩
          · rw [getNode_setNode_ne c _ _ j hj]
            exact ⟨rfl, rfl, rfl⟩
        · intro j
          by_cases hj : j = i
          · rw [hj]
            by_cases hlt : i < c.arena.length
            · rw [getNode_setNode_self c i _ hlt]
              simp
            · rw [setNode_no_op c i _ hlt]
          · rw [getNode_setNode_ne c _ _ j hj]
        · intro j hj
          simpa using hj

/-- `ipset_node_decref` preserves free-list well-formedness. -/
theorem decref_flwf : ∀ (fuel : Nat) (c : NodeCache) (id : NodeId)
    (c' : NodeCache), FLwf c → ipset_node_decref fuel c id = some c' →
    FLwf c' := by
  intro fuel
  induction fuel with
  | zero => intro c id c' _ h; simp [ipset_node_decref] at h
  | succ fuel ih =>
    intro c id c' hw h
    rw [ipset_node_decref] at h
    by_cases ht : isTerminal id
    · rw [if_pos ht] at h; cases h; exact hw
    · rw [if_neg ht] at h
      simp only at h
      by_cases hrc : (getNode c (nodeIndex id)).refcount == 1
      · rw [if_pos hrc] at h
        have hrc1 : (getNode c (nodeIndex id)).refcount = 1 := by simpa using hrc
        set i := nodeIndex id with hi
        set n := getNode c i with hn
        set c₁ := setNode c i { n with refcount := 0 } with hc₁
        cases h2 : ipset_node_decref fuel c₁ n.low with
        | none => rw [h2] at h; simp at h
        | some c₂ =>
          rw [h2] at h
          simp only [Option.bind_eq_bind, Option.some_bind] at h
          cases h3 : ipset_node_decref fuel c₂ n.high with
          | none => rw [h3] at h; simp at h
          | some c₃ =>
            rw [h3] at h
            simp only [Option.some_bind] at h
            cases h
            have hif : i ∉ c.freeList := by
              intro hmem
              have := (hw.1 i hmem).2
              rw [← hn] at this
              omega
            have hi_lt : i < c.arena.length := by
              by_contra hge
              have hnone : c.arena[i]? = none :=
                List.getElem?_eq_none (le_of_not_lt hge)
              have hdef : getNode c i = ⟨0, 0, 0, 0⟩ := by
                simp [getNode, List.getD, hnone]
              rw [← hn] at hdef
              rw [hdef] at hrc1
              simp at hrc1
            have hw₁ : FLwf c₁ := by
              constructor
              · intro j hj
                rw [hc₁, setNode_freeList] at hj
                have hj' := hw.1 j hj
                have hji : j ≠ i := fun e => hif (e ▸ hj)
                refine ⟨?_, ?_⟩
                · rw [hc₁, setNode_arena_length]; exact hj'.1
                · rw [hc₁, getNode_setNode_ne c i _ j hji]; exact hj'.2
              · rw [hc₁, setNode_freeList]; exact hw.2
            have hw₂ : FLwf c₂ := ih c₁ n.low c₂ hw₁ h2
            have hw₃ : FLwf c₃ := ih c₂ n.high c₃ hw₂ h3
            obtain ⟨l2, s2, r2, f2, g2, v2⟩ := decref_props fuel c₁ n.low c₂ h2
            obtain ⟨l3, s3, r3, f3, g3, v3⟩ := decref_props fuel c₂ n.high c₃ h3
            have hrcz : (getNode c₁ i).refcount = 0 := by
              rw [hc₁, getNode_setNode_self c i _ hi_lt]
            have hrc₃ : (getNode c₃ i).refcount = 0 := by
              have ha := r3 i
              have hb := r2 i
              omega
            have hnotmem : i ∉ c₃.freeList := by
              intro hmem
              rcases g3 i hmem with hm | hm
              · rcases g2 i hm with hm' | hm'
                · rw [hc₁, setNode_freeList] at hm'
                  exact hif hm'
                · omega
              · have := r2 i
                omega
            constructor
            · intro j hj
              rcases List.mem_cons.mp hj with hj | hj
              · subst hj
                refine ⟨?_, ?_⟩
                · show i < c₃.arena.length
                  rw [l3, l2, hc₁, setNode_arena_length]
                  exact hi_lt
                · show (getNode c₃ i).refcount = 0
                  exact hrc₃
              · exact hw₃.1 j hj
            · exact List.nodup_cons.mpr ⟨hnotmem, hw₃.2⟩
      · rw [if_neg hrc] at h
        cases h
        set i := nodeIndex id with hi
        constructor
        · intro j hj
          rw [setNode_freeList] at hj
          have hj' := hw.1 j hj
          by_cases hje : j = i
          · subst hje
            by_cases hlt : i < c.arena.length
            · refine ⟨by simpa using hj'.1, ?_⟩
              rw [getNode_setNode_self c i _ hlt]
              have h0 : (getNode c i).refcount = 0 := hj'.2
              show (getNode c i).refcount - 1 = 0
              omega
            · rw [setNode_no_op c i _ hlt]
              exact hj'
          · refine ⟨by simpa using hj'.1, ?_⟩
            rw [getNode_setNode_ne c i _ j hje]
            exact hj'.2
        · rw [setNode_freeList]; exact hw.2

theorem incref_arena_length (c : NodeCache) (id : NodeId) :
    (ipset_node_incref c id).arena.length = c.arena.length := by
  unfold ipset_node_incref
  by_cases ht : isTerminal id <;> simp [ht]

theorem incref_freeList (c : NodeCache) (id : NodeId) :
    (ipset_node_incref c id).freeList = c.freeList := by
  unfold ipset_node_incref
  by_cases ht : isTerminal id <;> simp [ht]

theorem incref_shape (c : NodeCache) (id : NodeId) (j : Nat) :
    (getNode (ipset_node_incref c id) j).var = (getNode c j).var ∧
    (getNode (ipset_node_incref c id) j).low = (getNode c j).low ∧
    (getNode (ipset_node_incref c id) j).high = (getNode c j).high := by
  unfold ipset_node_incref
  by_cases ht : isTerminal id
  · simp [ht]
  · rw [if_neg ht]
    simp only
    by_cases hj : j = nodeIndex id
    · subst hj
      by_cases hlt : nodeIndex id < c.arena.length
      · rw [getNode_setNode_self c (nodeIndex id) _ hlt]
        exact ⟨rfl, rfl, rfl⟩
      · rw [setNode_no_op c (nodeIndex id) _ hlt]
        exact ⟨rfl, rfl, rfl⟩
    · rw [getNode_setNode_ne c _ _ j hj]
      exact ⟨rfl, rfl, rfl⟩

theorem isLive_incref (c : NodeCache) (id : NodeId) (j : Nat) :
    isLive (ipset_node_incref c id) j = isLive c j := by
  unfold ipset_node_incref
  by_cases ht : isTerminal id <;> simp [ht]

theorem incref_flwf (c : NodeCache) (id : NodeId) (hv : validId c id = true)
    (hw : FLwf c) : FLwf (ipset_node_incref c id) := by
  unfold ipset_node_incref
  by_cases ht : isTerminal id
  · rw [if_pos ht]; exact hw
  · rw [if_neg ht]
    simp only
    have hlive : isLive c (nodeIndex id) = true := by
      simpa [validId, ht] using hv
    have hnot : nodeIndex id ∉ c.freeList := ((isLive_iff c _).mp hlive).2
    constructor
    · intro j hj
      rw [setNode_freeList] at hj
      have hj' := hw.1 j hj
      have hji : j ≠ nodeIndex id := fun e => hnot (e ▸ hj)
      refine ⟨by simpa using hj'.1, ?_⟩
      rw [getNode_setNode_ne c _ _ j hji]
      exact hj'.2
    · rw [setNode_freeList]; exact hw.2

/-- What `ipset_node_decrefT` can do: length, shapes and live-set
monotonicity, as for the fueled version (with the fuel-exhaustion case
collapsing to the unchanged cache). -/
theorem decrefT_props (c : NodeCache) (id : NodeId) :
    (ipset_node_decrefT c id).arena.length = c.arena.length ∧
    (∀ j, (getNode (ipset_node_decrefT c id) j).var = (getNode c j).var ∧
      (getNode (ipset_node_decrefT c id) j).low = (getNode c j).low ∧
      (getNode (ipset_node_decrefT c id) j).high = (getNode c j).high) ∧
    (∀ j, isLive (ipset_node_decrefT c id) j = true → isLive c j = true) := by
  unfold ipset_node_decrefT
  cases h : ipset_node_decref (totalRefcount c + 1) c id with
  | none =>
    exact ⟨rfl, fun j => ⟨rfl, rfl, rfl⟩, fun j hj => hj⟩
  | some c₂ =>
    obtain ⟨l, s, _, _, _, v⟩ := decref_props _ _ _ _ h
    exact ⟨l, s, v⟩

theorem decrefT_flwf (c : NodeCache) (id : NodeId) (hw : FLwf c) :
    FLwf (ipset_node_decrefT c id) := by
  unfold ipset_node_decrefT
  cases h : ipset_node_decref (totalRefcount c + 1) c id with
  | none => exact hw
  | some c₂ => exact decref_flwf _ _ _ _ hw h

theorem lookupUnique_some (c : NodeCache) (v : Nat) (low high : NodeId) (j : Nat)
    (h : lookupUnique c v low high = some j) :
    j < c.arena.length ∧ isLive c j = true ∧ (getNode c j).var = v ∧
    (getNode c j).low = low ∧ (getNode c j).high = high := by
  unfold lookupUnique at h
  have hmem := List.mem_of_find?_eq_some h
  have hpred := List.find?_some h
  rw [List.mem_range] at hmem
  simp only [Bool.and_eq_true, beq_iff_eq] at hpred
  exact ⟨hmem, hpred.1.1.1, hpred.1.1.2, hpred.1.2, hpred.2⟩

theorem lookupUnique_none (c : NodeCache) (v : Nat) (low high : NodeId)
    (h : lookupUnique c v low high = none) :
    ∀ j < c.arena.length, isLive c j = true →
      ¬((getNode c j).var = v ∧ (getNode c j).low = low ∧
        (getNode c j).high = high) := by
  intro j hj hl hcontra
  unfold lookupUnique at h
  rw [List.find?_eq_none] at h
  have := h j (List.mem_range.mpr hj)
  simp only [Bool.and_eq_true, beq_iff_eq, not_and] at this
  exact this ⟨⟨hl, hcontra.1⟩, hcontra.2.1⟩ hcontra.2.2

/-- Transfer (U1) across a cache transformation that keeps the arena
length and all record shapes and only shrinks the live set. -/
theorem U1_transfer (c c' : NodeCache)
    (hlen : c'.arena.length = c.arena.length)
    (hshape : ∀ j, (getNode c' j).var = (getNode c j).var ∧
      (getNode c' j).low = (getNode c j).low ∧
      (getNode c' j).high = (getNode c j).high)
    (hlive : ∀ j, isLive c' j = true → isLive c j = true)
    (h1 : U1 c) : U1 c' := by
  intro i hi j hj hli hlj hv hl hh
  obtain ⟨vi, li, qi⟩ := hshape i
  obtain ⟨vj, lj, qj⟩ := hshape j
  exact h1 i (by omega) j (by omega) (hlive i hli) (hlive j hlj)
    (by rw [← vi, ← vj]; exact hv) (by rw [← li, ← lj]; exact hl)
    (by rw [← qi, ← qj]; exact hh)

/-- Transfer (U2) across the same kind of transformation. -/
theorem U2_transfer (c c' : NodeCache)
    (hlen : c'.arena.length = c.arena.length)
    (hshape : ∀ j, (getNode c' j).var = (getNode c j).var ∧
      (getNode c' j).low = (getNode c j).low ∧
      (getNode c' j).high = (getNode c j).high)
    (hlive : ∀ j, isLive c' j = true → isLive c j = true)
    (h2 : U2 c) : U2 c' := by
  intro i hi hli
  obtain ⟨_, li, qi⟩ := hshape i
  rw [li, qi]
  exact h2 i (by omega) (hlive i hli)

theorem decrefT_inv (c : NodeCache) (id : NodeId) (h : Inv3 c) :
    Inv3 (ipset_node_decrefT c id) := by
  obtain ⟨h1, h2, hw⟩ := h
  obtain ⟨hlen, hshape, hlive⟩ := decrefT_props c id
  exact ⟨U1_transfer _ _ hlen hshape hlive h1,
         U2_transfer _ _ hlen hshape hlive h2,
         decrefT_flwf c id hw⟩

theorem incref_inv (c : NodeCache) (id : NodeId) (hv : validId c id = true)
    (h : Inv3 c) : Inv3 (ipset_node_incref c id) := by
  obtain ⟨h1, h2, hw⟩ := h
  have hlen := incref_arena_length c id
  have hshape := incref_shape c id
  have hlive : ∀ j, isLive (ipset_node_incref c id) j = true →
      isLive c j = true := fun j hj => by rw [← isLive_incref c id j]; exact hj
  exact ⟨U1_transfer _ _ hlen hshape hlive h1,
         U2_transfer _ _ hlen hshape hlive h2,
         incref_flwf c id hv hw⟩

theorem decref_inv (fuel : Nat) (c : NodeCache) (id : NodeId) (c' : NodeCache)
    (hd : ipset_node_decref fuel c id = some c') (h : Inv3 c) : Inv3 c' := by
  obtain ⟨h1, h2, hw⟩ := h
  obtain ⟨hlen, hshape, _, _, _, hlive⟩ := decref_props fuel c id c' hd
  exact ⟨U1_transfer _ _ hlen hshape hlive h1,
         U2_transfer _ _ hlen hshape hlive h2,
         decref_flwf fuel c id c' hw hd⟩

/-- A miss that pops the free list: installing a fresh record at a freed
index preserves the invariant. -/
theorem fresh_record_inv (c : NodeCache) (v : Nat) (low high : NodeId)
    (i : Nat) (rest : List Nat) (hfl : c.freeList = i :: rest)
    (hmiss : ∀ j < c.arena.length, isLive c j = true →
      ¬((getNode c j).var = v ∧ (getNode c j).low = low ∧
        (getNode c j).high = high))
    (hlh : low ≠ high) (h : Inv3 c) :
    Inv3 { c with
           arena := c.arena.set i ⟨v, low, high, 1⟩,
           freeList := rest } := by
  obtain ⟨h1, h2, hw⟩ := h
  have hi_lt : i < c.arena.length :=
    (hw.1 i (by rw [hfl]; exact List.mem_cons_self i rest)).1
  have hnodup : (i :: rest).Nodup := by rw [← hfl]; exact hw.2
  have hinr : i ∉ rest := (List.nodup_cons.mp hnodup).1
  set c' := { c with
              arena := c.arena.set i ⟨v, low, high, 1⟩,
              freeList := rest } with hc'
  have hlen : c'.arena.length = c.arena.length := by rw [hc']; simp
  have hfl' : c'.freeList = rest := rfl
  have hget_self : getNode c' i = ⟨v, low, high, 1⟩ :=
    getNode_setNode_self c i _ hi_lt
  have hget_ne : ∀ j, j ≠ i → getNode c' j = getNode c j :=
    fun j hj => getNode_setNode_ne c i _ j hj
  have hlive' : ∀ j, isLive c' j = true ↔ j < c.arena.length ∧ j ∉ rest := by
    intro j
    rw [isLive_iff, hlen, hfl']
  have hlivec : ∀ j, isLive c j = true ↔
      j < c.arena.length ∧ j ∉ i :: rest := by
    intro j
    rw [isLive_iff, hfl]
  have hlive_ne : ∀ j, j ≠ i → isLive c' j = true → isLive c j = true := by
    intro j hj hl
    rw [hlivec j]
    obtain ⟨a, b⟩ := (hlive' j).mp hl
    exact ⟨a, fun hm => (List.mem_cons.mp hm).elim (fun e => hj e) b⟩
  refine ⟨?_, ?_, ?_, ?_⟩
  · intro a ha b hb hla hlb hva hlo hhi
    rw [hlen] at ha hb
    by_cases hai : a = i <;> by_cases hbi : b = i
    · rw [hai, hbi]
    · exfalso
      rw [hai, hget_self] at hva hlo hhi
      rw [hget_ne b hbi] at hva hlo hhi
      exact hmiss b hb (hlive_ne b hbi hlb) ⟨hva.symm, hlo.symm, hhi.symm⟩
    · exfalso
      rw [hbi, hget_self] at hva hlo hhi
      rw [hget_ne a hai] at hva hlo hhi
      exact hmiss a ha (hlive_ne a hai hla) ⟨hva, hlo, hhi⟩
    · rw [hget_ne a hai, hget_ne b hbi] at hva hlo hhi
      exact h1 a ha b hb (hlive_ne a hai hla) (hlive_ne b hbi hlb) hva hlo hhi
  · intro a ha hla
    rw [hlen] at ha
    by_cases hai : a = i
    · rw [hai, hget_self]
      exact hlh
    · rw [hget_ne a hai]
      exact h2 a ha (hlive_ne a hai hla)
  · intro j hj
    rw [hfl'] at hj
    have hj' := hw.1 j (by rw [hfl]; exact List.mem_cons_of_mem i hj)
    have hji : j ≠ i := fun e => hinr (e ▸ hj)
    refine ⟨by rw [hlen]; exact hj'.1, ?_⟩
    rw [hget_ne j hji]
    exact hj'.2
  · rw [hfl']
    exact (List.nodup_cons.mp hnodup).2

/-- A miss with an empty free list: appending a fresh record preserves
the invariant. -/
theorem append_record_inv (c : NodeCache) (v : Nat) (low high : NodeId)
    (hfl : c.freeList = [])
    (hmiss : ∀ j < c.arena.length, isLive c j = true →
      ¬((getNode c j).var = v ∧ (getNode c j).low = low ∧
        (getNode c j).high = high))
    (hlh : low ≠ high) (h : Inv3 c) :
    Inv3 { c with arena := c.arena ++ [⟨v, low, high, 1⟩] } := by
  obtain ⟨h1, h2, hw⟩ := h
  set c' := { c with arena := c.arena ++ [(⟨v, low, high, 1⟩ : BddNode)] } with hc'
  have hlen : c'.arena.length = c.arena.length + 1 := by rw [hc']; simp
  have hflz : c'.freeList = [] := by rw [hc']; exact hfl
  have hget_lt : ∀ j, j < c.arena.length → getNode c' j = getNode c j := by
    intro j hj
    show (c.arena ++ [(⟨v, low, high, 1⟩ : BddNode)]).getD j
        (⟨0, 0, 0, 0⟩ : BddNode) = c.arena.getD j (⟨0, 0, 0, 0⟩ : BddNode)
    rw [List.getD, List.getD, List.get?_append hj]
  have hget_self : getNode c' c.arena.length = ⟨v, low, high, 1⟩ := by
    show (c.arena ++ [(⟨v, low, high, 1⟩ : BddNode)]).getD c.arena.length
        (⟨0, 0, 0, 0⟩ : BddNode) = (⟨v, low, high, 1⟩ : BddNode)
    rw [List.getD, List.get?_concat_length]
    rfl
  have hlivec : ∀ j, isLive c j = true ↔ j < c.arena.length := by
    intro j
    rw [isLive_iff, hfl]
    simp
  refine ⟨?_, ?_, ?_, ?_⟩
  · intro a ha b hb hla hlb hva hlo hhi
    rw [hlen] at ha hb
    by_cases hai : a = c.arena.length <;> by_cases hbi : b = c.arena.length
    · rw [hai, hbi]
    · exfalso
      have hb' : b < c.arena.length := by omega
      rw [hai, hget_self] at hva hlo hhi
      rw [hget_lt b hb'] at hva hlo hhi
      exact hmiss b hb' ((hlivec b).mpr hb') ⟨hva.symm, hlo.symm, hhi.symm⟩
    · exfalso
      have ha' : a < c.arena.length := by omega
      rw [hbi, hget_self] at hva hlo hhi
      rw [hget_lt a ha'] at hva hlo hhi
      exact hmiss a ha' ((hlivec a).mpr ha') ⟨hva, hlo, hhi⟩
    · have ha' : a < c.arena.length := by omega
      have hb' : b < c.arena.length := by omega
      rw [hget_lt a ha', hget_lt b hb'] at hva hlo hhi
      exact h1 a ha' b hb' ((hlivec a).mpr ha') ((hlivec b).mpr hb') hva hlo hhi
  · intro a ha hla
    rw [hlen] at ha
    by_cases hai : a = c.arena.length
    · rw [hai, hget_self]
      exact hlh
    · have ha' : a < c.arena.length := by omega
      rw [hget_lt a ha']
      exact h2 a ha' ((hlivec a).mpr ha')
  · intro j hj
    rw [hflz] at hj
    simp at hj
  · rw [hflz]
    exact List.nodup_nil

/-- `ipset_node_cache_nonterminal` preserves the invariant. -/
theorem nonterminal_inv (c : NodeCache) (v : Nat) (low high : NodeId)
    (h : Inv3 c) : Inv3 (ipset_node_cache_nonterminal c v low high).1 := by
  unfold ipset_node_cache_nonterminal
  by_cases he : (low == high) = true
  · rw [if_pos he]
    exact decrefT_inv c high h
  · rw [if_neg he]
    cases hl : lookupUnique c v low high with
    | some j =>
      have hj := lookupUnique_some c v low high j hl
      have hv' : validId c (nonterminalId j) = true := by
        have hlive := hj.2.1
        have hni : nodeIndex (nonterminalId j) = j := nodeIndex_nonterminalId j
        simp [validId, hni, hlive]
      show Inv3 (ipset_node_decrefT (ipset_node_decrefT
        (ipset_node_incref c (nonterminalId j)) low) high)
      exact decrefT_inv _ _ (decrefT_inv _ _ (incref_inv c (nonterminalId j) hv' h))
    | none =>
      have hmiss := lookupUnique_none c v low high hl
      have hlh : low ≠ high := by simpa using he
      cases hfl : c.freeList with
      | cons i rest =>
        show Inv3 { c with
          arena := c.arena.set i ⟨v, low, high, 1⟩,
          freeList := rest }
        exact fresh_record_inv c v low high i rest hfl hmiss hlh h
      | nil =>
        show Inv3 {
          arena := c.arena ++ [(⟨v, low, high, 1⟩ : BddNode)],
          freeList := ([] : List Nat),
          andCache := c.andCache,
          orCache := c.orCache,
          iteCache := c.iteCache }
        rw [← hfl]
        exact append_record_inv c v low high hfl hmiss hlh h

theorem inv_new : Inv3 ipset_node_cache_new := by
  refine ⟨?_, ?_, ?_, ?_⟩
  · intro i hi
    simp [ipset_node_cache_new] at hi
  · intro i hi
    simp [ipset_node_cache_new] at hi
  · intro i hi
    simp [ipset_node_cache_new] at hi
  · simp [ipset_node_cache_new]

theorem reachable_inv (c : NodeCache) (h : CacheReachable c) : Inv3 c := by
  induction h with
  | new => exact inv_new
  | nonterminal c v low high _ ih => exact nonterminal_inv c v low high ih
  | incref c id _ hv ih => exact incref_inv c id hv ih
  | decref fuel c id c' _ hd ih => exact decref_inv fuel c id c' hd ih

/-- Claim C3: after any sequence of `ipset_node_cache_nonterminal`,
`ipset_node_incref` and `ipset_node_decref` calls on a cache starting
from a fresh one, (U1) at most one live nonterminal record exists per
distinct (variable, low, high) triple and (U2) no live nonterminal has
equal children; and in particular `ipset_node_cache_nonterminal c v x x`
returns `x` itself and creates no record (the arena does not grow and no
index becomes live). -/
theorem C3_unique_table_invariants :
    (∀ c : NodeCache, CacheReachable c → U1 c ∧ U2 c) ∧
    (∀ (c : NodeCache) (v : Nat) (x : NodeId),
      (ipset_node_cache_nonterminal c v x x).2 = x ∧
      (ipset_node_cache_nonterminal c v x x).1.arena.length =
        c.arena.length ∧
      (∀ j, isLive (ipset_node_cache_nonterminal c v x x).1 j = true →
        isLive c j = true)) := by
  constructor
  · intro c h
    obtain ⟨h1, h2, _⟩ := reachable_inv c h
    exact ⟨h1, h2⟩
  · intro c v x
    have hxx : ipset_node_cache_nonterminal c v x x =
        (ipset_node_decrefT c x, x) := by
      unfold ipset_node_cache_nonterminal
      rw [if_pos (by simp)]
    obtain ⟨hlen, _, hlive⟩ := decrefT_props c x
    rw [hxx]
    exact ⟨rfl, hlen, hlive⟩

/-- Witness for C3 at a concrete input: the cache obtained by one
`nonterminal` call on a fresh cache is reachable and satisfies (U1) and
(U2), and a redundant `nonterminal` call collapses to its child. -/
theorem C3_unique_table_invariants_witness :
    (CacheReachable (ipset_node_cache_nonterminal ipset_node_cache_new 0
        (terminalId 0) (terminalId 1)).1 ∧
      U1 (ipset_node_cache_nonterminal ipset_node_cache_new 0
        (terminalId 0) (terminalId 1)).1 ∧
      U2 (ipset_node_cache_nonterminal ipset_node_cache_new 0
        (terminalId 0) (terminalId 1)).1) ∧
    (ipset_node_cache_nonterminal ipset_node_cache_new 5 (terminalId 1)
      (terminalId 1)).2 = terminalId 1 := by
  have hr : CacheReachable (ipset_node_cache_nonterminal
      ipset_node_cache_new 0 (terminalId 0) (terminalId 1)).1 :=
    CacheReachable.nonterminal ipset_node_cache_new 0 (terminalId 0)
      (terminalId 1) CacheReachable.new
  refine ⟨⟨hr, ?_⟩, ?_⟩
  · exact C3_unique_table_invariants.1 _ hr
  · exact (C3_unique_table_invariants.2 ipset_node_cache_new 5
      (terminalId 1)).1

/-! ### Evaluation and refcount-accuracy machinery -/

theorem nonterminalId_ne_terminalId (i v : Nat) :
    nonterminalId i ≠ terminalId v := by
  show 2 * i ≠ 2 * v + 1
  omega

theorem eval_succ (fuel : Nat) (c : NodeCache) (id : NodeId) (a : Nat → Bool) :
    ipset_node_evaluate (fuel + 1) c id a =
      if isTerminal id then some (terminalValue id)
      else ipset_node_evaluate fuel c
        (if a (getNode c (nodeIndex id)).var then (getNode c (nodeIndex id)).high
         else (getNode c (nodeIndex id)).low) a := by
  rw [ipset_node_evaluate]

theorem eval_mono : ∀ (fuel fuel' : Nat) (c : NodeCache) (id : NodeId)
    (a : Nat → Bool) (w : Nat), fuel ≤ fuel' →
    ipset_node_evaluate fuel c id a = some w →
    ipset_node_evaluate fuel' c id a = some w := by
  intro fuel
  induction fuel with
  | zero => intro fuel' c id a w _ h; simp [ipset_node_evaluate] at h
  | succ fuel ih =>
    intro fuel' c id a w hle h
    obtain ⟨f', rfl⟩ : ∃ f', fuel' = f' + 1 := ⟨fuel' - 1, by omega⟩
    rw [eval_succ] at h ⊢
    by_cases ht : isTerminal id
    · rw [if_pos ht] at h ⊢; exact h
    · rw [if_neg ht] at h ⊢
      exact ih f' c _ a w (by omega) h

theorem parentOcc_pos (c : NodeCache) (j i : Nat) (hj : j < c.arena.length)
    (hl : isLive c j = true)
    (he : (getNode c j).low = nonterminalId i ∨
      (getNode c j).high = nonterminalId i) :
    1 ≤ parentOcc c i := by
  unfold parentOcc
  have hterm : 1 ≤ (if isLive c j = true then
      (if (getNode c j).low = nonterminalId i then 1 else 0) +
      (if (getNode c j).high = nonterminalId i then 1 else 0) else 0) := by
    rw [if_pos hl]
    rcases he with h | h
    · rw [if_pos h]; omega
    · rw [if_pos h]; omega
  have hsplit := Finset.sum_erase_add (Finset.range c.arena.length)
    (fun k => if isLive c k = true then
      (if (getNode c k).low = nonterminalId i then 1 else 0) +
      (if (getNode c k).high = nonterminalId i then 1 else 0) else 0)
    (Finset.mem_range.mpr hj)
  simp only at hsplit
  omega

theorem parentOcc_congr (c c' : NodeCache)
    (hlen : c'.arena.length = c.arena.length)
    (h : ∀ j, j < c.arena.length →
      isLive c' j = isLive c j ∧
      (isLive c j = true → (getNode c' j).low = (getNode c j).low ∧
        (getNode c' j).high = (getNode c j).high)) :
    ∀ i, parentOcc c' i = parentOcc c i := by
  intro i
  unfold parentOcc
  rw [hlen]
  refine Finset.sum_congr rfl ?_
  intro j hj
  rw [Finset.mem_range] at hj
  obtain ⟨hl, hsh⟩ := h j hj
  rw [hl]
  by_cases hlj : isLive c j = true
  · simp only [if_pos hlj]
    obtain ⟨h1, h2⟩ := hsh hlj
    rw [h1, h2]
  · simp only [if_neg hlj]

/-- A child of a live record carries a reference (through the parent
edge), so its own reference is held. -/
theorem childOk_strongValid (c : NodeCache) (O : List NodeId) (vb : Nat)
    (hwf : WFO c O vb) (j : Nat) (hj : j < c.arena.length)
    (hl : isLive c j = true) (child : NodeId)
    (hc : (getNode c j).low = child ∨ (getNode c j).high = child)
    (hok : childOk c (getNode c j).var child = true) :
    strongValid c child = true := by
  unfold childOk at hok
  unfold strongValid
  by_cases ht : isTerminal child
  · simp [ht]
  · have htf : isTerminal child = false := by simpa using ht
    rw [htf] at hok ⊢
    simp only [Bool.false_or, Bool.and_eq_true, decide_eq_true_eq] at hok ⊢
    obtain ⟨hlive, _⟩ := hok
    refine ⟨hlive, ?_⟩
    have hchild : child = nonterminalId (nodeIndex child) :=
      eq_nonterminalId_of_not_isTerminal (by simpa using ht)
    have hpo : 1 ≤ parentOcc c (nodeIndex child) := by
      apply parentOcc_pos c j _ hj hl
      rcases hc with h | h
      · left; rw [h, ← hchild]
      · right; rw [h, ← hchild]
    have hacc := hwf.acc (nodeIndex child) hlive
    omega

/-- Facts about one evaluation step from a held nonterminal: the stepped-to
child is also held, its variable is strictly larger, and the node's
variable is below the bound. -/
theorem step_facts (c : NodeCache) (O : List NodeId) (vb : Nat)
    (hwf : WFO c O vb) (id : NodeId) (htf : isTerminal id = false)
    (hsv : strongValid c id = true) (child : NodeId)
    (hcc : (getNode c (nodeIndex id)).low = child ∨
      (getNode c (nodeIndex id)).high = child) :
    strongValid c child = true ∧
    (getNode c (nodeIndex id)).var < varOf c vb child ∧
    varOf c vb id = (getNode c (nodeIndex id)).var ∧
    (getNode c (nodeIndex id)).var < vb ∧
    isLive c (nodeIndex id) = true := by
  have hlive : isLive c (nodeIndex id) = true := by
    unfold strongValid at hsv
    simp [htf] at hsv
    exact hsv.1
  have hidx := ((isLive_iff c _).mp hlive).1
  obtain ⟨hvar, hlow, hhigh⟩ := hwf.graph (nodeIndex id) hlive
  have hok : childOk c (getNode c (nodeIndex id)).var child = true := by
    rcases hcc with h | h
    · rw [← h]; exact hlow
    · rw [← h]; exact hhigh
  have hsv' := childOk_strongValid c O vb hwf (nodeIndex id) hidx hlive child hcc hok
  have hvc : (getNode c (nodeIndex id)).var < varOf c vb child := by
    unfold varOf
    by_cases htc : isTerminal child
    · rw [if_pos htc]; exact hvar
    · rw [if_neg htc]
      have htcf : isTerminal child = false := by simpa using htc
      unfold childOk at hok
      rw [htcf] at hok
      simp only [Bool.false_or, Bool.and_eq_true, decide_eq_true_eq] at hok
      exact hok.2
  have hvid : varOf c vb id = (getNode c (nodeIndex id)).var := by
    unfold varOf
    rw [if_neg (by simp [htf])]
  exact ⟨hsv', hvc, hvid, hvar, hlive⟩

/-- On a well-formed graph, evaluation of a held node succeeds once the
fuel exceeds the remaining variable span. -/
theorem eval_total (c : NodeCache) (O : List NodeId) (vb : Nat)
    (hwf : WFO c O vb) :
    ∀ (fuel : Nat) (id : NodeId) (a : Nat → Bool),
      strongValid c id = true → vb + 1 - varOf c vb id < fuel →
      ∃ w, ipset_node_evaluate fuel c id a = some w := by
  intro fuel
  induction fuel with
  | zero => intro id a _ hf; omega
  | succ fuel ih =>
    intro id a hsv hf
    rw [eval_succ]
    by_cases ht : isTerminal id
    · rw [if_pos ht]; exact ⟨_, rfl⟩
    · rw [if_neg ht]
      have htf : isTerminal id = false := by simpa using ht
      have hcc : (getNode c (nodeIndex id)).low =
          (if a (getNode c (nodeIndex id)).var then (getNode c (nodeIndex id)).high
           else (getNode c (nodeIndex id)).low) ∨
          (getNode c (nodeIndex id)).high =
          (if a (getNode c (nodeIndex id)).var then (getNode c (nodeIndex id)).high
           else (getNode c (nodeIndex id)).low) := by
        by_cases hb : a (getNode c (nodeIndex id)).var
        · right; rw [if_pos hb]
        · left; rw [if_neg hb]
      obtain ⟨hsv', hvc, hvid, hvar, _⟩ := step_facts c O vb hwf id htf hsv _ hcc
      exact ih _ a hsv' (by omega)

theorem evalT_eq (c : NodeCache) (vb : Nat) (id : NodeId) (a : Nat → Bool)
    (fuel w : Nat) (h : ipset_node_evaluate fuel c id a = some w)
    (hf : fuel ≤ vb + 2) : evalT c vb id a = w := by
  unfold evalT
  rw [eval_mono fuel (vb + 2) c id a w hf h]
  rfl

theorem evalT_terminal (c : NodeCache) (vb v : Nat) (a : Nat → Bool) :
    evalT c vb (terminalId v) a = v := by
  unfold evalT
  rw [show vb + 2 = (vb + 1) + 1 from rfl, eval_succ,
    if_pos (isTerminal_terminalId v)]
  simp

/-- Evaluation results transfer to any cache that preserves the liveness
and shape of live records. -/
theorem eval_stable (c c' : NodeCache) (O : List NodeId) (vb : Nat)
    (hwf : WFO c O vb)
    (hP : ∀ k, isLive c k = true → isLive c' k = true ∧
      (getNode c' k).var = (getNode c k).var ∧
      (getNode c' k).low = (getNode c k).low ∧
      (getNode c' k).high = (getNode c k).high) :
    ∀ (fuel : Nat) (id : NodeId) (a : Nat → Bool) (w : Nat),
      strongValid c id = true →
      ipset_node_evaluate fuel c id a = some w →
      ipset_node_evaluate fuel c' id a = some w := by
  intro fuel
  induction fuel with
  | zero => intro id a w _ h; simp [ipset_node_evaluate] at h
  | succ fuel ih =>
    intro id a w hsv h
    rw [eval_succ] at h ⊢
    by_cases ht : isTerminal id
    · rw [if_pos ht] at h ⊢; exact h
    · rw [if_neg ht] at h ⊢
      have htf : isTerminal id = false := by simpa using ht
      have hcc : (getNode c (nodeIndex id)).low =
          (if a (getNode c (nodeIndex id)).var then (getNode c (nodeIndex id)).high
           else (getNode c (nodeIndex id)).low) ∨
          (getNode c (nodeIndex id)).high =
          (if a (getNode c (nodeIndex id)).var then (getNode c (nodeIndex id)).high
           else (getNode c (nodeIndex id)).low) := by
        by_cases hb : a (getNode c (nodeIndex id)).var
        · right; rw [if_pos hb]
        · left; rw [if_neg hb]
      obtain ⟨hsv', _, _, _, hlive⟩ := step_facts c O vb hwf id htf hsv _ hcc
      obtain ⟨_, hgv, hgl, hgh⟩ := hP (nodeIndex id) hlive
      rw [hgv, hgl, hgh]
      exact ih _ a w hsv' h

/-- Transfer of total evaluation to a preserving cache. -/
theorem evalT_stable (c c' : NodeCache) (O : List NodeId) (vb : Nat)
    (hwf : WFO c O vb)
    (hP : ∀ k, isLive c k = true → isLive c' k = true ∧
      (getNode c' k).var = (getNode c k).var ∧
      (getNode c' k).low = (getNode c k).low ∧
      (getNode c' k).high = (getNode c k).high)
    (id : NodeId) (a : Nat → Bool) (hsv : strongValid c id = true) :
    evalT c' vb id a = evalT c vb id a := by
  obtain ⟨w, hw⟩ := eval_total c O vb hwf (vb + 2) id a hsv (by omega)
  rw [evalT_eq c vb id a _ w hw (le_refl _),
    evalT_eq c' vb id a (vb + 2) w
      (eval_stable c c' O vb hwf hP (vb + 2) id a w hsv hw) (le_refl _)]

/-- Total evaluation only looks at the assignment from a variable bound
on the node downward. -/
theorem eval_indep (c : NodeCache) (O : List NodeId) (vb : Nat)
    (hwf : WFO c O vb) (lo : Nat) (a b : Nat → Bool)
    (hab : ∀ k, lo ≤ k → a k = b k) :
    ∀ (fuel : Nat) (id : NodeId) (w : Nat), strongValid c id = true →
      lo ≤ varOf c vb id →
      ipset_node_evaluate fuel c id a = some w →
      ipset_node_evaluate fuel c id b = some w := by
  intro fuel
  induction fuel with
  | zero => intro id w _ _ h; simp [ipset_node_evaluate] at h
  | succ fuel ih =>
    intro id w hsv hlo h
    rw [eval_succ] at h ⊢
    by_cases ht : isTerminal id
    · rw [if_pos ht] at h ⊢; exact h
    · rw [if_neg ht] at h ⊢
      have htf : isTerminal id = false := by simpa using ht
      have hcc : (getNode c (nodeIndex id)).low =
          (if a (getNode c (nodeIndex id)).var then (getNode c (nodeIndex id)).high
           else (getNode c (nodeIndex id)).low) ∨
          (getNode c (nodeIndex id)).high =
          (if a (getNode c (nodeIndex id)).var then (getNode c (nodeIndex id)).high
           else (getNode c (nodeIndex id)).low) := by
        by_cases hb : a (getNode c (nodeIndex id)).var
        · right; rw [if_pos hb]
        · left; rw [if_neg hb]
      obtain ⟨hsv', hvc, hvid, _, _⟩ := step_facts c O vb hwf id htf hsv _ hcc
      have hsame : b (getNode c (nodeIndex id)).var = a (getNode c (nodeIndex id)).var :=
        (hab _ (by omega)).symm
      rw [hsame]
      exact ih _ w hsv' (by omega) h

theorem evalT_indep (c : NodeCache) (O : List NodeId) (vb : Nat)
    (hwf : WFO c O vb) (lo : Nat) (a b : Nat → Bool)
    (hab : ∀ k, lo ≤ k → a k = b k) (id : NodeId)
    (hsv : strongValid c id = true) (hlo : lo ≤ varOf c vb id) :
    evalT c vb id a = evalT c vb id b := by
  obtain ⟨w, hw⟩ := eval_total c O vb hwf (vb + 2) id a hsv (by omega)
  rw [evalT_eq c vb id a _ w hw (le_refl _),
    evalT_eq c vb id b (vb + 2) w
      (eval_indep c O vb hwf lo a b hab (vb + 2) id w hsv hlo hw) (le_refl _)]

/-- One step of total evaluation from a held nonterminal. -/
theorem evalT_step (c : NodeCache) (O : List NodeId) (vb : Nat)
    (hwf : WFO c O vb) (id : NodeId) (htf : isTerminal id = false)
    (hsv : strongValid c id = true) (a : Nat → Bool) :
    evalT c vb id a = evalT c vb
      (if a (getNode c (nodeIndex id)).var then (getNode c (nodeIndex id)).high
       else (getNode c (nodeIndex id)).low) a := by
  have hcc : (getNode c (nodeIndex id)).low =
      (if a (getNode c (nodeIndex id)).var then (getNode c (nodeIndex id)).high
       else (getNode c (nodeIndex id)).low) ∨
      (getNode c (nodeIndex id)).high =
      (if a (getNode c (nodeIndex id)).var then (getNode c (nodeIndex id)).high
       else (getNode c (nodeIndex id)).low) := by
    by_cases hb : a (getNode c (nodeIndex id)).var
    · right; rw [if_pos hb]
    · left; rw [if_neg hb]
  obtain ⟨hsv', hvc, hvid, hvar, _⟩ := step_facts c O vb hwf id htf hsv _ hcc
  obtain ⟨w, hw⟩ := eval_total c O vb hwf (vb + 1) _ a hsv' (by omega)
  have hid : ipset_node_evaluate (vb + 2) c id a = some w := by
    rw [show vb + 2 = (vb + 1) + 1 from rfl, eval_succ,
      if_neg (show ¬isTerminal id = true by simp [htf])]
    exact hw
  rw [evalT_eq c vb id a (vb + 2) w hid (le_refl _),
    evalT_eq c vb _ a (vb + 1) w hw (by omega)]

theorem varOf_le (c : NodeCache) (O : List NodeId) (vb : Nat)
    (hwf : WFO c O vb) (id : NodeId) (hsv : strongValid c id = true) :
    varOf c vb id ≤ vb := by
  unfold varOf
  by_cases ht : isTerminal id
  · rw [if_pos ht]
  · rw [if_neg ht]
    have htf : isTerminal id = false := by simpa using ht
    have hlive : isLive c (nodeIndex id) = true := by
      unfold strongValid at hsv
      simp [htf] at hsv
      exact hsv.1
    exact le_of_lt (hwf.graph _ hlive).1

/-- The bundle of facts about a held nonterminal used by canonicity. -/
theorem nonterm_facts (c : NodeCache) (O : List NodeId) (vb : Nat)
    (hwf : WFO c O vb) (x : NodeId) (htxf : isTerminal x = false)
    (hx : strongValid c x = true) :
    isLive c (nodeIndex x) = true ∧ nodeIndex x < c.arena.length ∧
    varOf c vb x = (getNode c (nodeIndex x)).var ∧
    (getNode c (nodeIndex x)).var < vb ∧
    strongValid c (getNode c (nodeIndex x)).low = true ∧
    strongValid c (getNode c (nodeIndex x)).high = true ∧
    (getNode c (nodeIndex x)).var < varOf c vb (getNode c (nodeIndex x)).low ∧
    (getNode c (nodeIndex x)).var < varOf c vb (getNode c (nodeIndex x)).high := by
  obtain ⟨hsvl, hvcl, hvid, hvar, hlive⟩ :=
    step_facts c O vb hwf x htxf hx _ (Or.inl rfl)
  obtain ⟨hsvh, hvch, _, _, _⟩ := step_facts c O vb hwf x htxf hx _ (Or.inr rfl)
  exact ⟨hlive, ((isLive_iff c _).mp hlive).1, hvid, hvar, hsvl, hsvh, hvcl, hvch⟩

theorem evalT_step_low (c : NodeCache) (O : List NodeId) (vb : Nat)
    (hwf : WFO c O vb) (x : NodeId) (htxf : isTerminal x = false)
    (hx : strongValid c x = true) (a : Nat → Bool)
    (hv : a (getNode c (nodeIndex x)).var = false) :
    evalT c vb x a = evalT c vb (getNode c (nodeIndex x)).low a := by
  rw [evalT_step c O vb hwf x htxf hx a, hv]
  simp

theorem evalT_step_high (c : NodeCache) (O : List NodeId) (vb : Nat)
    (hwf : WFO c O vb) (x : NodeId) (htxf : isTerminal x = false)
    (hx : strongValid c x = true) (a : Nat → Bool)
    (hv : a (getNode c (nodeIndex x)).var = true) :
    evalT c vb x a = evalT c vb (getNode c (nodeIndex x)).high a := by
  rw [evalT_step c O vb hwf x htxf hx a, hv]
  simp

theorem update_agree (a : Nat → Bool) (v : Nat) (b : Bool) :
    ∀ k, v + 1 ≤ k → a k = Function.update a v b k := by
  intro k hk
  exact (Function.update_noteq (show k ≠ v by omega) b a).symm

/-- A held nonterminal cannot have a constant total evaluation (on a
well-formed cache): its two children are distinct and, by the inner
induction hypothesis, denote different functions. -/
theorem no_const_nonterminal (c : NodeCache) (O : List NodeId) (vb n : Nat)
    (hwf : WFO c O vb)
    (ihf : ∀ u w, strongValid c u = true → strongValid c w = true →
      max (vb + 1 - varOf c vb u) (vb + 1 - varOf c vb w) ≤ n →
      (∀ a, evalT c vb u a = evalT c vb w a) → u = w)
    (y : NodeId) (htyf : isTerminal y = false)
    (hy : strongValid c y = true) (hn : vb + 1 - varOf c vb y ≤ n + 1)
    (t : Nat) (heq : ∀ a, evalT c vb y a = t) : False := by
  obtain ⟨hylive, hyidx, hvidy, hvary, hsvl, hsvh, hvcl, hvch⟩ :=
    nonterm_facts c O vb hwf y htyf hy
  have hne : (getNode c (nodeIndex y)).low ≠ (getNode c (nodeIndex y)).high :=
    hwf.u2 (nodeIndex y) hyidx hylive
  have hdiff : ∃ a, evalT c vb (getNode c (nodeIndex y)).low a ≠
      evalT c vb (getNode c (nodeIndex y)).high a := by
    by_contra hno
    push_neg at hno
    refine hne (ihf _ _ hsvl hsvh (max_le_iff.mpr ⟨by omega, by omega⟩) hno)
  obtain ⟨a0, ha0⟩ := hdiff
  have hv1 : (Function.update a0 (getNode c (nodeIndex y)).var false)
      (getNode c (nodeIndex y)).var = false := by simp
  have hv2 : (Function.update a0 (getNode c (nodeIndex y)).var true)
      (getNode c (nodeIndex y)).var = true := by simp
  have h1 : evalT c vb (getNode c (nodeIndex y)).low a0 = t := by
    rw [evalT_indep c O vb hwf ((getNode c (nodeIndex y)).var + 1) a0
        (Function.update a0 (getNode c (nodeIndex y)).var false)
        (update_agree a0 _ false) _ hsvl (by omega),
      ← evalT_step_low c O vb hwf y htyf hy _ hv1]
    exact heq _
  have h2 : evalT c vb (getNode c (nodeIndex y)).high a0 = t := by
    rw [evalT_indep c O vb hwf ((getNode c (nodeIndex y)).var + 1) a0
        (Function.update a0 (getNode c (nodeIndex y)).var true)
        (update_agree a0 _ true) _ hsvh (by omega),
      ← evalT_step_high c O vb hwf y htyf hy _ hv2]
    exact heq _
  exact ha0 (h1.trans h2.symm)

/-- Canonicity, inner induction on the remaining variable span. -/
theorem canonical_aux (c : NodeCache) (O : List NodeId) (vb : Nat)
    (hwf : WFO c O vb) :
    ∀ (n : Nat) (x y : NodeId), strongValid c x = true →
      strongValid c y = true →
      max (vb + 1 - varOf c vb x) (vb + 1 - varOf c vb y) ≤ n →
      (∀ a, evalT c vb x a = evalT c vb y a) → x = y := by
  intro n
  induction n with
  | zero =>
    intro x y hx hy hm _
    exfalso
    have h1 := varOf_le c O vb hwf x hx
    have h2 := max_le_iff.mp hm
    omega
  | succ n ih =>
    intro x y hx hy hm heq
    obtain ⟨hm1, hm2⟩ := max_le_iff.mp hm
    by_cases htx : isTerminal x <;> by_cases hty : isTerminal y
    · have ex := eq_terminalId_of_isTerminal htx
      have ey := eq_terminalId_of_isTerminal hty
      have h := heq (fun _ => false)
      have hx1 : evalT c vb x (fun _ => false) = terminalValue x := by
        conv_lhs => rw [ex]
        exact evalT_terminal c vb (terminalValue x) _
      have hy1 : evalT c vb y (fun _ => false) = terminalValue y := by
        conv_lhs => rw [ey]
        exact evalT_terminal c vb (terminalValue y) _
      rw [hx1, hy1] at h
      rw [ex, ey, h]
    · exfalso
      have htyf : isTerminal y = false := by simpa using hty
      refine no_const_nonterminal c O vb n hwf
        (fun u w hu hw hmn hequ => ih u w hu hw hmn hequ)
        y htyf hy hm2 (terminalValue x) (fun a => ?_)
      rw [← heq a]
      conv_lhs => rw [eq_terminalId_of_isTerminal htx]
      exact evalT_terminal c vb (terminalValue x) a
    · exfalso
      have htxf : isTerminal x = false := by simpa using htx
      refine no_const_nonterminal c O vb n hwf
        (fun u w hu hw hmn hequ => ih u w hu hw hmn hequ)
        x htxf hx hm1 (terminalValue y) (fun a => ?_)
      rw [heq a]
      conv_lhs => rw [eq_terminalId_of_isTerminal hty]
      exact evalT_terminal c vb (terminalValue y) a
    · have htxf : isTerminal x = false := by simpa using htx
      have htyf : isTerminal y = false := by simpa using hty
      obtain ⟨hxlive, hxidx, hvidx, hvarx, hsvlx, hsvhx, hvclx, hvchx⟩ :=
        nonterm_facts c O vb hwf x htxf hx
      obtain ⟨hylive, hyidx, hvidy, hvary, hsvly, hsvhy, hvcly, hvchy⟩ :=
        nonterm_facts c O vb hwf y htyf hy
      rcases Nat.lt_trichotomy (getNode c (nodeIndex x)).var
          (getNode c (nodeIndex y)).var with hlt | heqv | hgt
      · exfalso
        have hkey : ∀ a, evalT c vb (getNode c (nodeIndex x)).low a =
            evalT c vb (getNode c (nodeIndex x)).high a := by
          intro a
          have e1 : evalT c vb (getNode c (nodeIndex x)).low a =
              evalT c vb y a := by
            rw [evalT_indep c O vb hwf ((getNode c (nodeIndex x)).var + 1) a
                (Function.update a (getNode c (nodeIndex x)).var false)
                (update_agree a _ false) _ hsvlx (by omega),
              ← evalT_step_low c O vb hwf x htxf hx _ (by simp),
              heq _,
              ← evalT_indep c O vb hwf ((getNode c (nodeIndex x)).var + 1) a
                (Function.update a (getNode c (nodeIndex x)).var false)
                (update_agree a _ false) y hy (by omega)]
          have e2 : evalT c vb (getNode c (nodeIndex x)).high a =
              evalT c vb y a := by
            rw [evalT_indep c O vb hwf ((getNode c (nodeIndex x)).var + 1) a
                (Function.update a (getNode c (nodeIndex x)).var true)
                (update_agree a _ true) _ hsvhx (by omega),
              ← evalT_step_high c O vb hwf x htxf hx _ (by simp),
              heq _,
              ← evalT_indep c O vb hwf ((getNode c (nodeIndex x)).var + 1) a
                (Function.update a (getNode c (nodeIndex x)).var true)
                (update_agree a _ true) y hy (by omega)]
          rw [e1, e2]
        exact absurd
          (ih _ _ hsvlx hsvhx (max_le_iff.mpr ⟨by omega, by omega⟩) hkey)
          (hwf.u2 (nodeIndex x) hxidx hxlive)
      · have hlow : ∀ a, evalT c vb (getNode c (nodeIndex x)).low a =
            evalT c vb (getNode c (nodeIndex y)).low a := by
          intro a
          rw [evalT_indep c O vb hwf ((getNode c (nodeIndex x)).var + 1) a
              (Function.update a (getNode c (nodeIndex x)).var false)
              (update_agree a _ false) _ hsvlx (by omega),
            ← evalT_step_low c O vb hwf x htxf hx _ (by simp),
            heq _,
            evalT_step_low c O vb hwf y htyf hy _ (by rw [← heqv]; simp),
            ← evalT_indep c O vb hwf ((getNode c (nodeIndex x)).var + 1) a
              (Function.update a (getNode c (nodeIndex x)).var false)
              (update_agree a _ false) _ hsvly (by omega)]
        have hhigh : ∀ a, evalT c vb (getNode c (nodeIndex x)).high a =
            evalT c vb (getNode c (nodeIndex y)).high a := by
          intro a
          rw [evalT_indep c O vb hwf ((getNode c (nodeIndex x)).var + 1) a
              (Function.update a (getNode c (nodeIndex x)).var true)
              (update_agree a _ true) _ hsvhx (by omega),
            ← evalT_step_high c O vb hwf x htxf hx _ (by simp),
            heq _,
            evalT_step_high c O vb hwf y htyf hy _ (by rw [← heqv]; simp),
            ← evalT_indep c O vb hwf ((getNode c (nodeIndex x)).var + 1) a
              (Function.update a (getNode c (nodeIndex x)).var true)
              (update_agree a _ true) _ hsvhy (by omega)]
        have hlxy := ih _ _ hsvlx hsvly
          (max_le_iff.mpr ⟨by omega, by omega⟩) hlow
        have hhxy := ih _ _ hsvhx hsvhy
          (max_le_iff.mpr ⟨by omega, by omega⟩) hhigh
        have hidx_eq : nodeIndex x = nodeIndex y :=
          hwf.u1 (nodeIndex x) hxidx (nodeIndex y) hyidx hxlive hylive
            heqv hlxy hhxy
        rw [eq_nonterminalId_of_not_isTerminal htxf,
          eq_nonterminalId_of_not_isTerminal htyf, hidx_eq]
      · exfalso
        have hkey : ∀ a, evalT c vb (getNode c (nodeIndex y)).low a =
            evalT c vb (getNode c (nodeIndex y)).high a := by
          intro a
          have e1 : evalT c vb (getNode c (nodeIndex y)).low a =
              evalT c vb x a := by
            rw [evalT_indep c O vb hwf ((getNode c (nodeIndex y)).var + 1) a
                (Function.update a (getNode c (nodeIndex y)).var false)
                (update_agree a _ false) _ hsvly (by omega),
              ← evalT_step_low c O vb hwf y htyf hy _ (by simp),
              ← heq _,
              ← evalT_indep c O vb hwf ((getNode c (nodeIndex y)).var + 1) a
                (Function.update a (getNode c (nodeIndex y)).var false)
                (update_agree a _ false) x hx (by omega)]
          have e2 : evalT c vb (getNode c (nodeIndex y)).high a =
              evalT c vb x a := by
            rw [evalT_indep c O vb hwf ((getNode c (nodeIndex y)).var + 1) a
                (Function.update a (getNode c (nodeIndex y)).var true)
                (update_agree a _ true) _ hsvhy (by omega),
              ← evalT_step_high c O vb hwf y htyf hy _ (by simp),
              ← heq _,
              ← evalT_indep c O vb hwf ((getNode c (nodeIndex y)).var + 1) a
                (Function.update a (getNode c (nodeIndex y)).var true)
                (update_agree a _ true) x hx (by omega)]
          rw [e1, e2]
        exact absurd
          (ih _ _ hsvly hsvhy (max_le_iff.mpr ⟨by omega, by omega⟩) hkey)
          (hwf.u2 (nodeIndex y) hyidx hylive)

/-- Canonicity: two held nodes of a well-formed cache with the same
total evaluation under every assignment have the same id. -/
theorem canonical (c : NodeCache) (O : List NodeId) (vb : Nat)
    (hwf : WFO c O vb) (x y : NodeId) (hx : strongValid c x = true)
    (hy : strongValid c y = true)
    (heq : ∀ a, evalT c vb x a = evalT c vb y a) : x = y :=
  canonical_aux c O vb hwf
    (max (vb + 1 - varOf c vb x) (vb + 1 - varOf c vb y)) x y hx hy
    (le_refl _) heq

/-- Two caches with the same arena extent, liveness and record shapes
(only refcounts may differ). -/
def ShapeEq (c c' : NodeCache) : Prop :=
  c'.arena.length = c.arena.length ∧
  (∀ j, isLive c' j = isLive c j) ∧
  (∀ j, (getNode c' j).var = (getNode c j).var ∧
    (getNode c' j).low = (getNode c j).low ∧
    (getNode c' j).high = (getNode c j).high)

theorem shapeEq_childOk (c c' : NodeCache) (h : ShapeEq c c') (v : Nat)
    (ch : NodeId) : childOk c' v ch = childOk c v ch := by
  unfold childOk
  rw [h.2.1, (h.2.2 (nodeIndex ch)).1]

theorem shapeEq_validId (c c' : NodeCache) (h : ShapeEq c c') (id : NodeId) :
    validId c' id = validId c id := by
  unfold validId
  rw [h.2.1]

theorem shapeEq_parentOcc (c c' : NodeCache) (h : ShapeEq c c') (i : Nat) :
    parentOcc c' i = parentOcc c i :=
  parentOcc_congr c c' h.1
    (fun j _ => ⟨h.2.1 j, fun _ => ⟨(h.2.2 j).2.1, (h.2.2 j).2.2⟩⟩) i

theorem shapeEq_U1 (c c' : NodeCache) (h : ShapeEq c c') (h1 : U1 c) :
    U1 c' :=
  U1_transfer c c' h.1 (fun j => h.2.2 j) (fun j hj => by rw [← h.2.1 j]; exact hj) h1

theorem shapeEq_U2 (c c' : NodeCache) (h : ShapeEq c c') (h2 : U2 c) :
    U2 c' :=
  U2_transfer c c' h.1 (fun j => h.2.2 j) (fun j hj => by rw [← h.2.1 j]; exact hj) h2

theorem strongValid_validId (c : NodeCache) (id : NodeId)
    (h : strongValid c id = true) : validId c id = true := by
  unfold strongValid at h
  unfold validId
  by_cases ht : isTerminal id
  · simp [ht]
  · have htf : isTerminal id = false := by simpa using ht
    simp [htf] at h ⊢
    exact h.1

theorem decrefT_terminal (c : NodeCache) (id : NodeId)
    (ht : isTerminal id = true) : ipset_node_decrefT c id = c := by
  unfold ipset_node_decrefT
  rw [ipset_node_decref, if_pos ht]
  rfl

/-- A decref of a nonterminal holding at least two references is a plain
decrement: no cascade, no free-list change. -/
theorem decrefT_decrement (c : NodeCache) (id : NodeId)
    (htf : isTerminal id = false)
    (hrc : 2 ≤ (getNode c (nodeIndex id)).refcount) :
    ipset_node_decrefT c id = setNode c (nodeIndex id)
      { getNode c (nodeIndex id) with
        refcount := (getNode c (nodeIndex id)).refcount - 1 } := by
  unfold ipset_node_decrefT
  rw [ipset_node_decref, if_neg (by simp [htf])]
  simp only
  rw [if_neg (show ¬((getNode c (nodeIndex id)).refcount == 1) = true by
    simp only [beq_iff_eq]
    omega)]
  rfl

theorem count_swap (x y z : NodeId) (O : List NodeId) :
    (y :: x :: O).count z = (x :: y :: O).count z := by
  simp [List.count_cons]
  split_ifs <;> omega

theorem WFO_swap (c : NodeCache) (x y : NodeId) (O : List NodeId) (vb : Nat)
    (h : WFO c (x :: y :: O) vb) : WFO c (y :: x :: O) vb := by
  refine ⟨h.flwf, h.u1, h.u2, h.nz, h.graph, ?_, ?_⟩
  · intro id hid
    apply h.owned
    simp only [List.mem_cons] at hid ⊢
    tauto
  · intro i hi
    rw [count_swap x y (nonterminalId i) O]
    exact h.acc i hi

/-- Dropping a held reference only relaxes the invariant. -/
theorem WFO_drop (c : NodeCache) (x : NodeId) (O : List NodeId) (vb : Nat)
    (h : WFO c (x :: O) vb) : WFO c O vb := by
  refine ⟨h.flwf, h.u1, h.u2, h.nz, h.graph, ?_, ?_⟩
  · intro id hid
    exact h.owned id (List.mem_cons_of_mem x hid)
  · intro i hi
    have := h.acc i hi
    have hc : O.count (nonterminalId i) ≤ (x :: O).count (nonterminalId i) := by
      simp [List.count_cons]
    omega

/-- `ipset_node_incref` takes a held reference: the cache keeps the
invariant with the new reference recorded. -/
theorem incref_wfo (c : NodeCache) (O : List NodeId) (vb : Nat)
    (hwf : WFO c O vb) (id : NodeId) (hsv : strongValid c id = true) :
    WFO (ipset_node_incref c id) (id :: O) vb := by
  by_cases ht : isTerminal id
  · have hc : ipset_node_incref c id = c := by
      unfold ipset_node_incref
      rw [if_pos ht]
    rw [hc]
    refine ⟨hwf.flwf, hwf.u1, hwf.u2, hwf.nz, hwf.graph, ?_, ?_⟩
    · intro w hw
      rcases List.mem_cons.mp hw with h | h
      · rw [h]
        exact strongValid_validId c id hsv
      · exact hwf.owned w h
    · intro i hi
      have hcnt : (id :: O).count (nonterminalId i) = O.count (nonterminalId i) :=
        List.count_cons_of_ne (fun he => nonterminalId_ne_terminalId i
          (terminalValue id) (by rw [he]; exact eq_terminalId_of_isTerminal ht)) O
      rw [hcnt]
      exact hwf.acc i hi
  · have htf : isTerminal id = false := by simpa using ht
    have hlive : isLive c (nodeIndex id) = true := by
      unfold strongValid at hsv
      simp [htf] at hsv
      exact hsv.1
    have hidx : nodeIndex id < c.arena.length := ((isLive_iff c _).mp hlive).1
    have hid_eq : id = nonterminalId (nodeIndex id) :=
      eq_nonterminalId_of_not_isTerminal htf
    have hc : ipset_node_incref c id = setNode c (nodeIndex id)
        { getNode c (nodeIndex id) with
          refcount := (getNode c (nodeIndex id)).refcount + 1 } := by
      unfold ipset_node_incref
      rw [if_neg ht]
    have hsh : ShapeEq c (ipset_node_incref c id) := by
      rw [hc]
      refine ⟨by simp, fun j => by simp, fun j => ?_⟩
      by_cases hj : j = nodeIndex id
      · subst hj
        rw [getNode_setNode_self c (nodeIndex id) _ hidx]
        exact ⟨rfl, rfl, rfl⟩
      · rw [getNode_setNode_ne c _ _ j hj]
        exact ⟨rfl, rfl, rfl⟩
    have hrc_self : (getNode (ipset_node_incref c id) (nodeIndex id)).refcount =
        (getNode c (nodeIndex id)).refcount + 1 := by
      rw [hc, getNode_setNode_self c _ _ hidx]
    have hrc_ne : ∀ j, j ≠ nodeIndex id →
        (getNode (ipset_node_incref c id) j).refcount =
        (getNode c j).refcount := by
      intro j hj
      rw [hc, getNode_setNode_ne c _ _ j hj]
    refine ⟨?_, shapeEq_U1 c _ hsh hwf.u1, shapeEq_U2 c _ hsh hwf.u2, ?_, ?_, ?_, ?_⟩
    · exact incref_flwf c id (strongValid_validId c id hsv) hwf.flwf
    · intro i hi
      rw [hsh.2.1 i] at hi
      by_cases hj : i = nodeIndex id
      · subst hj
        rw [hrc_self]
        omega
      · rw [hrc_ne i hj]
        exact hwf.nz i hi
    · intro i hi
      rw [hsh.2.1 i] at hi
      obtain ⟨h1, h2, h3⟩ := hwf.graph i hi
      obtain ⟨g1, g2, g3⟩ := hsh.2.2 i
      rw [g1, g2, g3, shapeEq_childOk c _ hsh, shapeEq_childOk c _ hsh]
      exact ⟨h1, h2, h3⟩
    · intro w hw
      rw [shapeEq_validId c _ hsh]
      rcases List.mem_cons.mp hw with h | h
      · rw [h]
        exact strongValid_validId c id hsv
      · exact hwf.owned w h
    · intro i hi
      rw [hsh.2.1 i] at hi
      rw [shapeEq_parentOcc c _ hsh]
      by_cases hj : i = nodeIndex id
      · subst hj
        rw [hrc_self]
        have hcnt : (id :: O).count (nonterminalId (nodeIndex id)) =
            O.count (nonterminalId (nodeIndex id)) + 1 := by
          rw [← hid_eq]
          exact List.count_cons_self id O
        rw [hcnt]
        have := hwf.acc (nodeIndex id) hi
        omega
      · have hcnt : (id :: O).count (nonterminalId i) =
            O.count (nonterminalId i) := by
          refine List.count_cons_of_ne (fun he => ?_) O
          rw [hid_eq] at he
          exact hj (nonterminalId_injective he.symm).symm
        rw [hcnt, hrc_ne i hj]
        exact hwf.acc i hi

theorem owned_strongValid (c : NodeCache) (O : List NodeId) (vb : Nat)
    (hwf : WFO c O vb) (id : NodeId) (hid : id ∈ O) :
    strongValid c id = true := by
  have hval := hwf.owned id hid
  unfold validId at hval
  unfold strongValid
  by_cases ht : isTerminal id
  · simp [ht]
  · have htf : isTerminal id = false := by simpa using ht
    simp [htf] at hval ⊢
    refine ⟨hval, ?_⟩
    have hacc := hwf.acc (nodeIndex id) hval
    have hcnt : 0 < O.count (nonterminalId (nodeIndex id)) := by
      rw [← eq_nonterminalId_of_not_isTerminal htf]
      exact List.count_pos_iff_mem.mpr hid
    omega

theorem childOk_varOf (c : NodeCache) (vb v : Nat) (ch : NodeId)
    (hv : v < vb) (h : childOk c v ch = true) : v < varOf c vb ch := by
  unfold childOk at h
  unfold varOf
  by_cases ht : isTerminal ch
  · rw [if_pos ht]; exact hv
  · have htf : isTerminal ch = false := by simpa using ht
    rw [if_neg ht]
    rw [htf] at h
    simp only [Bool.false_or, Bool.and_eq_true, decide_eq_true_eq] at h
    exact h.2

theorem shapeEq_refl (c : NodeCache) : ShapeEq c c :=
  ⟨rfl, fun _ => rfl, fun _ => ⟨rfl, rfl, rfl⟩⟩

theorem shapeEq_trans (c₁ c₂ c₃ : NodeCache) (h1 : ShapeEq c₁ c₂)
    (h2 : ShapeEq c₂ c₃) : ShapeEq c₁ c₃ := by
  refine ⟨h2.1.trans h1.1, fun j => (h2.2.1 j).trans (h1.2.1 j), fun j => ?_⟩
  obtain ⟨a1, b1, d1⟩ := h1.2.2 j
  obtain ⟨a2, b2, d2⟩ := h2.2.2 j
  exact ⟨a2.trans a1, b2.trans b1, d2.trans d1⟩

theorem shapeEq_pres (c c' : NodeCache) (h : ShapeEq c c') :
    ∀ k, isLive c k = true → isLive c' k = true ∧
      (getNode c' k).var = (getNode c k).var ∧
      (getNode c' k).low = (getNode c k).low ∧
      (getNode c' k).high = (getNode c k).high :=
  fun k hk => ⟨by rw [h.2.1 k]; exact hk, h.2.2 k⟩

theorem shapeEq_varOf (c c' : NodeCache) (h : ShapeEq c c') (vb : Nat)
    (id : NodeId) : varOf c' vb id = varOf c vb id := by
  unfold varOf
  rw [(h.2.2 (nodeIndex id)).1]

/-- Releasing one held reference whose record (if any) carries a second
reference is a plain decrement: the cache keeps its shape and the
invariant holds with the reference dropped. -/
theorem decrefT_consume (c : NodeCache) (x : NodeId) (O : List NodeId)
    (vb : Nat) (hwf : WFO c (x :: O) vb)
    (hextra : isTerminal x = false → 2 ≤ (getNode c (nodeIndex x)).refcount) :
    WFO (ipset_node_decrefT c x) O vb ∧ ShapeEq c (ipset_node_decrefT c x) := by
  by_cases ht : isTerminal x
  · rw [decrefT_terminal c x ht]
    exact ⟨WFO_drop c x O vb hwf, shapeEq_refl c⟩
  · have htf : isTerminal x = false := by simpa using ht
    have hrc := hextra htf
    have hx_eq : x = nonterminalId (nodeIndex x) :=
      eq_nonterminalId_of_not_isTerminal htf
    have hlive : isLive c (nodeIndex x) = true := by
      have := owned_strongValid c (x :: O) vb hwf x (List.mem_cons_self x O)
      unfold strongValid at this
      simp [htf] at this
      exact this.1
    have hidx : nodeIndex x < c.arena.length := ((isLive_iff c _).mp hlive).1
    rw [decrefT_decrement c x htf hrc]
    set c' := setNode c (nodeIndex x)
      { getNode c (nodeIndex x) with
        refcount := (getNode c (nodeIndex x)).refcount - 1 } with hc'
    have hsh : ShapeEq c c' := by
      rw [hc']
      refine ⟨by simp, fun j => by simp, fun j => ?_⟩
      by_cases hj : j = nodeIndex x
      · subst hj
        rw [getNode_setNode_self c (nodeIndex x) _ hidx]
        exact ⟨rfl, rfl, rfl⟩
      · rw [getNode_setNode_ne c _ _ j hj]
        exact ⟨rfl, rfl, rfl⟩
    have hrc_self : (getNode c' (nodeIndex x)).refcount =
        (getNode c (nodeIndex x)).refcount - 1 := by
      rw [hc', getNode_setNode_self c _ _ hidx]
    have hrc_ne : ∀ j, j ≠ nodeIndex x →
        (getNode c' j).refcount = (getNode c j).refcount := by
      intro j hj
      rw [hc', getNode_setNode_ne c _ _ j hj]
    refine ⟨⟨?_, shapeEq_U1 c c' hsh hwf.u1, shapeEq_U2 c c' hsh hwf.u2,
      ?_, ?_, ?_, ?_⟩, hsh⟩
    · constructor
      · intro j hj
        rw [hc', setNode_freeList] at hj
        have hj' := hwf.flwf.1 j hj
        have hji : j ≠ nodeIndex x := by
          intro e
          rw [e] at hj'
          omega
        refine ⟨by rw [hsh.1]; exact hj'.1, ?_⟩
        rw [hrc_ne j hji]
        exact hj'.2
      · rw [hc', setNode_freeList]
        exact hwf.flwf.2
    · intro i hi
      rw [hsh.2.1 i] at hi
      by_cases hj : i = nodeIndex x
      · subst hj
        rw [hrc_self]
        omega
      · rw [hrc_ne i hj]
        exact hwf.nz i hi
    · intro i hi
      rw [hsh.2.1 i] at hi
      obtain ⟨h1, h2, h3⟩ := hwf.graph i hi
      obtain ⟨g1, g2, g3⟩ := hsh.2.2 i
      rw [g1, g2, g3, shapeEq_childOk c _ hsh, shapeEq_childOk c _ hsh]
      exact ⟨h1, h2, h3⟩
    · intro w hw
      rw [shapeEq_validId c _ hsh]
      exact hwf.owned w (List.mem_cons_of_mem x hw)
    · intro i hi
      rw [hsh.2.1 i] at hi
      rw [shapeEq_parentOcc c _ hsh]
      by_cases hj : i = nodeIndex x
      · subst hj
        rw [hrc_self]
        have hcnt : (x :: O).count (nonterminalId (nodeIndex x)) =
            O.count (nonterminalId (nodeIndex x)) + 1 := by
          rw [← hx_eq]
          exact List.count_cons_self x O
        have := hwf.acc (nodeIndex x) hi
        omega
      · have hcnt : (x :: O).count (nonterminalId i) =
            O.count (nonterminalId i) := by
          refine List.count_cons_of_ne (fun he => ?_) O
          rw [hx_eq] at he
          exact hj (nonterminalId_injective he.symm).symm
        rw [hrc_ne i hj]
        have := hwf.acc i hi
        omega

theorem shapeEq_incref (c : NodeCache) (id : NodeId) :
    ShapeEq c (ipset_node_incref c id) := by
  unfold ipset_node_incref
  by_cases ht : isTerminal id
  · rw [if_pos ht]; exact shapeEq_refl c
  · rw [if_neg ht]
    simp only
    by_cases hlt : nodeIndex id < c.arena.length
    · refine ⟨by simp, fun j => by simp, fun j => ?_⟩
      by_cases hj : j = nodeIndex id
      · subst hj
        rw [getNode_setNode_self c (nodeIndex id) _ hlt]
        exact ⟨rfl, rfl, rfl⟩
      · rw [getNode_setNode_ne c _ _ j hj]
        exact ⟨rfl, rfl, rfl⟩
    · rw [setNode_no_op c _ _ hlt]
      exact shapeEq_refl c

/-- The collapse branch: the two held references to the common child are
merged by releasing one; no record is freed. -/
theorem nonterminal_wfo_collapse (c : NodeCache) (O : List NodeId) (vb : Nat)
    (x : NodeId) (hwf : WFO c (x :: x :: O) vb) :
    WFO (ipset_node_decrefT c x) (x :: O) vb ∧
    ShapeEq c (ipset_node_decrefT c x) := by
  refine decrefT_consume c x (x :: O) vb hwf ?_
  intro htf
  have hlive : isLive c (nodeIndex x) = true := by
    have := owned_strongValid c (x :: x :: O) vb hwf x (List.mem_cons_self x _)
    unfold strongValid at this
    simp [htf] at this
    exact this.1
  have hacc := hwf.acc (nodeIndex x) hlive
  have h1 : (x :: x :: O).count x = O.count x + 1 + 1 := by
    rw [List.count_cons_self, List.count_cons_self]
  rw [← eq_nonterminalId_of_not_isTerminal htf] at hacc
  omega

/-- The hit branch: the found record's parent edges guarantee that both
released references are plain decrements. -/
theorem nonterminal_wfo_hit (c : NodeCache) (O : List NodeId) (vb v : Nat)
    (low high : NodeId) (j : Nat)
    (hwf : WFO c (low :: high :: O) vb)
    (hl : lookupUnique c v low high = some j) :
    WFO (ipset_node_decrefT (ipset_node_decrefT
        (ipset_node_incref c (nonterminalId j)) low) high)
      (nonterminalId j :: O) vb ∧
    ShapeEq c (ipset_node_decrefT (ipset_node_decrefT
        (ipset_node_incref c (nonterminalId j)) low) high) := by
  obtain ⟨hjlen, hjlive, hjvar, hjlow, hjhigh⟩ := lookupUnique_some c v low high j hl
  have hsvj : strongValid c (nonterminalId j) = true := by
    unfold strongValid
    simp [nodeIndex_nonterminalId]
    exact ⟨hjlive, hwf.nz j hjlive⟩
  have hwf1 : WFO (ipset_node_incref c (nonterminalId j))
      (nonterminalId j :: low :: high :: O) vb :=
    incref_wfo c (low :: high :: O) vb hwf (nonterminalId j) hsvj
  have hsh1 : ShapeEq c (ipset_node_incref c (nonterminalId j)) :=
    shapeEq_incref c (nonterminalId j)
  have hswap1 : WFO (ipset_node_incref c (nonterminalId j))
      (low :: nonterminalId j :: high :: O) vb :=
    WFO_swap _ _ _ _ _ hwf1
  have hextra1 : isTerminal low = false →
      2 ≤ (getNode (ipset_node_incref c (nonterminalId j))
        (nodeIndex low)).refcount := by
    intro htf
    have hlowlive : isLive c (nodeIndex low) = true := by
      have := owned_strongValid c (low :: high :: O) vb hwf low
        (List.mem_cons_self low _)
      unfold strongValid at this
      simp [htf] at this
      exact this.1
    have hlive1 : isLive (ipset_node_incref c (nonterminalId j))
        (nodeIndex low) = true := by
      rw [hsh1.2.1]; exact hlowlive
    have hjlive1 : isLive (ipset_node_incref c (nonterminalId j)) j = true := by
      rw [hsh1.2.1]; exact hjlive
    have hpo : 1 ≤ parentOcc (ipset_node_incref c (nonterminalId j))
        (nodeIndex low) := by
      apply parentOcc_pos _ j _ (by rw [hsh1.1]; exact hjlen) hjlive1
      left
      rw [(hsh1.2.2 j).2.1, hjlow]
      exact eq_nonterminalId_of_not_isTerminal htf
    have hcnt : 0 < (low :: nonterminalId j :: high :: O).count
        (nonterminalId (nodeIndex low)) := by
      rw [← eq_nonterminalId_of_not_isTerminal htf]
      exact List.count_pos_iff_mem.mpr (List.mem_cons_self low _)
    have hacc := hswap1.acc (nodeIndex low) hlive1
    omega
  obtain ⟨hwf2, hsh2⟩ := decrefT_consume _ low (nonterminalId j :: high :: O)
    vb hswap1 hextra1
  have hsh12 : ShapeEq c (ipset_node_decrefT
      (ipset_node_incref c (nonterminalId j)) low) :=
    shapeEq_trans _ _ _ hsh1 hsh2
  have hswap2 : WFO (ipset_node_decrefT
      (ipset_node_incref c (nonterminalId j)) low)
      (high :: nonterminalId j :: O) vb :=
    WFO_swap _ _ _ _ _ hwf2
  have hextra2 : isTerminal high = false →
      2 ≤ (getNode (ipset_node_decrefT
        (ipset_node_incref c (nonterminalId j)) low)
        (nodeIndex high)).refcount := by
    intro htf
    have hhighlive : isLive c (nodeIndex high) = true := by
      have := owned_strongValid c (low :: high :: O) vb hwf high
        (List.mem_cons_of_mem low (List.mem_cons_self high _))
      unfold strongValid at this
      simp [htf] at this
      exact this.1
    have hlive2 : isLive (ipset_node_decrefT
        (ipset_node_incref c (nonterminalId j)) low) (nodeIndex high) = true := by
      rw [hsh12.2.1]; exact hhighlive
    have hjlive2 : isLive (ipset_node_decrefT
        (ipset_node_incref c (nonterminalId j)) low) j = true := by
      rw [hsh12.2.1]; exact hjlive
    have hpo : 1 ≤ parentOcc (ipset_node_decrefT
        (ipset_node_incref c (nonterminalId j)) low) (nodeIndex high) := by
      apply parentOcc_pos _ j _ (by rw [hsh12.1]; exact hjlen) hjlive2
      right
      rw [(hsh12.2.2 j).2.2, hjhigh]
      exact eq_nonterminalId_of_not_isTerminal htf
    have hcnt : 0 < (high :: nonterminalId j :: O).count
        (nonterminalId (nodeIndex high)) := by
      rw [← eq_nonterminalId_of_not_isTerminal htf]
      exact List.count_pos_iff_mem.mpr (List.mem_cons_self high _)
    have hacc := hswap2.acc (nodeIndex high) hlive2
    omega
  obtain ⟨hwf3, hsh3⟩ := decrefT_consume _ high (nonterminalId j :: O)
    vb hswap2 hextra2
  exact ⟨hwf3, shapeEq_trans _ _ _ hsh12 hsh3⟩

theorem ite_nat_eq_comm (a b : NodeId) :
    (if a = b then (1 : Nat) else 0) = (if b = a then 1 else 0) := by
  by_cases h : a = b
  · rw [if_pos h, if_pos h.symm]
  · rw [if_neg h, if_neg (fun e => h e.symm)]

/-- The miss branch popping the free list: installing a fresh record at
the freed index turns the two held child references into parent edges. -/
theorem nonterminal_wfo_miss_pop (c c' : NodeCache) (O : List NodeId)
    (vb v : Nat) (low high : NodeId) (i : Nat) (rest : List Nat)
    (hceq : c' = { c with
      arena := c.arena.set i ⟨v, low, high, 1⟩, freeList := rest })
    (hwf : WFO c (low :: high :: O) vb)
    (hv : v < vb) (hcl : childOk c v low = true) (hch : childOk c v high = true)
    (hmiss : lookupUnique c v low high = none) (hlh : low ≠ high)
    (hfl : c.freeList = i :: rest) :
    WFO c' (nonterminalId i :: O) vb ∧
    (∀ k, isLive c k = true → isLive c' k = true ∧
      (getNode c' k).var = (getNode c k).var ∧
      (getNode c' k).low = (getNode c k).low ∧
      (getNode c' k).high = (getNode c k).high) ∧
    isLive c' i = true ∧ getNode c' i = ⟨v, low, high, 1⟩ := by
  have hi_lt : i < c.arena.length :=
    (hwf.flwf.1 i (by rw [hfl]; exact List.mem_cons_self _ _)).1
  have hnodup : (i :: rest).Nodup := by rw [← hfl]; exact hwf.flwf.2
  have hinr : i ∉ rest := (List.nodup_cons.mp hnodup).1
  have hnl : ¬isLive c i = true := by
    rw [isLive_iff]
    rintro ⟨_, hmem⟩
    exact hmem (by rw [hfl]; exact List.mem_cons_self _ _)
  have hlen : c'.arena.length = c.arena.length := by rw [hceq]; simp
  have hfl' : c'.freeList = rest := by rw [hceq]
  have hget_self : getNode c' i = ⟨v, low, high, 1⟩ := by
    rw [hceq]
    exact getNode_setNode_self c i _ hi_lt
  have hget_ne : ∀ k, k ≠ i → getNode c' k = getNode c k := by
    intro k hk
    rw [hceq]
    exact getNode_setNode_ne c i _ k hk
  have hlive' : ∀ k, isLive c' k = true ↔ k < c.arena.length ∧ k ∉ rest := by
    intro k
    rw [isLive_iff, hlen, hfl']
  have hlivec : ∀ k, isLive c k = true ↔
      k < c.arena.length ∧ k ∉ i :: rest := by
    intro k
    rw [isLive_iff, hfl]
  have hpres : ∀ k, isLive c k = true → isLive c' k = true ∧
      (getNode c' k).var = (getNode c k).var ∧
      (getNode c' k).low = (getNode c k).low ∧
      (getNode c' k).high = (getNode c k).high := by
    intro k hk
    obtain ⟨hk1, hk2⟩ := (hlivec k).mp hk
    have hki : k ≠ i := fun e => hk2 (by rw [e]; exact List.mem_cons_self _ _)
    refine ⟨(hlive' k).mpr ⟨hk1, fun hm => hk2 (List.mem_cons_of_mem _ hm)⟩, ?_⟩
    rw [hget_ne k hki]
    exact ⟨rfl, rfl, rfl⟩
  have hlive_i : isLive c' i = true := (hlive' i).mpr ⟨hi_lt, hinr⟩
  have hlive_back : ∀ k, isLive c' k = true → k = i ∨ isLive c k = true := by
    intro k hk
    by_cases hki : k = i
    · exact Or.inl hki
    · right
      obtain ⟨h1, h2⟩ := (hlive' k).mp hk
      exact (hlivec k).mpr ⟨h1, fun hm => (List.mem_cons.mp hm).elim hki h2⟩
  have hliveeq : ∀ j, j ≠ i → isLive c' j = isLive c j := by
    intro j hj
    by_cases h : isLive c j = true
    · rw [h, (hpres j h).1]
    · have h' : ¬isLive c' j = true := fun hc'j =>
        h ((hlive_back j hc'j).elim (fun e => absurd e hj) id)
      rw [Bool.not_eq_true] at h h'
      rw [h, h']
  have hno_ref : ∀ k, isLive c k = true →
      (getNode c k).low ≠ nonterminalId i ∧
      (getNode c k).high ≠ nonterminalId i := by
    intro k hk
    obtain ⟨_, hclk, hchk⟩ := hwf.graph k hk
    constructor
    · intro he
      unfold childOk at hclk
      rw [he] at hclk
      simp [nodeIndex_nonterminalId] at hclk
      exact hnl hclk.1
    · intro he
      unfold childOk at hchk
      rw [he] at hchk
      simp [nodeIndex_nonterminalId] at hchk
      exact hnl hchk.1
  have hlow_ne : low ≠ nonterminalId i := by
    intro he
    unfold childOk at hcl
    rw [he] at hcl
    simp [nodeIndex_nonterminalId] at hcl
    exact hnl hcl.1
  have hhigh_ne : high ≠ nonterminalId i := by
    intro he
    unfold childOk at hch
    rw [he] at hch
    simp [nodeIndex_nonterminalId] at hch
    exact hnl hch.1
  have hpo : ∀ k, parentOcc c' k = parentOcc c k +
      ((if low = nonterminalId k then 1 else 0) +
       (if high = nonterminalId k then 1 else 0)) := by
    intro k
    unfold parentOcc
    rw [hlen]
    have h1 := Finset.sum_erase_add (Finset.range c.arena.length)
      (fun j => if isLive c' j = true then
        (if (getNode c' j).low = nonterminalId k then 1 else 0) +
        (if (getNode c' j).high = nonterminalId k then 1 else 0) else 0)
      (Finset.mem_range.mpr hi_lt)
    have h2 := Finset.sum_erase_add (Finset.range c.arena.length)
      (fun j => if isLive c j = true then
        (if (getNode c j).low = nonterminalId k then 1 else 0) +
        (if (getNode c j).high = nonterminalId k then 1 else 0) else 0)
      (Finset.mem_range.mpr hi_lt)
    simp only at h1 h2
    have hcong : ∑ j ∈ (Finset.range c.arena.length).erase i,
        (if isLive c' j = true then
          (if (getNode c' j).low = nonterminalId k then 1 else 0) +
          (if (getNode c' j).high = nonterminalId k then 1 else 0) else 0) =
        ∑ j ∈ (Finset.range c.arena.length).erase i,
        (if isLive c j = true then
          (if (getNode c j).low = nonterminalId k then 1 else 0) +
          (if (getNode c j).high = nonterminalId k then 1 else 0) else 0) := by
      refine Finset.sum_congr rfl ?_
      intro j hj
      have hji : j ≠ i := (Finset.mem_erase.mp hj).1
      rw [hliveeq j hji, hget_ne j hji]
    have hfi : (if isLive c i = true then
        (if (getNode c i).low = nonterminalId k then 1 else 0) +
        (if (getNode c i).high = nonterminalId k then 1 else 0) else 0) = 0 := by
      rw [if_neg hnl]
    have hfi' : (if isLive c' i = true then
        (if (getNode c' i).low = nonterminalId k then 1 else 0) +
        (if (getNode c' i).high = nonterminalId k then 1 else 0) else 0) =
        (if low = nonterminalId k then 1 else 0) +
        (if high = nonterminalId k then 1 else 0) := by
      rw [if_pos hlive_i, hget_self]
    omega
  have hinv := fresh_record_inv c v low high i rest hfl
    (lookupUnique_none c v low high hmiss) hlh ⟨hwf.u1, hwf.u2, hwf.flwf⟩
  rw [← hceq] at hinv
  obtain ⟨hu1, hu2, hflwf⟩ := hinv
  have hchildOk' : ∀ w ch, childOk c w ch = true → childOk c' w ch = true := by
    intro w ch h
    unfold childOk at h ⊢
    by_cases ht : isTerminal ch
    · simp [ht]
    · have htf : isTerminal ch = false := by simpa using ht
      simp only [htf, Bool.false_or, Bool.and_eq_true, decide_eq_true_eq] at h ⊢
      obtain ⟨hlch, hvch⟩ := h
      have hne : nodeIndex ch ≠ i := fun e => hnl (e ▸ hlch)
      rw [hget_ne _ hne]
      exact ⟨(hpres _ hlch).1, hvch⟩
  have hvalid' : ∀ w, validId c w = true → validId c' w = true := by
    intro w h
    unfold validId at h ⊢
    by_cases ht : isTerminal w
    · simp [ht]
    · have htf : isTerminal w = false := by simpa using ht
      simp only [htf, Bool.false_or] at h ⊢
      exact (hpres _ h).1
  have hcnt0 : O.count (nonterminalId i) = 0 := by
    rw [List.count_eq_zero]
    intro hmem
    have := hwf.owned (nonterminalId i)
      (List.mem_cons_of_mem low (List.mem_cons_of_mem high hmem))
    unfold validId at this
    simp [nodeIndex_nonterminalId] at this
    exact hnl this
  have hpoc : parentOcc c i = 0 := by
    unfold parentOcc
    refine Finset.sum_eq_zero ?_
    intro j hj
    by_cases hlj : isLive c j = true
    · rw [if_pos hlj]
      obtain ⟨hn1, hn2⟩ := hno_ref j hlj
      rw [if_neg hn1, if_neg hn2]
      rfl
    · rw [if_neg hlj]

  refine ⟨⟨hflwf, hu1, hu2, ?_, ?_, ?_, ?_⟩, hpres, hlive_i, hget_self⟩
  · intro k hk
    rcases hlive_back k hk with hki | hkc
    · subst hki
      rw [hget_self]
    · by_cases hki : k = i
      · subst hki
        rw [hget_self]
      · rw [hget_ne k hki]
        exact hwf.nz k hkc
  · intro k hk
    rcases hlive_back k hk with hki | hkc
    · subst hki
      rw [hget_self]
      exact ⟨hv, hchildOk' v low hcl, hchildOk' v high hch⟩
    · by_cases hki : k = i
      · subst hki
        rw [hget_self]
        exact ⟨hv, hchildOk' v low hcl, hchildOk' v high hch⟩
      · rw [hget_ne k hki]
        obtain ⟨g1, g2, g3⟩ := hwf.graph k hkc
        exact ⟨g1, hchildOk' _ _ g2, hchildOk' _ _ g3⟩
  · intro w hw
    rcases List.mem_cons.mp hw with h | h
    · rw [h]
      unfold validId
      simp [nodeIndex_nonterminalId]
      exact hlive_i
    · exact hvalid' w (hwf.owned w (List.mem_cons_of_mem low
        (List.mem_cons_of_mem high h)))
  · intro k hk
    rcases hlive_back k hk with hki | hkc
    · subst hki
      rw [hget_self, hpo k, hpoc]
      have hc1 : (nonterminalId k :: O).count (nonterminalId k) =
          O.count (nonterminalId k) + 1 := List.count_cons_self _ _
      rw [hc1, hcnt0, if_neg (fun h => hlow_ne h), if_neg (fun h => hhigh_ne h)]
    · by_cases hki : k = i
      · subst hki
        rw [hget_self, hpo k, hpoc]
        have hc1 : (nonterminalId k :: O).count (nonterminalId k) =
            O.count (nonterminalId k) + 1 := List.count_cons_self _ _
        rw [hc1, hcnt0, if_neg (fun h => hlow_ne h), if_neg (fun h => hhigh_ne h)]
      · rw [hget_ne k hki, hpo k]
        have hc1 : (nonterminalId i :: O).count (nonterminalId k) =
            O.count (nonterminalId k) := by
          refine List.count_cons_of_ne (fun he => ?_) O
          exact hki (nonterminalId_injective he)
        rw [hc1]
        have hacc := hwf.acc k hkc
        have hsplit : (low :: high :: O).count (nonterminalId k) =
            O.count (nonterminalId k) +
            ((if low = nonterminalId k then 1 else 0) +
             (if high = nonterminalId k then 1 else 0)) := by
          rw [List.count_cons, List.count_cons]
          simp only [beq_iff_eq]
          omega
        omega

/-- The miss branch with an empty free list: appending a fresh record,
again turning the held child references into parent edges. -/
theorem nonterminal_wfo_miss_append (c c' : NodeCache) (O : List NodeId)
    (vb v : Nat) (low high : NodeId)
    (hceq : c' = { c with arena := c.arena ++ [⟨v, low, high, 1⟩] })
    (hwf : WFO c (low :: high :: O) vb)
    (hv : v < vb) (hcl : childOk c v low = true) (hch : childOk c v high = true)
    (hmiss : lookupUnique c v low high = none) (hlh : low ≠ high)
    (hfl : c.freeList = []) :
    WFO c' (nonterminalId c.arena.length :: O) vb ∧
    (∀ k, isLive c k = true → isLive c' k = true ∧
      (getNode c' k).var = (getNode c k).var ∧
      (getNode c' k).low = (getNode c k).low ∧
      (getNode c' k).high = (getNode c k).high) ∧
    isLive c' c.arena.length = true ∧
    getNode c' c.arena.length = ⟨v, low, high, 1⟩ := by
  have hnl : ¬isLive c c.arena.length = true := by
    rw [isLive_iff]
    rintro ⟨h, _⟩
    omega
  have hlen : c'.arena.length = c.arena.length + 1 := by rw [hceq]; simp
  have hfl' : c'.freeList = [] := by rw [hceq]; exact hfl
  have hget_self : getNode c' c.arena.length = ⟨v, low, high, 1⟩ := by
    rw [hceq]
    show (c.arena ++ [(⟨v, low, high, 1⟩ : BddNode)]).getD c.arena.length
      (⟨0, 0, 0, 0⟩ : BddNode) = (⟨v, low, high, 1⟩ : BddNode)
    rw [List.getD, List.get?_concat_length]
    rfl
  have hget_ne : ∀ k, k ≠ c.arena.length → getNode c' k = getNode c k := by
    intro k hk
    rw [hceq]
    by_cases hlt : k < c.arena.length
    · show (c.arena ++ [(⟨v, low, high, 1⟩ : BddNode)]).getD k
        (⟨0, 0, 0, 0⟩ : BddNode) = c.arena.getD k (⟨0, 0, 0, 0⟩ : BddNode)
      rw [List.getD, List.getD, List.get?_append hlt]
    · have h1 : c.arena.get? k = none := by
        rw [List.get?_eq_none]
        omega
      have h2 : (c.arena ++ [(⟨v, low, high, 1⟩ : BddNode)]).get? k = none := by
        rw [List.get?_eq_none]
        simp
        omega
      show (c.arena ++ [(⟨v, low, high, 1⟩ : BddNode)]).getD k
        (⟨0, 0, 0, 0⟩ : BddNode) = c.arena.getD k (⟨0, 0, 0, 0⟩ : BddNode)
      rw [List.getD, List.getD, h1, h2]
  have hlive' : ∀ k, isLive c' k = true ↔ k < c.arena.length + 1 := by
    intro k
    rw [isLive_iff, hlen, hfl']
    simp
  have hlivec : ∀ k, isLive c k = true ↔ k < c.arena.length := by
    intro k
    rw [isLive_iff, hfl]
    simp
  have hpres : ∀ k, isLive c k = true → isLive c' k = true ∧
      (getNode c' k).var = (getNode c k).var ∧
      (getNode c' k).low = (getNode c k).low ∧
      (getNode c' k).high = (getNode c k).high := by
    intro k hk
    have hk1 := (hlivec k).mp hk
    have hki : k ≠ c.arena.length := by omega
    refine ⟨(hlive' k).mpr (by omega), ?_⟩
    rw [hget_ne k hki]
    exact ⟨rfl, rfl, rfl⟩
  have hlive_i : isLive c' c.arena.length = true := (hlive' _).mpr (by omega)
  have hlive_back : ∀ k, isLive c' k = true →
      k = c.arena.length ∨ isLive c k = true := by
    intro k hk
    have := (hlive' k).mp hk
    by_cases hki : k = c.arena.length
    · exact Or.inl hki
    · exact Or.inr ((hlivec k).mpr (by omega))
  have hliveeq : ∀ j, j ≠ c.arena.length → isLive c' j = isLive c j := by
    intro j hj
    by_cases h : isLive c j = true
    · rw [h, (hpres j h).1]
    · have h' : ¬isLive c' j = true := fun hc'j =>
        h ((hlive_back j hc'j).elim (fun e => absurd e hj) id)
      rw [Bool.not_eq_true] at h h'
      rw [h, h']
  have hno_ref : ∀ k, isLive c k = true →
      (getNode c k).low ≠ nonterminalId c.arena.length ∧
      (getNode c k).high ≠ nonterminalId c.arena.length := by
    intro k hk
    obtain ⟨_, hclk, hchk⟩ := hwf.graph k hk
    constructor
    · intro he
      unfold childOk at hclk
      rw [he] at hclk
      simp [nodeIndex_nonterminalId] at hclk
      exact hnl hclk.1
    · intro he
      unfold childOk at hchk
      rw [he] at hchk
      simp [nodeIndex_nonterminalId] at hchk
      exact hnl hchk.1
  have hlow_ne : low ≠ nonterminalId c.arena.length := by
    intro he
    unfold childOk at hcl
    rw [he] at hcl
    simp [nodeIndex_nonterminalId] at hcl
    exact hnl hcl.1
  have hhigh_ne : high ≠ nonterminalId c.arena.length := by
    intro he
    unfold childOk at hch
    rw [he] at hch
    simp [nodeIndex_nonterminalId] at hch
    exact hnl hch.1
  have hpo : ∀ k, parentOcc c' k = parentOcc c k +
      ((if low = nonterminalId k then 1 else 0) +
       (if high = nonterminalId k then 1 else 0)) := by
    intro k
    unfold parentOcc
    rw [hlen, Finset.sum_range_succ]
    have hcong : ∑ j ∈ Finset.range c.arena.length,
        (if isLive c' j = true then
          (if (getNode c' j).low = nonterminalId k then 1 else 0) +
          (if (getNode c' j).high = nonterminalId k then 1 else 0) else 0) =
        ∑ j ∈ Finset.range c.arena.length,
        (if isLive c j = true then
          (if (getNode c j).low = nonterminalId k then 1 else 0) +
          (if (getNode c j).high = nonterminalId k then 1 else 0) else 0) := by
      refine Finset.sum_congr rfl ?_
      intro j hj
      rw [Finset.mem_range] at hj
      have hji : j ≠ c.arena.length := by omega
      rw [hliveeq j hji, hget_ne j hji]
    have hfi' : (if isLive c' c.arena.length = true then
        (if (getNode c' c.arena.length).low = nonterminalId k then 1 else 0) +
        (if (getNode c' c.arena.length).high = nonterminalId k then 1 else 0)
        else 0) =
        (if low = nonterminalId k then 1 else 0) +
        (if high = nonterminalId k then 1 else 0) := by
      rw [if_pos hlive_i, hget_self]
    omega
  have hinv := append_record_inv c v low high hfl
    (lookupUnique_none c v low high hmiss) hlh ⟨hwf.u1, hwf.u2, hwf.flwf⟩
  rw [← hceq] at hinv
  obtain ⟨hu1, hu2, hflwf⟩ := hinv
  have hchildOk' : ∀ w ch, childOk c w ch = true → childOk c' w ch = true := by
    intro w ch h
    unfold childOk at h ⊢
    by_cases ht : isTerminal ch
    · simp [ht]
    · have htf : isTerminal ch = false := by simpa using ht
      simp only [htf, Bool.false_or, Bool.and_eq_true, decide_eq_true_eq] at h ⊢
      obtain ⟨hlch, hvch⟩ := h
      have hne : nodeIndex ch ≠ c.arena.length := fun e => hnl (e ▸ hlch)
      rw [hget_ne _ hne]
      exact ⟨(hpres _ hlch).1, hvch⟩
  have hvalid' : ∀ w, validId c w = true → validId c' w = true := by
    intro w h
    unfold validId at h ⊢
    by_cases ht : isTerminal w
    · simp [ht]
    · have htf : isTerminal w = false := by simpa using ht
      simp only [htf, Bool.false_or] at h ⊢
      exact (hpres _ h).1
  have hcnt0 : O.count (nonterminalId c.arena.length) = 0 := by
    rw [List.count_eq_zero]
    intro hmem
    have := hwf.owned (nonterminalId c.arena.length)
      (List.mem_cons_of_mem low (List.mem_cons_of_mem high hmem))
    unfold validId at this
    simp [nodeIndex_nonterminalId] at this
    exact hnl this
  have hpoc : parentOcc c c.arena.length = 0 := by
    unfold parentOcc
    refine Finset.sum_eq_zero ?_
    intro j hj
    by_cases hlj : isLive c j = true
    · rw [if_pos hlj]
      obtain ⟨hn1, hn2⟩ := hno_ref j hlj
      rw [if_neg hn1, if_neg hn2]
      rfl
    · rw [if_neg hlj]
  refine ⟨⟨hflwf, hu1, hu2, ?_, ?_, ?_, ?_⟩, hpres, hlive_i, hget_self⟩
  · intro k hk
    rcases hlive_back k hk with hki | hkc
    · subst hki
      rw [hget_self]
    · by_cases hki : k = c.arena.length
      · subst hki
        rw [hget_self]
      · rw [hget_ne k hki]
        exact hwf.nz k hkc
  · intro k hk
    rcases hlive_back k hk with hki | hkc
    · subst hki
      rw [hget_self]
      exact ⟨hv, hchildOk' v low hcl, hchildOk' v high hch⟩
    · by_cases hki : k = c.arena.length
      · subst hki
        rw [hget_self]
        exact ⟨hv, hchildOk' v low hcl, hchildOk' v high hch⟩
      · rw [hget_ne k hki]
        obtain ⟨g1, g2, g3⟩ := hwf.graph k hkc
        exact ⟨g1, hchildOk' _ _ g2, hchildOk' _ _ g3⟩
  · intro w hw
    rcases List.mem_cons.mp hw with h | h
    · rw [h]
      unfold validId
      simp [nodeIndex_nonterminalId]
      exact hlive_i
    · exact hvalid' w (hwf.owned w (List.mem_cons_of_mem low
        (List.mem_cons_of_mem high h)))
  · intro k hk
    rcases hlive_back k hk with hki | hkc
    · subst hki
      rw [hget_self, hpo c.arena.length, hpoc]
      have hc1 : (nonterminalId c.arena.length :: O).count
          (nonterminalId c.arena.length) =
          O.count (nonterminalId c.arena.length) + 1 := List.count_cons_self _ _
      rw [hc1, hcnt0, if_neg (fun h => hlow_ne h), if_neg (fun h => hhigh_ne h)]
    · by_cases hki : k = c.arena.length
      · subst hki
        rw [hget_self, hpo c.arena.length, hpoc]
        have hc1 : (nonterminalId c.arena.length :: O).count
            (nonterminalId c.arena.length) =
            O.count (nonterminalId c.arena.length) + 1 := List.count_cons_self _ _
        rw [hc1, hcnt0, if_neg (fun h => hlow_ne h), if_neg (fun h => hhigh_ne h)]
      · rw [hget_ne k hki, hpo k]
        have hc1 : (nonterminalId c.arena.length :: O).count (nonterminalId k) =
            O.count (nonterminalId k) := by
          refine List.count_cons_of_ne (fun he => ?_) O
          exact hki (nonterminalId_injective he)
        rw [hc1]
        have hacc := hwf.acc k hkc
        have hsplit : (low :: high :: O).count (nonterminalId k) =
            O.count (nonterminalId k) +
            ((if low = nonterminalId k then 1 else 0) +
             (if high = nonterminalId k then 1 else 0)) := by
          rw [List.count_cons, List.count_cons]
          simp only [beq_iff_eq]
          omega
        omega

/-- The result-side conclusions shared by the hit and miss branches: the
returned nonterminal is held, labelled `v`, and steps to the argument
children. -/
theorem result_sem (c c' : NodeCache) (O : List NodeId) (vb v : Nat)
    (low high : NodeId) (i : Nat)
    (hwf : WFO c (low :: high :: O) vb)
    (hwf' : WFO c' (nonterminalId i :: O) vb)
    (hpres : ∀ k, isLive c k = true → isLive c' k = true ∧
      (getNode c' k).var = (getNode c k).var ∧
      (getNode c' k).low = (getNode c k).low ∧
      (getNode c' k).high = (getNode c k).high)
    (hlivei : isLive c' i = true)
    (hvar : (getNode c' i).var = v) (hlow : (getNode c' i).low = low)
    (hhigh : (getNode c' i).high = high) :
    strongValid c' (nonterminalId i) = true ∧
    v ≤ varOf c' vb (nonterminalId i) ∧
    (∀ a, a v = true → evalT c' vb (nonterminalId i) a = evalT c vb high a) ∧
    (∀ a, a v = false → evalT c' vb (nonterminalId i) a = evalT c vb low a) := by
  have hsv : strongValid c' (nonterminalId i) = true := by
    unfold strongValid
    simp [nodeIndex_nonterminalId]
    exact ⟨hlivei, hwf'.nz i hlivei⟩
  have hvo : varOf c' vb (nonterminalId i) = v := by
    unfold varOf
    rw [if_neg (by simp), nodeIndex_nonterminalId, hvar]
  refine ⟨hsv, by rw [hvo], ?_, ?_⟩
  · intro a ha
    have hstep := evalT_step_high c' (nonterminalId i :: O) vb hwf'
      (nonterminalId i) (by simp) hsv a
      (by rw [nodeIndex_nonterminalId, hvar]; exact ha)
    rw [hstep, nodeIndex_nonterminalId, hhigh]
    exact evalT_stable c c' (low :: high :: O) vb hwf hpres high a
      (owned_strongValid c (low :: high :: O) vb hwf high
        (List.mem_cons_of_mem low (List.mem_cons_self high O)))
  · intro a ha
    have hstep := evalT_step_low c' (nonterminalId i :: O) vb hwf'
      (nonterminalId i) (by simp) hsv a
      (by rw [nodeIndex_nonterminalId, hvar]; exact ha)
    rw [hstep, nodeIndex_nonterminalId, hlow]
    exact evalT_stable c c' (low :: high :: O) vb hwf hpres low a
      (owned_strongValid c (low :: high :: O) vb hwf low
        (List.mem_cons_self low _))

/-- `ipset_node_cache_nonterminal` called with two held references:
preserves the invariant (absorbing them into the result's reference),
keeps every live record, and the result is a held node labelled at or
above `v` that evaluates through the given children. -/
theorem nonterminal_wfo (c c' : NodeCache) (O : List NodeId) (vb v : Nat)
    (low high : NodeId) (r : NodeId)
    (heq : ipset_node_cache_nonterminal c v low high = (c', r))
    (hwf : WFO c (low :: high :: O) vb) (hv : v < vb)
    (hcl : childOk c v low = true) (hch : childOk c v high = true) :
    WFO c' (r :: O) vb ∧
    (∀ k, isLive c k = true → isLive c' k = true ∧
      (getNode c' k).var = (getNode c k).var ∧
      (getNode c' k).low = (getNode c k).low ∧
      (getNode c' k).high = (getNode c k).high) ∧
    strongValid c' r = true ∧
    v ≤ varOf c' vb r ∧
    (∀ a, a v = true → evalT c' vb r a = evalT c vb high a) ∧
    (∀ a, a v = false → evalT c' vb r a = evalT c vb low a) := by
  unfold ipset_node_cache_nonterminal at heq
  by_cases he : (low == high) = true
  · rw [if_pos he] at heq
    have hlh : low = high := by simpa using he
    have hc' : ipset_node_decrefT c high = c' := congrArg Prod.fst heq
    have hr : low = r := congrArg Prod.snd heq
    subst hlh
    obtain ⟨hwfo, hsh⟩ := nonterminal_wfo_collapse c O vb low hwf
    rw [hc'] at hwfo hsh
    have hsvr : strongValid c' low = true :=
      owned_strongValid c' (low :: O) vb hwfo low (List.mem_cons_self low _)
    have hstab : ∀ a, evalT c' vb low a = evalT c vb low a := fun a =>
      evalT_stable c c' (low :: low :: O) vb hwf (shapeEq_pres c c' hsh) low a
        (owned_strongValid c (low :: low :: O) vb hwf low
          (List.mem_cons_self low _))
    subst hr
    refine ⟨hwfo, shapeEq_pres c c' hsh, hsvr, ?_, ?_, ?_⟩
    · rw [shapeEq_varOf c c' hsh]
      exact le_of_lt (childOk_varOf c vb v low hv hcl)
    · intro a _
      exact hstab a
    · intro a _
      exact hstab a
  · rw [if_neg he] at heq
    have hlh : low ≠ high := by simpa using he
    cases hl : lookupUnique c v low high with
    | some j =>
      rw [hl] at heq
      simp only at heq
      have hc' : ipset_node_decrefT (ipset_node_decrefT
          (ipset_node_incref c (nonterminalId j)) low) high = c' :=
        congrArg Prod.fst heq
      have hr : nonterminalId j = r := congrArg Prod.snd heq
      obtain ⟨hjlen, hjlive, hjvar, hjlow, hjhigh⟩ :=
        lookupUnique_some c v low high j hl
      obtain ⟨hwfo, hsh⟩ := nonterminal_wfo_hit c O vb v low high j hwf hl
      rw [hc'] at hwfo hsh
      have hlivej : isLive c' j = true := by
        rw [hsh.2.1]
        exact hjlive
      obtain ⟨g1, g2, g3⟩ := hsh.2.2 j
      obtain ⟨hsvr, hvo, hsemh, hseml⟩ := result_sem c c' O vb v low high j
        hwf hwfo (shapeEq_pres c c' hsh) hlivej (g1.trans hjvar)
        (g2.trans hjlow) (g3.trans hjhigh)
      subst hr
      exact ⟨hwfo, shapeEq_pres c c' hsh, hsvr, hvo, hsemh, hseml⟩
    | none =>
      rw [hl] at heq
      cases hfl : c.freeList with
      | cons i rest =>
        rw [hfl] at heq
        simp only at heq
        have hc' : ({ c with
            arena := c.arena.set i ⟨v, low, high, 1⟩,
            freeList := rest } : NodeCache) = c' := congrArg Prod.fst heq
        have hr : nonterminalId i = r := congrArg Prod.snd heq
        obtain ⟨hwfo, hpres, hlivei, hgeti⟩ := nonterminal_wfo_miss_pop c c'
          O vb v low high i rest hc'.symm hwf hv hcl hch hl hlh hfl
        obtain ⟨hsvr, hvo, hsemh, hseml⟩ := result_sem c c' O vb v low high i
          hwf hwfo hpres hlivei (by rw [hgeti]) (by rw [hgeti]) (by rw [hgeti])
        subst hr
        exact ⟨hwfo, hpres, hsvr, hvo, hsemh, hseml⟩
      | nil =>
        rw [hfl] at heq
        simp only at heq
        have hstruct : ({ c with arena := c.arena ++ [⟨v, low, high, 1⟩] } :
            NodeCache) = {
              arena := c.arena ++ [(⟨v, low, high, 1⟩ : BddNode)],
              freeList := ([] : List Nat),
              andCache := c.andCache,
              orCache := c.orCache,
              iteCache := c.iteCache } := by
          rw [hfl]
        have hc' : ({ c with arena := c.arena ++ [⟨v, low, high, 1⟩] } :
            NodeCache) = c' := by
          rw [hstruct]
          exact congrArg Prod.fst heq
        have hr : nonterminalId c.arena.length = r := congrArg Prod.snd heq
        obtain ⟨hwfo, hpres, hlivei, hgeti⟩ := nonterminal_wfo_miss_append c c'
          O vb v low high hc'.symm hwf hv hcl hch hl hlh hfl
        obtain ⟨hsvr, hvo, hsemh, hseml⟩ := result_sem c c' O vb v low high
          c.arena.length hwf hwfo hpres hlivei
          (by rw [hgeti]) (by rw [hgeti]) (by rw [hgeti])
        subst hr
        exact ⟨hwfo, hpres, hsvr, hvo, hsemh, hseml⟩

theorem pres_trans (c₁ c₂ c₃ : NodeCache) (h1 : PresMap c₁ c₂)
    (h2 : PresMap c₂ c₃) : PresMap c₁ c₃ := by
  intro k hk
  obtain ⟨hl1, a1, b1, d1⟩ := h1 k hk
  obtain ⟨hl2, a2, b2, d2⟩ := h2 k hl1
  exact ⟨hl2, a2.trans a1, b2.trans b1, d2.trans d1⟩

theorem strongValid_pres (c c' : NodeCache) (hP : PresMap c c')
    (hnz : ∀ i, isLive c' i = true → 1 ≤ (getNode c' i).refcount)
    (id : NodeId) (h : strongValid c id = true) : strongValid c' id = true := by
  unfold strongValid at h ⊢
  by_cases ht : isTerminal id
  · simp [ht]
  · have htf : isTerminal id = false := by simpa using ht
    simp only [htf, Bool.false_or, Bool.and_eq_true, decide_eq_true_eq] at h ⊢
    have hl := (hP (nodeIndex id) h.1).1
    exact ⟨hl, hnz _ hl⟩

theorem varOf_pres (c c' : NodeCache) (hP : PresMap c c') (vb : Nat)
    (id : NodeId) (h : strongValid c id = true) :
    varOf c' vb id = varOf c vb id := by
  unfold varOf
  by_cases ht : isTerminal id
  · rw [if_pos ht, if_pos ht]
  · have htf : isTerminal id = false := by simpa using ht
    unfold strongValid at h
    simp only [htf, Bool.false_or, Bool.and_eq_true, decide_eq_true_eq] at h
    rw [if_neg ht, if_neg ht, (hP (nodeIndex id) h.1).2.1]

theorem childOk_mono (c c' : NodeCache) (hP : PresMap c c') (v : Nat)
    (ch : NodeId) (h : childOk c v ch = true) : childOk c' v ch = true := by
  unfold childOk at h ⊢
  by_cases ht : isTerminal ch
  · simp [ht]
  · have htf : isTerminal ch = false := by simpa using ht
    simp only [htf, Bool.false_or, Bool.and_eq_true, decide_eq_true_eq] at h ⊢
    obtain ⟨hl, hv⟩ := h
    obtain ⟨hl', hv', _, _⟩ := hP (nodeIndex ch) hl
    rw [hv']
    exact ⟨hl', hv⟩

theorem childOk_of_strongValid_varOf (c : NodeCache) (vb v : Nat)
    (ch : NodeId) (hsv : strongValid c ch = true)
    (hvar : v < varOf c vb ch) : childOk c v ch = true := by
  unfold childOk
  unfold strongValid at hsv
  unfold varOf at hvar
  by_cases ht : isTerminal ch
  · simp [ht]
  · have htf : isTerminal ch = false := by simpa using ht
    rw [if_neg ht] at hvar
    simp only [htf, Bool.false_or, Bool.and_eq_true, decide_eq_true_eq] at hsv ⊢
    exact ⟨hsv.1, hvar⟩

theorem WFO_cons_terminal (c : NodeCache) (O : List NodeId) (vb w : Nat)
    (hwf : WFO c O vb) : WFO c (terminalId w :: O) vb := by
  refine ⟨hwf.flwf, hwf.u1, hwf.u2, hwf.nz, hwf.graph, ?_, ?_⟩
  · intro id hid
    rcases List.mem_cons.mp hid with h | h
    · rw [h]
      unfold validId
      simp
    · exact hwf.owned id h
  · intro i hi
    have hcnt : (terminalId w :: O).count (nonterminalId i) =
        O.count (nonterminalId i) :=
      List.count_cons_of_ne (nonterminalId_ne_terminalId i w) O
    rw [hcnt]
    exact hwf.acc i hi

theorem matchesFrom_vac (vc : Nat) (s a : Nat → Bool) :
    matchesFrom vc vc s a := by
  intro k hk1 hk2
  omega

theorem matchesFrom_down (cv vc : Nat) (s a : Nat → Bool)
    (hcv : cv < vc) (hhead : a cv = s cv)
    (h : matchesFrom (cv + 1) vc s a) : matchesFrom cv vc s a := by
  intro k hk1 hk2
  rcases Nat.eq_or_lt_of_le hk1 with he | hlt
  · rw [← he]
    exact hhead
  · exact h k (by omega) hk2

theorem matchesFrom_up (cv vc : Nat) (s a : Nat → Bool)
    (h : matchesFrom cv vc s a) : matchesFrom (cv + 1) vc s a := by
  intro k hk1 hk2
  exact h k (by omega) hk2

theorem matchesFrom_head (cv vc : Nat) (s a : Nat → Bool)
    (hcv : cv < vc) (h : matchesFrom cv vc s a) : a cv = s cv :=
  h cv (le_refl cv) hcv

theorem apply_or_succ (fuel : Nat) (c : NodeCache) (lhs : FakeNode)
    (rhs : NodeId) :
    FusedOr.ipset_apply_or (fuel + 1) c lhs rhs =
      if lhs.current_var == lhs.var_count then
        if lhs.value == 0 then some (ipset_node_incref c rhs, rhs)
        else some (c, terminalId lhs.value)
      else
        if isTerminal rhs then FusedOr.recurse_left fuel c lhs rhs
        else
          if lhs.current_var == (getNode c (nodeIndex rhs)).var then
            FusedOr.recurse_both fuel c lhs rhs
          else if lhs.current_var < (getNode c (nodeIndex rhs)).var then
            FusedOr.recurse_left fuel c lhs rhs
          else FusedOr.recurse_right fuel c lhs rhs := by
  rw [FusedOr.ipset_apply_or]

/-- Soundness of the fused `recurse_left`: recursion into the element
side only. -/
theorem recurse_left_sound (fuel : Nat)
    (ih : ∀ (c : NodeCache) (lhs : FakeNode) (rhs : NodeId) (O : List NodeId),
      WFO c O lhs.var_count → strongValid c rhs = true →
      lhs.current_var ≤ lhs.var_count →
      (lhs.current_var = lhs.var_count ∨
        lhs.current_var ≤ varOf c lhs.var_count rhs) →
      lhs.var_count + 1 - lhs.current_var < fuel →
      OrOutcome c lhs rhs O (FusedOr.ipset_apply_or fuel c lhs rhs))
    (c : NodeCache) (lhs : FakeNode) (rhs : NodeId) (O : List NodeId)
    (hwf : WFO c O lhs.var_count) (hrhs : strongValid c rhs = true)
    (hcv : lhs.current_var < lhs.var_count)
    (hchild : childOk c lhs.current_var rhs = true)
    (hfuel : lhs.var_count - lhs.current_var < fuel) :
    OrOutcome c lhs rhs O (FusedOr.recurse_left fuel c lhs rhs) := by
  have hvb : lhs.current_var < varOf c lhs.var_count rhs :=
    childOk_varOf c lhs.var_count lhs.current_var rhs hcv hchild
  obtain ⟨c₁, rh, heq1, hwf1, hpres1, hsv1, hvo1, hsem1p, hsem1m⟩ := ih c
    { lhs with current_var := lhs.current_var + 1 } rhs O hwf hrhs
    (by show lhs.current_var + 1 ≤ lhs.var_count; omega)
    (Or.inr (by show lhs.current_var + 1 ≤ varOf c lhs.var_count rhs; omega))
    (by show lhs.var_count + 1 - (lhs.current_var + 1) < fuel; omega)
  have hvo1' : min (lhs.current_var + 1) (varOf c lhs.var_count rhs) ≤
      varOf c₁ lhs.var_count rh := hvo1
  have hsem1p' : ∀ a, matchesFrom (lhs.current_var + 1) lhs.var_count
      lhs.assignment a → lhs.value ≠ 0 →
      evalT c₁ lhs.var_count rh a = lhs.value := hsem1p
  have hsem1m' : ∀ a, ¬matchesFrom (lhs.current_var + 1) lhs.var_count
      lhs.assignment a ∨ lhs.value = 0 →
      evalT c₁ lhs.var_count rh a = evalT c lhs.var_count rhs a := hsem1m
  have hwf1' : WFO c₁ (rh :: O) lhs.var_count := hwf1
  have hpres1' : PresMap c c₁ := hpres1
  have hsv1' : strongValid c₁ rh = true := hsv1
  have hsv1rhs : strongValid c₁ rhs = true :=
    strongValid_pres c c₁ hpres1' hwf1'.nz rhs hrhs
  have hwf2 : WFO (ipset_node_incref c₁ rhs) (rhs :: rh :: O) lhs.var_count :=
    incref_wfo c₁ (rh :: O) lhs.var_count hwf1' rhs hsv1rhs
  have hsh2 : ShapeEq c₁ (ipset_node_incref c₁ rhs) := shapeEq_incref c₁ rhs
  have hpres2 : PresMap c₁ (ipset_node_incref c₁ rhs) := shapeEq_pres _ _ hsh2
  have hpres02 : PresMap c (ipset_node_incref c₁ rhs) :=
    pres_trans _ _ _ hpres1' hpres2
  have hcl2 : childOk (ipset_node_incref c₁ rhs) lhs.current_var rhs = true :=
    childOk_mono _ _ hpres02 _ _ hchild
  have hvo_rh : lhs.current_var < varOf c₁ lhs.var_count rh :=
    lt_of_lt_of_le (lt_min (by omega) hvb) hvo1'
  have hch2 : childOk (ipset_node_incref c₁ rhs) lhs.current_var rh = true := by
    apply childOk_mono c₁ _ hpres2
    exact childOk_of_strongValid_varOf c₁ lhs.var_count lhs.current_var rh
      hsv1' hvo_rh
  have hstab_rh : ∀ a, evalT (ipset_node_incref c₁ rhs) lhs.var_count rh a =
      evalT c₁ lhs.var_count rh a := fun a =>
    evalT_stable c₁ _ (rh :: O) lhs.var_count hwf1' hpres2 rh a hsv1'
  have hstab_rhs : ∀ a, evalT (ipset_node_incref c₁ rhs) lhs.var_count rhs a =
      evalT c lhs.var_count rhs a := fun a =>
    evalT_stable c _ O lhs.var_count hwf hpres02 rhs a hrhs
  by_cases hb : lhs.assignment lhs.current_var = true
  · rw [FusedOr.recurse_left, if_pos hb, heq1]
    simp only [Option.bind_eq_bind, Option.some_bind]
    obtain ⟨hwfN, hpresN, hsvN, hvoN, hsemNh, hsemNl⟩ :=
      nonterminal_wfo (ipset_node_incref c₁ rhs) _ O lhs.var_count
        lhs.current_var rhs rh _ Prod.mk.eta.symm hwf2 hcv hcl2 hch2
    refine ⟨_, _, by rw [Prod.mk.eta], hwfN,
      pres_trans _ _ _ hpres02 hpresN, hsvN, ?_, ?_, ?_⟩
    · exact le_trans (min_le_left _ _) hvoN
    · intro a hm hv0
      have ha : a lhs.current_var = true :=
        (matchesFrom_head _ _ _ _ hcv hm).trans hb
      rw [hsemNh a ha, hstab_rh a]
      exact hsem1p' a (matchesFrom_up _ _ _ _ hm) hv0
    · intro a hcase
      by_cases hav : a lhs.current_var = true
      · rw [hsemNh a hav, hstab_rh a]
        apply hsem1m'
        rcases hcase with hnm | hz
        · left
          intro hm'
          exact hnm (matchesFrom_down _ _ _ _ hcv (hav.trans hb.symm) hm')
        · right
          exact hz
      · have havf : a lhs.current_var = false := by
          rw [Bool.not_eq_true] at hav
          exact hav
        rw [hsemNl a havf]
        exact hstab_rhs a
  · have hbf : lhs.assignment lhs.current_var = false := by
      rw [Bool.not_eq_true] at hb
      exact hb
    rw [FusedOr.recurse_left, if_neg (by rw [hbf]; simp), heq1]
    simp only [Option.bind_eq_bind, Option.some_bind]
    have hwf2' := WFO_swap _ _ _ _ _ hwf2
    obtain ⟨hwfN, hpresN, hsvN, hvoN, hsemNh, hsemNl⟩ :=
      nonterminal_wfo (ipset_node_incref c₁ rhs) _ O lhs.var_count
        lhs.current_var rh rhs _ Prod.mk.eta.symm hwf2' hcv hch2 hcl2
    refine ⟨_, _, by rw [Prod.mk.eta], hwfN,
      pres_trans _ _ _ hpres02 hpresN, hsvN, ?_, ?_, ?_⟩
    · exact le_trans (min_le_left _ _) hvoN
    · intro a hm hv0
      have ha : a lhs.current_var = false :=
        (matchesFrom_head _ _ _ _ hcv hm).trans hbf
      rw [hsemNl a ha, hstab_rh a]
      exact hsem1p' a (matchesFrom_up _ _ _ _ hm) hv0
    · intro a hcase
      by_cases hav : a lhs.current_var = true
      · rw [hsemNh a hav]
        exact hstab_rhs a
      · have havf : a lhs.current_var = false := by
          rw [Bool.not_eq_true] at hav
          exact hav
        rw [hsemNl a havf, hstab_rh a]
        apply hsem1m'
        rcases hcase with hnm | hz
        · left
          intro hm'
          exact hnm (matchesFrom_down _ _ _ _ hcv (havf.trans hbf.symm) hm')
        · right
          exact hz

/-- Soundness of the fused `recurse_both`: simultaneous recursion, with
the unchosen branch paired against the terminal-0 fake node. -/
theorem recurse_both_sound (fuel : Nat)
    (ih : ∀ (c : NodeCache) (lhs : FakeNode) (rhs : NodeId) (O : List NodeId),
      WFO c O lhs.var_count → strongValid c rhs = true →
      lhs.current_var ≤ lhs.var_count →
      (lhs.current_var = lhs.var_count ∨
        lhs.current_var ≤ varOf c lhs.var_count rhs) →
      lhs.var_count + 1 - lhs.current_var < fuel →
      OrOutcome c lhs rhs O (FusedOr.ipset_apply_or fuel c lhs rhs))
    (c : NodeCache) (lhs : FakeNode) (rhs : NodeId) (O : List NodeId)
    (hwf : WFO c O lhs.var_count) (hrhs : strongValid c rhs = true)
    (hcv : lhs.current_var < lhs.var_count)
    (htf : isTerminal rhs = false)
    (hvar : (getNode c (nodeIndex rhs)).var = lhs.current_var)
    (hfuel : lhs.var_count - lhs.current_var < fuel) :
    OrOutcome c lhs rhs O (FusedOr.recurse_both fuel c lhs rhs) := by
  have hlive : isLive c (nodeIndex rhs) = true := by
    unfold strongValid at hrhs
    simp [htf] at hrhs
    exact hrhs.1
  obtain ⟨hvlt, hokl, hokh⟩ := hwf.graph (nodeIndex rhs) hlive
  have hidx : nodeIndex rhs < c.arena.length := ((isLive_iff c _).mp hlive).1
  have hsvl : strongValid c (getNode c (nodeIndex rhs)).low = true :=
    childOk_strongValid c O lhs.var_count hwf (nodeIndex rhs) hidx hlive _
      (Or.inl rfl) hokl
  have hsvh : strongValid c (getNode c (nodeIndex rhs)).high = true :=
    childOk_strongValid c O lhs.var_count hwf (nodeIndex rhs) hidx hlive _
      (Or.inr rfl) hokh
  rw [hvar] at hokl hokh
  have hvofl : lhs.current_var < varOf c lhs.var_count
      (getNode c (nodeIndex rhs)).low :=
    childOk_varOf c lhs.var_count lhs.current_var _ hcv hokl
  have hvofh : lhs.current_var < varOf c lhs.var_count
      (getNode c (nodeIndex rhs)).high :=
    childOk_varOf c lhs.var_count lhs.current_var _ hcv hokh
  have hvrhs : varOf c lhs.var_count rhs = lhs.current_var := by
    unfold varOf
    rw [if_neg (by simp [htf]), hvar]
  have hstep : ∀ a, evalT c lhs.var_count rhs a =
      evalT c lhs.var_count (if a lhs.current_var then
        (getNode c (nodeIndex rhs)).high
        else (getNode c (nodeIndex rhs)).low) a := by
    intro a
    have h := evalT_step c O lhs.var_count hwf rhs htf hrhs a
    rw [hvar] at h
    exact h
  have hstepH : ∀ a, a lhs.current_var = true →
      evalT c lhs.var_count rhs a =
      evalT c lhs.var_count (getNode c (nodeIndex rhs)).high a := by
    intro a ha
    rw [hstep a, if_pos ha]
  have hstepL : ∀ a, a lhs.current_var = false →
      evalT c lhs.var_count rhs a =
      evalT c lhs.var_count (getNode c (nodeIndex rhs)).low a := by
    intro a ha
    rw [hstep a, if_neg (by rw [ha]; simp)]
  by_cases hb : lhs.assignment lhs.current_var = true
  · -- main recursion on the high child, `other` on the low child
    obtain ⟨c₁, rh, heq1, hwf1, hpres1, hsv1, hvo1, hsem1p, hsem1m⟩ := ih c
      { lhs with current_var := lhs.current_var + 1 }
      (getNode c (nodeIndex rhs)).high O hwf hsvh
      (by show lhs.current_var + 1 ≤ lhs.var_count; omega)
      (Or.inr (by
        show lhs.current_var + 1 ≤
          varOf c lhs.var_count (getNode c (nodeIndex rhs)).high
        omega))
      (by show lhs.var_count + 1 - (lhs.current_var + 1) < fuel; omega)
    have hwf1' : WFO c₁ (rh :: O) lhs.var_count := hwf1
    have hpres1' : PresMap c c₁ := hpres1
    have hsv1' : strongValid c₁ rh = true := hsv1
    have hvo1' : min (lhs.current_var + 1) (varOf c lhs.var_count
        (getNode c (nodeIndex rhs)).high) ≤ varOf c₁ lhs.var_count rh := hvo1
    have hsem1p' : ∀ a, matchesFrom (lhs.current_var + 1) lhs.var_count
        lhs.assignment a → lhs.value ≠ 0 →
        evalT c₁ lhs.var_count rh a = lhs.value := hsem1p
    have hsem1m' : ∀ a, ¬matchesFrom (lhs.current_var + 1) lhs.var_count
        lhs.assignment a ∨ lhs.value = 0 →
        evalT c₁ lhs.var_count rh a =
        evalT c lhs.var_count (getNode c (nodeIndex rhs)).high a := hsem1m
    have hsvl1 : strongValid c₁ (getNode c (nodeIndex rhs)).low = true :=
      strongValid_pres c c₁ hpres1' hwf1'.nz _ hsvl
    obtain ⟨c₂, rl, heq2, hwf2, hpres2, hsv2, hvo2, _, hsem2m⟩ := ih c₁
      ⟨lhs.var_count, lhs.var_count, lhs.assignment, 0⟩
      (getNode c (nodeIndex rhs)).low (rh :: O) hwf1' hsvl1
      (le_refl _) (Or.inl rfl)
      (by show lhs.var_count + 1 - lhs.var_count < fuel; omega)
    have hwf2' : WFO c₂ (rl :: rh :: O) lhs.var_count := hwf2
    have hpres2' : PresMap c₁ c₂ := hpres2
    have hsv2' : strongValid c₂ rl = true := hsv2
    have hsem2m' : ∀ a, evalT c₂ lhs.var_count rl a =
        evalT c₁ lhs.var_count (getNode c (nodeIndex rhs)).low a := fun a =>
      hsem2m a (Or.inr rfl)
    have hvlow1 : varOf c₁ lhs.var_count (getNode c (nodeIndex rhs)).low =
        varOf c lhs.var_count (getNode c (nodeIndex rhs)).low :=
      varOf_pres c c₁ hpres1' lhs.var_count _ hsvl
    have hvo2' : min lhs.var_count (varOf c₁ lhs.var_count
        (getNode c (nodeIndex rhs)).low) ≤ varOf c₂ lhs.var_count rl := hvo2
    have hvrl : lhs.current_var < varOf c₂ lhs.var_count rl := by
      have h1 : varOf c₁ lhs.var_count (getNode c (nodeIndex rhs)).low ≤
          lhs.var_count := varOf_le c₁ (rh :: O) lhs.var_count hwf1' _ hsvl1
      have h2 := min_eq_right h1
      rw [h2] at hvo2'
      omega
    have hvrh : lhs.current_var < varOf c₂ lhs.var_count rh := by
      have h1 : varOf c₂ lhs.var_count rh = varOf c₁ lhs.var_count rh :=
        varOf_pres c₁ c₂ hpres2' lhs.var_count rh hsv1'
      have h2 := lt_of_lt_of_le (lt_min (by omega) hvofh) hvo1'
      omega
    have hsvrh2 : strongValid c₂ rh = true :=
      strongValid_pres c₁ c₂ hpres2' hwf2'.nz rh hsv1'
    have hcl2 : childOk c₂ lhs.current_var rl = true :=
      childOk_of_strongValid_varOf c₂ lhs.var_count lhs.current_var rl
        hsv2' hvrl
    have hch2 : childOk c₂ lhs.current_var rh = true :=
      childOk_of_strongValid_varOf c₂ lhs.var_count lhs.current_var rh
        hsvrh2 hvrh
    rw [FusedOr.recurse_both]
    simp only
    rw [if_pos hb, heq1]
    simp only [Option.bind_eq_bind, Option.some_bind]
    rw [heq2]
    simp only [Option.some_bind]
    obtain ⟨hwfN, hpresN, hsvN, hvoN, hsemNh, hsemNl⟩ :=
      nonterminal_wfo c₂ _ O lhs.var_count lhs.current_var rl rh _
        Prod.mk.eta.symm hwf2' hcv hcl2 hch2
    have hpres012 : PresMap c c₂ := pres_trans _ _ _ hpres1' hpres2'
    have hstab_rh2 : ∀ a, evalT c₂ lhs.var_count rh a =
        evalT c₁ lhs.var_count rh a := fun a =>
      evalT_stable c₁ c₂ (rh :: O) lhs.var_count hwf1' hpres2' rh a hsv1'
    have hstab_low1 : ∀ a, evalT c₁ lhs.var_count
        (getNode c (nodeIndex rhs)).low a =
        evalT c lhs.var_count (getNode c (nodeIndex rhs)).low a := fun a =>
      evalT_stable c c₁ O lhs.var_count hwf hpres1' _ a hsvl
    refine ⟨_, _, by rw [Prod.mk.eta], hwfN,
      pres_trans _ _ _ hpres012 hpresN, hsvN, ?_, ?_, ?_⟩
    · rw [hvrhs]
      exact le_trans (min_le_left _ _) hvoN
    · intro a hm hv0
      have ha : a lhs.current_var = true :=
        (matchesFrom_head _ _ _ _ hcv hm).trans hb
      rw [hsemNh a ha, hstab_rh2 a]
      exact hsem1p' a (matchesFrom_up _ _ _ _ hm) hv0
    · intro a hcase
      by_cases hav : a lhs.current_var = true
      · rw [hsemNh a hav, hstab_rh2 a, hstepH a hav]
        apply hsem1m'
        rcases hcase with hnm | hz
        · left
          intro hm'
          exact hnm (matchesFrom_down _ _ _ _ hcv (hav.trans hb.symm) hm')
        · right
          exact hz
      · have havf : a lhs.current_var = false := by
          rw [Bool.not_eq_true] at hav
          exact hav
        rw [hsemNl a havf, hsem2m' a, hstab_low1 a, hstepL a havf]
  · -- main recursion on the low child, `other` on the high child
    have hbf : lhs.assignment lhs.current_var = false := by
      rw [Bool.not_eq_true] at hb
      exact hb
    obtain ⟨c₁, rl, heq1, hwf1, hpres1, hsv1, hvo1, hsem1p, hsem1m⟩ := ih c
      { lhs with current_var := lhs.current_var + 1 }
      (getNode c (nodeIndex rhs)).low O hwf hsvl
      (by show lhs.current_var + 1 ≤ lhs.var_count; omega)
      (Or.inr (by
        show lhs.current_var + 1 ≤
          varOf c lhs.var_count (getNode c (nodeIndex rhs)).low
        omega))
      (by show lhs.var_count + 1 - (lhs.current_var + 1) < fuel; omega)
    have hwf1' : WFO c₁ (rl :: O) lhs.var_count := hwf1
    have hpres1' : PresMap c c₁ := hpres1
    have hsv1' : strongValid c₁ rl = true := hsv1
    have hvo1' : min (lhs.current_var + 1) (varOf c lhs.var_count
        (getNode c (nodeIndex rhs)).low) ≤ varOf c₁ lhs.var_count rl := hvo1
    have hsem1p' : ∀ a, matchesFrom (lhs.current_var + 1) lhs.var_count
        lhs.assignment a → lhs.value ≠ 0 →
        evalT c₁ lhs.var_count rl a = lhs.value := hsem1p
    have hsem1m' : ∀ a, ¬matchesFrom (lhs.current_var + 1) lhs.var_count
        lhs.assignment a ∨ lhs.value = 0 →
        evalT c₁ lhs.var_count rl a =
        evalT c lhs.var_count (getNode c (nodeIndex rhs)).low a := hsem1m
    have hsvh1 : strongValid c₁ (getNode c (nodeIndex rhs)).high = true :=
      strongValid_pres c c₁ hpres1' hwf1'.nz _ hsvh
    obtain ⟨c₂, rh, heq2, hwf2, hpres2, hsv2, hvo2, _, hsem2m⟩ := ih c₁
      ⟨lhs.var_count, lhs.var_count, lhs.assignment, 0⟩
      (getNode c (nodeIndex rhs)).high (rl :: O) hwf1' hsvh1
      (le_refl _) (Or.inl rfl)
      (by show lhs.var_count + 1 - lhs.var_count < fuel; omega)
    have hwf2' : WFO c₂ (rh :: rl :: O) lhs.var_count := hwf2
    have hpres2' : PresMap c₁ c₂ := hpres2
    have hsv2' : strongValid c₂ rh = true := hsv2
    have hsem2m' : ∀ a, evalT c₂ lhs.var_count rh a =
        evalT c₁ lhs.var_count (getNode c (nodeIndex rhs)).high a := fun a =>
      hsem2m a (Or.inr rfl)
    have hvo2' : min lhs.var_count (varOf c₁ lhs.var_count
        (getNode c (nodeIndex rhs)).high) ≤ varOf c₂ lhs.var_count rh := hvo2
    have hvrh : lhs.current_var < varOf c₂ lhs.var_count rh := by
      have h1 : varOf c₁ lhs.var_count (getNode c (nodeIndex rhs)).high ≤
          lhs.var_count := varOf_le c₁ (rl :: O) lhs.var_count hwf1' _ hsvh1
      have h2 := min_eq_right h1
      rw [h2] at hvo2'
      have h3 : varOf c₁ lhs.var_count (getNode c (nodeIndex rhs)).high =
          varOf c lhs.var_count (getNode c (nodeIndex rhs)).high :=
        varOf_pres c c₁ hpres1' lhs.var_count _ hsvh
      omega
    have hvrl : lhs.current_var < varOf c₂ lhs.var_count rl := by
      have h1 : varOf c₂ lhs.var_count rl = varOf c₁ lhs.var_count rl :=
        varOf_pres c₁ c₂ hpres2' lhs.var_count rl hsv1'
      have h2 := lt_of_lt_of_le (lt_min (by omega) hvofl) hvo1'
      omega
    have hsvrl2 : strongValid c₂ rl = true :=
      strongValid_pres c₁ c₂ hpres2' hwf2'.nz rl hsv1'
    have hch2 : childOk c₂ lhs.current_var rh = true :=
      childOk_of_strongValid_varOf c₂ lhs.var_count lhs.current_var rh
        hsv2' hvrh
    have hcl2 : childOk c₂ lhs.current_var rl = true :=
      childOk_of_strongValid_varOf c₂ lhs.var_count lhs.current_var rl
        hsvrl2 hvrl
    rw [FusedOr.recurse_both]
    simp only
    rw [if_neg (by rw [hbf]; simp), heq1]
    simp only [Option.bind_eq_bind, Option.some_bind]
    rw [heq2]
    simp only [Option.some_bind]
    have hwf2s := WFO_swap _ _ _ _ _ hwf2'
    obtain ⟨hwfN, hpresN, hsvN, hvoN, hsemNh, hsemNl⟩ :=
      nonterminal_wfo c₂ _ O lhs.var_count lhs.current_var rl rh _
        Prod.mk.eta.symm hwf2s hcv hcl2 hch2
    have hpres012 : PresMap c c₂ := pres_trans _ _ _ hpres1' hpres2'
    have hstab_rl2 : ∀ a, evalT c₂ lhs.var_count rl a =
        evalT c₁ lhs.var_count rl a := fun a =>
      evalT_stable c₁ c₂ (rl :: O) lhs.var_count hwf1' hpres2' rl a hsv1'
    have hstab_high1 : ∀ a, evalT c₁ lhs.var_count
        (getNode c (nodeIndex rhs)).high a =
        evalT c lhs.var_count (getNode c (nodeIndex rhs)).high a := fun a =>
      evalT_stable c c₁ O lhs.var_count hwf hpres1' _ a hsvh
    refine ⟨_, _, by rw [Prod.mk.eta], hwfN,
      pres_trans _ _ _ hpres012 hpresN, hsvN, ?_, ?_, ?_⟩
    · rw [hvrhs]
      exact le_trans (min_le_left _ _) hvoN
    · intro a hm hv0
      have ha : a lhs.current_var = false :=
        (matchesFrom_head _ _ _ _ hcv hm).trans hbf
      rw [hsemNl a ha, hstab_rl2 a]
      exact hsem1p' a (matchesFrom_up _ _ _ _ hm) hv0
    · intro a hcase
      by_cases hav : a lhs.current_var = true
      · rw [hsemNh a hav, hsem2m' a, hstab_high1 a, hstepH a hav]
      · have havf : a lhs.current_var = false := by
          rw [Bool.not_eq_true] at hav
          exact hav
        rw [hsemNl a havf, hstab_rl2 a, hstepL a havf]
        apply hsem1m'
        rcases hcase with hnm | hz
        · left
          intro hm'
          exact hnm (matchesFrom_down _ _ _ _ hcv (havf.trans hbf.symm) hm')
        · right
          exact hz

/-- Soundness of the fused APPLY: with a well-formed cache and a held
RHS, `ipset_apply_or` succeeds, preserves the invariant and every live
record, and computes the short-circuit or of the element with the set. -/
theorem apply_or_sound : ∀ (fuel : Nat) (c : NodeCache) (lhs : FakeNode)
    (rhs : NodeId) (O : List NodeId),
    WFO c O lhs.var_count → strongValid c rhs = true →
    lhs.current_var ≤ lhs.var_count →
    (lhs.current_var = lhs.var_count ∨
      lhs.current_var ≤ varOf c lhs.var_count rhs) →
    lhs.var_count + 1 - lhs.current_var < fuel →
    OrOutcome c lhs rhs O (FusedOr.ipset_apply_or fuel c lhs rhs) := by
  intro fuel
  induction fuel with
  | zero =>
    intro c lhs rhs O _ _ _ _ hfuel
    omega
  | succ fuel ih =>
    intro c lhs rhs O hwf hrhs hcv hord hfuel
    rw [apply_or_succ]
    by_cases hterm : (lhs.current_var == lhs.var_count) = true
    · rw [if_pos hterm]
      have hcveq : lhs.current_var = lhs.var_count := by simpa using hterm
      by_cases hval : (lhs.value == 0) = true
      · rw [if_pos hval]
        have hv0 : lhs.value = 0 := by simpa using hval
        have hwfI := incref_wfo c O lhs.var_count hwf rhs hrhs
        refine ⟨_, _, rfl, hwfI, shapeEq_pres c _ (shapeEq_incref c rhs),
          ?_, ?_, ?_, ?_⟩
        · exact owned_strongValid _ (rhs :: O) _ hwfI rhs (List.mem_cons_self _ _)
        · rw [shapeEq_varOf c _ (shapeEq_incref c rhs)]
          exact min_le_right _ _
        · intro a _ hne
          exact absurd hv0 hne
        · intro a _
          exact evalT_stable c _ O lhs.var_count hwf
            (shapeEq_pres c _ (shapeEq_incref c rhs)) rhs a hrhs
      · rw [if_neg hval]
        have hvne : lhs.value ≠ 0 := by simpa using hval
        refine ⟨_, _, rfl, WFO_cons_terminal c O lhs.var_count lhs.value hwf,
          fun k hk => ⟨hk, rfl, rfl, rfl⟩, by simp [strongValid], ?_, ?_, ?_⟩
        · have hvt : varOf c lhs.var_count (terminalId lhs.value) =
              lhs.var_count := by
            unfold varOf
            rw [if_pos (isTerminal_terminalId _)]
          rw [hvt]
          refine le_trans (min_le_left _ _) ?_
          omega
        · intro a _ _
          exact evalT_terminal c _ _ a
        · intro a hcase
          rcases hcase with hnm | hz
          · refine absurd ?_ hnm
            rw [hcveq]
            exact matchesFrom_vac _ _ _
          · exact absurd hz hvne
    · rw [if_neg hterm]
      have hcvne : lhs.current_var ≠ lhs.var_count := by simpa using hterm
      have hcvlt : lhs.current_var < lhs.var_count := by omega
      have hordv : lhs.current_var ≤ varOf c lhs.var_count rhs := by
        rcases hord with h | h
        · exact absurd h hcvne
        · exact h
      by_cases hrt : isTerminal rhs = true
      · rw [if_pos hrt]
        have hchild : childOk c lhs.current_var rhs = true := by
          simp [childOk, hrt]
        exact recurse_left_sound fuel ih c lhs rhs O hwf hrhs hcvlt hchild
          (by omega)
      · rw [if_neg hrt]
        have hrtf : isTerminal rhs = false := by simpa using hrt
        have hvofr : varOf c lhs.var_count rhs =
            (getNode c (nodeIndex rhs)).var := by
          unfold varOf
          rw [if_neg hrt]
        by_cases heqv : (lhs.current_var ==
            (getNode c (nodeIndex rhs)).var) = true
        · rw [if_pos heqv]
          exact recurse_both_sound fuel ih c lhs rhs O hwf hrhs hcvlt hrtf
            (beq_iff_eq.mp heqv).symm (by omega)
        · rw [if_neg heqv]
          have hne : lhs.current_var ≠ (getNode c (nodeIndex rhs)).var := by
            simpa using heqv
          by_cases hlt : lhs.current_var < (getNode c (nodeIndex rhs)).var
          · rw [if_pos hlt]
            have hchild : childOk c lhs.current_var rhs = true := by
              unfold childOk
              rw [hrtf]
              simp only [Bool.false_or, Bool.and_eq_true, decide_eq_true_eq]
              unfold strongValid at hrhs
              simp [hrtf] at hrhs
              exact ⟨hrhs.1, hlt⟩
            exact recurse_left_sound fuel ih c lhs rhs O hwf hrhs hcvlt hchild
              (by omega)
          · rw [if_neg hlt]
            exfalso
            rw [hvofr] at hordv
            omega

/-- A fresh cache satisfies the invariant with no held references. -/
theorem WFO_new (vb : Nat) : WFO ipset_node_cache_new [] vb := by
  refine ⟨⟨?_, ?_⟩, ?_, ?_, ?_, ?_, ?_, ?_⟩
  · intro i hi
    simp [ipset_node_cache_new] at hi
  · simp [ipset_node_cache_new]
  · intro i hi
    simp [ipset_node_cache_new] at hi
  · intro i hi
    simp [ipset_node_cache_new] at hi
  · intro i hi
    simp [isLive, ipset_node_cache_new] at hi
  · intro i hi
    simp [isLive, ipset_node_cache_new] at hi
  · intro id hid
    simp at hid
  · intro i hi
    simp [isLive, ipset_node_cache_new] at hi

/-- Soundness of `ipset_node_insert`: the built-in fuel suffices. -/
theorem insert_sound (c : NodeCache) (S : NodeId) (a : Nat → Bool)
    (vb v : Nat) (O : List NodeId) (hwf : WFO c O vb)
    (hS : strongValid c S = true) :
    OrOutcome c ⟨0, vb, a, v⟩ S O (ipset_node_insert c S a vb v) := by
  unfold ipset_node_insert
  exact apply_or_sound (vb + 2) c ⟨0, vb, a, v⟩ S O hwf hS (Nat.zero_le _)
    (Or.inr (Nat.zero_le _)) (by show vb + 1 - 0 < vb + 2; omega)

/-- Claim C1: membership after insertion — inserting the encoded
assignment of an address with value 1 into a held set root of a
well-formed cache, then evaluating the resulting root under the same
assignment with `ipset_node_evaluate`, returns 1. -/
theorem C1_membership_after_insert (c : NodeCache) (O : List NodeId)
    (vb : Nat) (S : NodeId) (a : Nat → Bool)
    (hwf : WFO c O vb) (hS : strongValid c S = true) :
    ∃ c' r, ipset_node_insert c S a vb 1 = some (c', r) ∧
      ipset_node_evaluate (vb + 2) c' r a = some 1 := by
  obtain ⟨c', r, heq, hwf', hpres, hsv, hvo, hsemp, hsemm⟩ :=
    insert_sound c S a vb 1 O hwf hS
  have hwf'' : WFO c' (r :: O) vb := hwf'
  have hsemp' : ∀ x, matchesFrom 0 vb a x → (1 : Nat) ≠ 0 →
      evalT c' vb r x = 1 := hsemp
  refine ⟨c', r, heq, ?_⟩
  have h1 : evalT c' vb r a = 1 := hsemp' a (fun k _ _ => rfl) (by omega)
  obtain ⟨w, hw⟩ := eval_total c' (r :: O) vb hwf'' (vb + 2) r a hsv (by omega)
  have h2 := evalT_eq c' vb r a (vb + 2) w hw (le_refl _)
  have hw1 : w = 1 := by rw [← h2, h1]
  rw [hw1] at hw
  exact hw

/-- Witness for C1 at a concrete input: inserting the all-true
assignment over one variable into the empty set (terminal 0). -/
theorem C1_membership_after_insert_witness :
    WFO ipset_node_cache_new [] 1 ∧
    strongValid ipset_node_cache_new (terminalId 0) = true ∧
    ∃ c' r, ipset_node_insert ipset_node_cache_new (terminalId 0)
        (fun _ => true) 1 1 = some (c', r) ∧
      ipset_node_evaluate (1 + 2) c' r (fun _ => true) = some 1 :=
  ⟨WFO_new 1, by decide,
    C1_membership_after_insert ipset_node_cache_new [] 1 (terminalId 0)
      (fun _ => true) (WFO_new 1) (by decide)⟩

/-- Claim C5: idempotence of add — on a well-formed cache, inserting the
same assignment with the same value into the result of a first insertion
returns the same root id (by canonicity of the unique table: the second
result denotes the same function as the first). -/
theorem C5_idempotence_of_add (c : NodeCache) (O : List NodeId) (vb : Nat)
    (S : NodeId) (a : Nat → Bool) (v : Nat)
    (hwf : WFO c O vb) (hS : strongValid c S = true) :
    ∃ c₁ r, ipset_node_insert c S a vb v = some (c₁, r) ∧
      ∃ c₂, ipset_node_insert c₁ r a vb v = some (c₂, r) := by
  obtain ⟨c₁, r, heq1, hwf1, hpres1, hsv1, hvo1, hsem1p, hsem1m⟩ :=
    insert_sound c S a vb v O hwf hS
  have hwf1' : WFO c₁ (r :: O) vb := hwf1
  have hsv1' : strongValid c₁ r = true := hsv1
  have hsem1p' : ∀ x, matchesFrom 0 vb a x → v ≠ 0 →
      evalT c₁ vb r x = v := hsem1p
  obtain ⟨c₂, r₂, heq2, hwf2, hpres2, hsv2, hvo2, hsem2p, hsem2m⟩ :=
    insert_sound c₁ r a vb v (r :: O) hwf1' hsv1'
  have hwf2' : WFO c₂ (r₂ :: r :: O) vb := hwf2
  have hpres2' : PresMap c₁ c₂ := hpres2
  have hsv2' : strongValid c₂ r₂ = true := hsv2
  have hsem2p' : ∀ x, matchesFrom 0 vb a x → v ≠ 0 →
      evalT c₂ vb r₂ x = v := hsem2p
  have hsem2m' : ∀ x, ¬matchesFrom 0 vb a x ∨ v = 0 →
      evalT c₂ vb r₂ x = evalT c₁ vb r x := hsem2m
  refine ⟨c₁, r, heq1, c₂, ?_⟩
  have hsvr2 : strongValid c₂ r = true :=
    strongValid_pres c₁ c₂ hpres2' hwf2'.nz r hsv1'
  have hstab : ∀ x, evalT c₂ vb r x = evalT c₁ vb r x := fun x =>
    evalT_stable c₁ c₂ (r :: O) vb hwf1' hpres2' r x hsv1'
  have heqden : ∀ x, evalT c₂ vb r₂ x = evalT c₂ vb r x := by
    intro x
    by_cases hm : matchesFrom 0 vb a x
    · by_cases hv0 : v = 0
      · rw [hsem2m' x (Or.inr hv0), hstab x]
      · rw [hsem2p' x hm hv0, hstab x, hsem1p' x hm hv0]
    · rw [hsem2m' x (Or.inl hm), hstab x]
  have hre := canonical c₂ (r₂ :: r :: O) vb hwf2' r₂ r hsv2' hsvr2 heqden
  rw [heq2, hre]

/-- Witness for C5 at a concrete input: inserting the all-true
assignment over one variable into the empty set twice. -/
theorem C5_idempotence_of_add_witness :
    WFO ipset_node_cache_new [] 1 ∧
    strongValid ipset_node_cache_new (terminalId 0) = true ∧
    ∃ c₁ r, ipset_node_insert ipset_node_cache_new (terminalId 0)
        (fun _ => true) 1 1 = some (c₁, r) ∧
      ∃ c₂, ipset_node_insert c₁ r (fun _ => true) 1 1 = some (c₂, r) :=
  ⟨WFO_new 1, by decide,
    C5_idempotence_of_add ipset_node_cache_new [] 1 (terminalId 0)
      (fun _ => true) 1 (WFO_new 1) (by decide)⟩

set_option maxRecDepth 8000 in
set_option maxHeartbeats 1600000 in
/-- Counterexample to claim C2: on the cache holding the chain element
BDD for the all-true assignment over one variable (value 1) and with the
binary-or result already memoized, `ipset_node_cache_or` of the element
with the set `terminal 2` returns node id 2 — whose high child is
`terminal 3`, by bitwise or `1 ||| 2` — while the fused
`ipset_node_insert` of the same assignment into the same set on the very
same cache returns the fresh node id 4 — whose high child is
`terminal 1`, by short-circuit or.  The two ids differ, and so do the
functions they denote. -/
theorem C2_counterexample_insert_ne_or :
    specElemChain ipset_node_cache_new (fun _ => true) 1 1 =
      (⟨[⟨0, 1, 3, 1⟩], [], [], [], []⟩, 0) ∧
    ipset_node_cache_or 4 (⟨[⟨0, 1, 3, 1⟩], [], [], [], []⟩ : NodeCache) 0
      (terminalId 2) =
      some (⟨[⟨0, 1, 3, 1⟩, ⟨0, 5, 7, 1⟩], [], [],
        [((0, 5), 2), ((3, 5), 7), ((1, 5), 5)], []⟩, 2) ∧
    Option.map Prod.snd (ipset_node_cache_or 4
      (⟨[⟨0, 1, 3, 1⟩, ⟨0, 5, 7, 1⟩], [], [],
        [((0, 5), 2), ((3, 5), 7), ((1, 5), 5)], []⟩ : NodeCache) 0
      (terminalId 2)) = some 2 ∧
    Option.map Prod.snd (ipset_node_insert
      (⟨[⟨0, 1, 3, 1⟩, ⟨0, 5, 7, 1⟩], [], [],
        [((0, 5), 2), ((3, 5), 7), ((1, 5), 5)], []⟩ : NodeCache)
      (terminalId 2) (fun _ => true) 1 1) = some 4 ∧
    (4 : NodeId) ≠ 2 := by
  refine ⟨by decide, ?_, ?_, ?_, by decide⟩
  · simp only [ipset_node_cache_or, BinaryOps.cached_op, BinaryOps.apply_op,
      BinaryOps.recurse_left, BinaryOps.recurse_both]
    decide
  · simp only [ipset_node_cache_or, BinaryOps.cached_op, BinaryOps.apply_op,
      BinaryOps.recurse_left, BinaryOps.recurse_both]
    decide
  · simp only [ipset_node_insert, FusedOr.ipset_apply_or,
      FusedOr.recurse_left, FusedOr.recurse_both, FusedOr.recurse_right]
    decide

/-- Amended claim C2: the fused insertion computes the SHORT-CIRCUIT or
of the element BDD with the set — on assignments that complete the
inserted partial assignment the element's value `v` takes precedence
(when `v ≠ 0`), and on all other assignments the result evaluates
exactly as the original set root did.  It does not, in general, return
the same node id as `ipset_node_cache_or` applied to the chain element
BDD, whose engine combines terminals bitwise. -/
theorem C2_amended_insert_shortcircuit_or (c : NodeCache) (O : List NodeId)
    (vb v : Nat) (S : NodeId) (a : Nat → Bool)
    (hwf : WFO c O vb) (hS : strongValid c S = true) :
    ∃ c' r, ipset_node_insert c S a vb v = some (c', r) ∧
      (∀ x, matchesFrom 0 vb a x → v ≠ 0 → evalT c' vb r x = v) ∧
      (∀ x, (¬ matchesFrom 0 vb a x ∨ v = 0) →
        evalT c' vb r x = evalT c vb S x) := by
  obtain ⟨c', r, heq, hwf', hpres, hsv, hvo, hsemp, hsemm⟩ :=
    insert_sound c S a vb v O hwf hS
  have hsemp' : ∀ x, matchesFrom 0 vb a x → v ≠ 0 →
      evalT c' vb r x = v := hsemp
  have hsemm' : ∀ x, (¬ matchesFrom 0 vb a x ∨ v = 0) →
      evalT c' vb r x = evalT c vb S x := hsemm
  exact ⟨c', r, heq, hsemp', hsemm'⟩

/-- Witness for the amended claim C2 at a concrete input: inserting the
all-true assignment over one variable with value 1 into the empty set
root `terminal 0` of a fresh cache. -/
theorem C2_amended_insert_shortcircuit_or_witness :
    strongValid ipset_node_cache_new (terminalId 0) = true ∧
    ∃ c' r, ipset_node_insert ipset_node_cache_new (terminalId 0)
        (fun _ => true) 1 1 = some (c', r) ∧
      (∀ x, matchesFrom 0 1 (fun _ => true) x → (1 : Nat) ≠ 0 →
        evalT c' 1 r x = 1) ∧
      (∀ x, (¬ matchesFrom 0 1 (fun _ => true) x ∨ (1 : Nat) = 0) →
        evalT c' 1 r x = evalT ipset_node_cache_new 1 (terminalId 0) x) :=
  ⟨by decide, C2_amended_insert_shortcircuit_or ipset_node_cache_new [] 1 1
    (terminalId 0) (fun _ => true) (WFO_new 1) (by decide)⟩
